import Mathlib

/-!
Verification of the event-finder pipeline (URL normalization, date parsing,
search/selection/extraction workflow) against its natural-language
specification.  The Python sources under `src/event_finder` are shallowly
embedded: strings are `List Char`, machine-level library calls
(`urllib.parse`, `datetime`) are modelled byte- and character-faithfully,
exceptions are `Except PyErr`, and external collaborators (HTTP search,
scraping, the fuzzy `dateutil` parser) are explicit oracle parameters.
-/

namespace EventFinder

/-- Python exception classes that the embedded code can raise or catch. -/
inductive PyErr where
  | typeError
  | valueError
  | validationError
  | overflowError
  deriving Repr, DecidableEq

/-! ## Character helpers (Python `str.lower`, ASCII classes)

`str.lower()` is modelled on the ASCII range (A–Z ↦ a–z); non-ASCII
characters are left unchanged.  All inputs exercised by the claims are
covered by this range. -/

/-- ASCII lowercasing of one character, as Python `str.lower` acts on A–Z. -/
def lowerChar (c : Char) : Char :=
  if 65 ≤ c.toNat ∧ c.toNat ≤ 90 then Char.ofNat (c.toNat + 32) else c

/-- `url.lower()` over a character list. -/
def pyLower (l : List Char) : List Char := l.map lowerChar

theorem char_toNat_valid (c : Char) :
    c.toNat < 0xd800 ∨ (0xdfff < c.toNat ∧ c.toNat < 0x110000) := by
  have h := c.valid
  rcases h with h | ⟨h1, h2⟩
  · left
    exact h
  · right
    exact ⟨h1, h2⟩

theorem char_toNat_lt (c : Char) : c.toNat < 0x110000 := by
  rcases char_toNat_valid c with h | ⟨_, h⟩
  · omega
  · exact h

theorem toNat_ofNat_valid {n : Nat}
    (h : n < 0xd800 ∨ (0xdfff < n ∧ n < 0x110000)) :
    (Char.ofNat n).toNat = n := by
  have hv : n.isValidChar := h
  unfold Char.ofNat
  rw [dif_pos hv]
  rfl

theorem ofNat_toNat' (c : Char) : Char.ofNat c.toNat = c :=
  Char.ofNat_toNat c

theorem lowerChar_toNat (c : Char) :
    (lowerChar c).toNat = if 65 ≤ c.toNat ∧ c.toNat ≤ 90 then c.toNat + 32 else c.toNat := by
  unfold lowerChar
  split
  · next h =>
    exact toNat_ofNat_valid (Or.inl (by omega))
  · next h =>
    rfl

theorem lowerChar_eq_of_not {c : Char} (h : ¬ (65 ≤ c.toNat ∧ c.toNat ≤ 90)) :
    lowerChar c = c := by
  unfold lowerChar
  rw [if_neg h]

theorem lowerChar_idem (c : Char) : lowerChar (lowerChar c) = lowerChar c := by
  by_cases h : 65 ≤ c.toNat ∧ c.toNat ≤ 90
  · apply lowerChar_eq_of_not
    rw [lowerChar_toNat, if_pos h]
    omega
  · rw [lowerChar_eq_of_not h]
    exact lowerChar_eq_of_not h

theorem pyLower_idem (l : List Char) : pyLower (pyLower l) = pyLower l := by
  unfold pyLower
  rw [List.map_map]
  apply List.map_congr_left
  intro c _
  exact lowerChar_idem c

/-! ## UTF-8 encoding and decoding

`urllib.parse.quote` encodes non-safe characters as UTF-8 bytes and
percent-escapes each byte; `unquote` collects the bytes of an ASCII run and
decodes them with `bytes.decode('utf-8', errors='replace')`.  Invalid
sequences produce U+FFFD; the replacement granularity approximates CPython
(one replacement per offending lead byte), which no claim depends on. -/

/-- UTF-8 encoding of a Unicode scalar value. -/
def utf8EncodeNat (n : Nat) : List Nat :=
  if n < 0x80 then [n]
  else if n < 0x800 then [0xC0 + n / 64, 0x80 + n % 64]
  else if n < 0x10000 then [0xE0 + n / 4096, 0x80 + n / 64 % 64, 0x80 + n % 64]
  else [0xF0 + n / 262144, 0x80 + n / 4096 % 64, 0x80 + n / 64 % 64, 0x80 + n % 64]

/-- UTF-8 bytes of a character. -/
def utf8Encode (c : Char) : List Nat := utf8EncodeNat c.toNat

/-- U+FFFD, the replacement character used by `errors='replace'`. -/
def replChar : Char := Char.ofNat 0xFFFD

/-- Whether `b2` is an acceptable second byte after lead byte `b` of a
three-byte sequence (strict UTF-8 excludes overlongs and surrogates). -/
def cont3Ok (b b2 : Nat) : Bool :=
  if b = 0xE0 then decide (0xA0 ≤ b2 ∧ b2 ≤ 0xBF)
  else if b = 0xED then decide (0x80 ≤ b2 ∧ b2 ≤ 0x9F)
  else decide (0x80 ≤ b2 ∧ b2 ≤ 0xBF)

/-- Whether `b2` is an acceptable second byte after lead byte `b` of a
four-byte sequence. -/
def cont4Ok (b b2 : Nat) : Bool :=
  if b = 0xF0 then decide (0x90 ≤ b2 ∧ b2 ≤ 0xBF)
  else if b = 0xF4 then decide (0x80 ≤ b2 ∧ b2 ≤ 0x8F)
  else decide (0x80 ≤ b2 ∧ b2 ≤ 0xBF)

/-- Strict UTF-8 decoding with replacement on error, byte list to text. -/
def utf8Decode (l : List Nat) : List Char :=
  match l with
  | [] => []
  | [b] =>
    if b < 0x80 then [Char.ofNat b] else [replChar]
  | [b, b2] =>
    if b < 0x80 then Char.ofNat b :: utf8Decode [b2]
    else if b < 0xC2 then replChar :: utf8Decode [b2]
    else if b ≤ 0xDF then
      if 0x80 ≤ b2 ∧ b2 ≤ 0xBF then [Char.ofNat ((b - 0xC0) * 64 + (b2 - 0x80))]
      else replChar :: utf8Decode [b2]
    else replChar :: utf8Decode [b2]
  | [b, b2, b3] =>
    if b < 0x80 then Char.ofNat b :: utf8Decode [b2, b3]
    else if b < 0xC2 then replChar :: utf8Decode [b2, b3]
    else if b ≤ 0xDF then
      if 0x80 ≤ b2 ∧ b2 ≤ 0xBF then
        Char.ofNat ((b - 0xC0) * 64 + (b2 - 0x80)) :: utf8Decode [b3]
      else replChar :: utf8Decode [b2, b3]
    else if b ≤ 0xEF then
      if cont3Ok b b2 ∧ 0x80 ≤ b3 ∧ b3 ≤ 0xBF then
        [Char.ofNat ((b - 0xE0) * 4096 + (b2 - 0x80) * 64 + (b3 - 0x80))]
      else replChar :: utf8Decode [b2, b3]
    else replChar :: utf8Decode [b2, b3]
  | b :: b2 :: b3 :: b4 :: bs4 =>
    if b < 0x80 then Char.ofNat b :: utf8Decode (b2 :: b3 :: b4 :: bs4)
    else if b < 0xC2 then replChar :: utf8Decode (b2 :: b3 :: b4 :: bs4)
    else if b ≤ 0xDF then
      if 0x80 ≤ b2 ∧ b2 ≤ 0xBF then
        Char.ofNat ((b - 0xC0) * 64 + (b2 - 0x80)) :: utf8Decode (b3 :: b4 :: bs4)
      else replChar :: utf8Decode (b2 :: b3 :: b4 :: bs4)
    else if b ≤ 0xEF then
      if cont3Ok b b2 ∧ 0x80 ≤ b3 ∧ b3 ≤ 0xBF then
        Char.ofNat ((b - 0xE0) * 4096 + (b2 - 0x80) * 64 + (b3 - 0x80)) :: utf8Decode (b4 :: bs4)
      else replChar :: utf8Decode (b2 :: b3 :: b4 :: bs4)
    else if b ≤ 0xF4 then
      if cont4Ok b b2 ∧ (0x80 ≤ b3 ∧ b3 ≤ 0xBF) ∧ 0x80 ≤ b4 ∧ b4 ≤ 0xBF then
        Char.ofNat ((b - 0xF0) * 262144 + (b2 - 0x80) * 4096 + (b3 - 0x80) * 64 + (b4 - 0x80))
          :: utf8Decode bs4
      else replChar :: utf8Decode (b2 :: b3 :: b4 :: bs4)
    else replChar :: utf8Decode (b2 :: b3 :: b4 :: bs4)

theorem utf8Decode_one {b : Nat} (h : b < 0x80) (r : List Nat) :
    utf8Decode (b :: r) = Char.ofNat b :: utf8Decode r := by
  match r with
  | [] => simp [utf8Decode, h]
  | [x] => simp [utf8Decode, h]
  | [x, y] => simp [utf8Decode, h]
  | x :: y :: z :: t => simp [utf8Decode, h]

theorem utf8Decode_two {b b2 : Nat} (h : 0xC2 ≤ b ∧ b ≤ 0xDF)
    (h2 : 0x80 ≤ b2 ∧ b2 ≤ 0xBF) (r : List Nat) :
    utf8Decode (b :: b2 :: r) =
      Char.ofNat ((b - 0xC0) * 64 + (b2 - 0x80)) :: utf8Decode r := by
  have hn1 : ¬ b < 0x80 := by omega
  have hn2 : ¬ b < 0xC2 := by omega
  match r with
  | [] => simp [utf8Decode, hn1, hn2, h.2, h2]
  | [x] => simp [utf8Decode, hn1, hn2, h.2, h2]
  | x :: y :: t => simp [utf8Decode, hn1, hn2, h.2, h2]

theorem utf8Decode_three {b b2 b3 : Nat} (h : 0xE0 ≤ b ∧ b ≤ 0xEF)
    (h2 : cont3Ok b b2) (h3 : 0x80 ≤ b3 ∧ b3 ≤ 0xBF) (r : List Nat) :
    utf8Decode (b :: b2 :: b3 :: r) =
      Char.ofNat ((b - 0xE0) * 4096 + (b2 - 0x80) * 64 + (b3 - 0x80)) :: utf8Decode r := by
  have hn1 : ¬ b < 0x80 := by omega
  have hn2 : ¬ b < 0xC2 := by omega
  have hn3 : ¬ b ≤ 0xDF := by omega
  match r with
  | [] => simp [utf8Decode, hn1, hn2, hn3, h.2, h2, h3]
  | x :: t => simp [utf8Decode, hn1, hn2, hn3, h.2, h2, h3]

theorem utf8Decode_four {b b2 b3 b4 : Nat} (h : 0xF0 ≤ b ∧ b ≤ 0xF4)
    (h2 : cont4Ok b b2) (h3 : 0x80 ≤ b3 ∧ b3 ≤ 0xBF) (h4 : 0x80 ≤ b4 ∧ b4 ≤ 0xBF)
    (r : List Nat) :
    utf8Decode (b :: b2 :: b3 :: b4 :: r) =
      Char.ofNat ((b - 0xF0) * 262144 + (b2 - 0x80) * 4096 + (b3 - 0x80) * 64 + (b4 - 0x80))
        :: utf8Decode r := by
  have hn1 : ¬ b < 0x80 := by omega
  have hn2 : ¬ b < 0xC2 := by omega
  have hn3 : ¬ b ≤ 0xDF := by omega
  have hn4 : ¬ b ≤ 0xEF := by omega
  simp [utf8Decode, hn1, hn2, hn3, hn4, h.2, h2, h3, h4]

theorem utf8Decode_encode_append (c : Char) (r : List Nat) :
    utf8Decode (utf8Encode c ++ r) = c :: utf8Decode r := by
  have hval := char_toNat_valid c
  have hlt := char_toNat_lt c
  unfold utf8Encode utf8EncodeNat
  by_cases h1 : c.toNat < 0x80
  · rw [if_pos h1, List.cons_append, List.nil_append, utf8Decode_one h1, ofNat_toNat' c]
  · rw [if_neg h1]
    by_cases h2 : c.toNat < 0x800
    · rw [if_pos h2]
      rw [show ([0xC0 + c.toNat / 64, 0x80 + c.toNat % 64] : List Nat) ++ r
            = (0xC0 + c.toNat / 64) :: (0x80 + c.toNat % 64) :: r from rfl]
      rw [utf8Decode_two (by omega) (by omega)]
      have : (0xC0 + c.toNat / 64 - 0xC0) * 64 + (0x80 + c.toNat % 64 - 0x80) = c.toNat := by
        omega
      rw [this, ofNat_toNat' c]
    · rw [if_neg h2]
      by_cases h3 : c.toNat < 0x10000
      · rw [if_pos h3]
        rw [show ([0xE0 + c.toNat / 4096, 0x80 + c.toNat / 64 % 64, 0x80 + c.toNat % 64]
              : List Nat) ++ r
            = (0xE0 + c.toNat / 4096) :: (0x80 + c.toNat / 64 % 64) :: (0x80 + c.toNat % 64)
                :: r from rfl]
        rw [utf8Decode_three (by omega) ?hc (by omega)]
        · have : (0xE0 + c.toNat / 4096 - 0xE0) * 4096 + (0x80 + c.toNat / 64 % 64 - 0x80) * 64
              + (0x80 + c.toNat % 64 - 0x80) = c.toNat := by
            omega
          rw [this, ofNat_toNat' c]
        case hc =>
          unfold cont3Ok
          split
          · next he =>
            -- lead byte 0xE0 forces the scalar below 0x1000, second byte ≥ 0xA0
            have : c.toNat / 4096 = 0 := by omega
            simp only [decide_eq_true_eq]
            omega
          · split
            · next he2 =>
              -- lead byte 0xED would mean a surrogate scalar; validity excludes it
              have : c.toNat / 4096 = 13 := by omega
              simp only [decide_eq_true_eq]
              omega
            · simp only [decide_eq_true_eq]
              omega
      · rw [if_neg h3]
        rw [show ([0xF0 + c.toNat / 262144, 0x80 + c.toNat / 4096 % 64,
                0x80 + c.toNat / 64 % 64, 0x80 + c.toNat % 64] : List Nat) ++ r
            = (0xF0 + c.toNat / 262144) :: (0x80 + c.toNat / 4096 % 64)
                :: (0x80 + c.toNat / 64 % 64) :: (0x80 + c.toNat % 64) :: r from rfl]
        rw [utf8Decode_four (by omega) ?hc (by omega) (by omega)]
        · have : (0xF0 + c.toNat / 262144 - 0xF0) * 262144
              + (0x80 + c.toNat / 4096 % 64 - 0x80) * 4096
              + (0x80 + c.toNat / 64 % 64 - 0x80) * 64
              + (0x80 + c.toNat % 64 - 0x80) = c.toNat := by
            omega
          rw [this, ofNat_toNat' c]
        case hc =>
          unfold cont4Ok
          split
          · next he =>
            have : c.toNat / 262144 = 0 := by omega
            simp only [decide_eq_true_eq]
            omega
          · split
            · next he2 =>
              have : c.toNat / 262144 = 4 := by omega
              simp only [decide_eq_true_eq]
              omega
            · simp only [decide_eq_true_eq]
              omega

theorem utf8Decode_bind_encode (s : List Char) :
    utf8Decode (s.flatMap utf8Encode) = s := by
  induction s with
  | nil => rfl
  | cons c cs ih =>
    rw [List.flatMap_cons, utf8Decode_encode_append, ih]

/-! ## `urllib.parse.quote_plus` / `unquote_plus`

`quote_plus` keeps the characters of `_ALWAYS_SAFE` (letters, digits,
`_.-~`), turns spaces into `+`, and percent-escapes the UTF-8 bytes of
everything else with uppercase hex.  `unquote_plus` maps `+` to space,
turns `%XX` hex pairs (any case) into bytes, leaves a bare `%` literal,
and decodes maximal ASCII byte runs as UTF-8 with `errors='replace'`;
non-ASCII characters pass through untouched. -/

theorem char_eq_iff_toNat {c d : Char} : c = d ↔ c.toNat = d.toNat := by
  constructor
  · intro h
    rw [h]
  · intro h
    have := congrArg Char.ofNat h
    rwa [ofNat_toNat', ofNat_toNat'] at this

/-- Python's `_ALWAYS_SAFE` set: characters `quote` never escapes. -/
def alwaysSafe (c : Char) : Bool :=
  decide ((65 ≤ c.toNat ∧ c.toNat ≤ 90) ∨ (97 ≤ c.toNat ∧ c.toNat ≤ 122) ∨
    (48 ≤ c.toNat ∧ c.toNat ≤ 57) ∨ c.toNat = 95 ∨ c.toNat = 46 ∨ c.toNat = 45 ∨ c.toNat = 126)

/-- Uppercase hex digit for a value below 16, as `quote` emits. -/
def hexDigitU (n : Nat) : Char :=
  if n < 10 then Char.ofNat (48 + n) else Char.ofNat (55 + n)

/-- The `%XX` escape of one byte. -/
def escByte (b : Nat) : List Char :=
  ['%', hexDigitU (b / 16), hexDigitU (b % 16)]

/-- `urllib.parse.quote_plus` with `safe=''`. -/
def quotePlus (s : List Char) : List Char :=
  s.flatMap fun c =>
    if c = ' ' then ['+']
    else if alwaysSafe c then [c]
    else (utf8Encode c).flatMap escByte

/-- Value of a hex digit character, either case (`_hextobyte`). -/
def hexVal (c : Char) : Option Nat :=
  if 48 ≤ c.toNat ∧ c.toNat ≤ 57 then some (c.toNat - 48)
  else if 65 ≤ c.toNat ∧ c.toNat ≤ 70 then some (c.toNat - 55)
  else if 97 ≤ c.toNat ∧ c.toNat ≤ 102 then some (c.toNat - 87)
  else none

/-- The `.replace('+', ' ')` step of `unquote_plus` / `parse_qsl`. -/
def plusToSpace (c : Char) : Char := if c = '+' then ' ' else c

/-- One token of the unquoting scan: a raw ASCII byte (literal ASCII
character, decoded `%XX` pair, or bare `%`), or a pass-through non-ASCII
character. -/
def tokenize (l : List Char) : List (Sum Nat Char) :=
  match l with
  | [] => []
  | c :: rest =>
    if c = '%' then
      match rest with
      | c1 :: c2 :: rest2 =>
        match hexVal c1, hexVal c2 with
        | some hi, some lo => Sum.inl (16 * hi + lo) :: tokenize rest2
        | some _, none => Sum.inl 37 :: tokenize (c1 :: c2 :: rest2)
        | none, some _ => Sum.inl 37 :: tokenize (c1 :: c2 :: rest2)
        | none, none => Sum.inl 37 :: tokenize (c1 :: c2 :: rest2)
      | [c1] => Sum.inl 37 :: tokenize [c1]
      | [] => [Sum.inl 37]
    else if c.toNat < 0x80 then Sum.inl c.toNat :: tokenize rest
    else Sum.inr c :: tokenize rest

/-- Decode the token stream: maximal byte runs through UTF-8, pass-through
characters verbatim.  `acc` holds the current byte run in reverse. -/
def groupGo (l : List (Sum Nat Char)) (acc : List Nat) : List Char :=
  match l with
  | [] => utf8Decode acc.reverse
  | Sum.inl b :: t => groupGo t (b :: acc)
  | Sum.inr c :: t => utf8Decode acc.reverse ++ c :: groupGo t []

/-- `urllib.parse.unquote_plus` (`encoding='utf-8', errors='replace'`). -/
def unquotePlus (l : List Char) : List Char :=
  groupGo (tokenize (l.map plusToSpace)) []

theorem groupGo_all_bytes (bs : List Nat) (acc : List Nat) :
    groupGo (bs.map Sum.inl) acc = utf8Decode (acc.reverse ++ bs) := by
  induction bs generalizing acc with
  | nil => simp [groupGo]
  | cons b t ih =>
    rw [List.map_cons]
    show groupGo (Sum.inl b :: t.map Sum.inl) acc = _
    rw [groupGo, ih (b :: acc)]
    simp

theorem tokenize_ascii {c : Char} (hne : ¬ c = '%') (hlt : c.toNat < 0x80) (r : List Char) :
    tokenize (c :: r) = Sum.inl c.toNat :: tokenize r := by
  rw [tokenize.eq_def]
  simp only [if_neg hne, if_pos hlt]

theorem tokenize_esc {c1 c2 : Char} {hi lo : Nat} (h1 : hexVal c1 = some hi)
    (h2 : hexVal c2 = some lo) (r : List Char) :
    tokenize ('%' :: c1 :: c2 :: r) = Sum.inl (16 * hi + lo) :: tokenize r := by
  rw [tokenize.eq_def]
  simp [h1, h2]

theorem hexVal_hexDigitU {n : Nat} (h : n < 16) : hexVal (hexDigitU n) = some n := by
  unfold hexVal hexDigitU
  by_cases h10 : n < 10
  · rw [if_pos h10]
    have ht : (Char.ofNat (48 + n)).toNat = 48 + n := toNat_ofNat_valid (Or.inl (by omega))
    rw [if_pos (by omega)]
    rw [ht]
    congr 1
    omega
  · rw [if_neg h10]
    have ht : (Char.ofNat (55 + n)).toNat = 55 + n := toNat_ofNat_valid (Or.inl (by omega))
    rw [if_neg (by rw [ht]; omega), if_pos (by rw [ht]; omega)]
    rw [ht]
    congr 1
    omega

theorem hexVal_lower_hexDigitU {n : Nat} (h : n < 16) :
    hexVal (lowerChar (hexDigitU n)) = some n := by
  unfold hexVal hexDigitU
  by_cases h10 : n < 10
  · rw [if_pos h10]
    have ht : (lowerChar (Char.ofNat (48 + n))).toNat = 48 + n := by
      rw [lowerChar_toNat, toNat_ofNat_valid (Or.inl (by omega))]
      rw [if_neg (by omega)]
    rw [if_pos (by omega)]
    rw [ht]
    congr 1
    omega
  · rw [if_neg h10]
    have ht : (lowerChar (Char.ofNat (55 + n))).toNat = 55 + n + 32 := by
      rw [lowerChar_toNat, toNat_ofNat_valid (Or.inl (by omega))]
      rw [if_pos (by omega)]
    rw [if_neg (by rw [ht]; omega), if_neg (by rw [ht]; omega), if_pos (by rw [ht]; omega)]
    rw [ht]
    congr 1
    omega

theorem utf8EncodeNat_lt (n : Nat) (hn : n < 0x110000) :
    ∀ b ∈ utf8EncodeNat n, b < 256 := by
  intro b hb
  unfold utf8EncodeNat at hb
  by_cases h1 : n < 0x80
  · rw [if_pos h1] at hb
    simp at hb
    omega
  · rw [if_neg h1] at hb
    by_cases h2 : n < 0x800
    · rw [if_pos h2] at hb
      simp at hb
      rcases hb with hb | hb <;> omega
    · rw [if_neg h2] at hb
      by_cases h3 : n < 0x10000
      · rw [if_pos h3] at hb
        simp at hb
        rcases hb with hb | hb | hb <;> omega
      · rw [if_neg h3] at hb
        simp at hb
        rcases hb with hb | hb | hb | hb <;> omega

theorem tokenize_escBytes {bs : List Nat} (hlt : ∀ b ∈ bs, b < 256) (r : List Char) :
    tokenize (bs.flatMap escByte ++ r) = bs.map Sum.inl ++ tokenize r := by
  induction bs with
  | nil => simp
  | cons b t ih =>
    have hb : b < 256 := hlt b (by simp)
    rw [List.flatMap_cons, List.append_assoc]
    show tokenize ('%' :: hexDigitU (b / 16) :: hexDigitU (b % 16) :: (t.flatMap escByte ++ r))
      = _
    rw [tokenize_esc (hexVal_hexDigitU (by omega)) (hexVal_hexDigitU (by omega))]
    rw [ih (fun x hx => hlt x (by simp [hx]))]
    simp
    omega

theorem alwaysSafe_props {c : Char} (h : alwaysSafe c = true) :
    c.toNat < 0x80 ∧ ¬ c = '%' ∧ ¬ c = '+' ∧ ¬ c = ' ' := by
  unfold alwaysSafe at h
  rw [decide_eq_true_eq] at h
  have h37 : ('%' : Char).toNat = 37 := rfl
  have h43 : ('+' : Char).toNat = 43 := rfl
  have h32 : (' ' : Char).toNat = 32 := rfl
  refine ⟨by omega, fun hc => ?_, fun hc => ?_, fun hc => ?_⟩ <;> rw [hc] at h
  · rw [h37] at h
    omega
  · rw [h43] at h
    omega
  · rw [h32] at h
    omega

theorem plusToSpace_eq_of_ne {c : Char} (h : ¬ c = '+') : plusToSpace c = c := by
  unfold plusToSpace
  rw [if_neg h]

theorem utf8Encode_lt (c : Char) : ∀ b ∈ utf8Encode c, b < 256 :=
  utf8EncodeNat_lt c.toNat (char_toNat_lt c)

theorem hexDigitU_toNat {n : Nat} (h : n < 16) :
    (hexDigitU n).toNat = if n < 10 then 48 + n else 55 + n := by
  unfold hexDigitU
  split
  · exact toNat_ofNat_valid (Or.inl (by omega))
  · exact toNat_ofNat_valid (Or.inl (by omega))

theorem map_plusToSpace_escBytes (bs : List Nat) (h : ∀ b ∈ bs, b < 256) :
    (bs.flatMap escByte).map plusToSpace = bs.flatMap escByte := by
  induction bs with
  | nil => rfl
  | cons b t ih =>
    have hb : b < 256 := h b (by simp)
    rw [List.flatMap_cons, List.map_append, ih (fun x hx => h x (by simp [hx]))]
    congr 1
    unfold escByte
    have hne : ∀ m, m < 16 → ¬ hexDigitU m = '+' := by
      intro m hm hc
      have := congrArg Char.toNat hc
      rw [hexDigitU_toNat hm] at this
      have h43 : ('+' : Char).toNat = 43 := rfl
      rw [h43] at this
      split at this <;> omega
    simp only [List.map_cons, List.map_nil]
    rw [plusToSpace_eq_of_ne (by decide), plusToSpace_eq_of_ne (hne _ (by omega)),
      plusToSpace_eq_of_ne (hne _ (by omega))]

/-- After `+`→space replacement, the tokens of a quoted string are exactly
the `inl`-tagged UTF-8 bytes of the original string. -/
theorem quotePlus_cons (c : Char) (t : List Char) :
    quotePlus (c :: t) = (if c = ' ' then ['+']
      else if alwaysSafe c then [c] else (utf8Encode c).flatMap escByte) ++ quotePlus t := by
  unfold quotePlus
  rw [List.flatMap_cons]

theorem tokenize_quotePlus (s r : List Char) :
    tokenize ((quotePlus s ++ r).map plusToSpace)
      = (s.flatMap utf8Encode).map Sum.inl ++ tokenize (r.map plusToSpace) := by
  induction s with
  | nil => simp [quotePlus]
  | cons c t ih =>
    rw [quotePlus_cons, List.append_assoc]
    by_cases hsp : c = ' '
    · rw [if_pos hsp, List.map_append]
      rw [show (['+'] : List Char).map plusToSpace = [' '] from rfl]
      rw [List.singleton_append]
      rw [tokenize_ascii (by decide) (by decide), ih]
      rw [List.flatMap_cons, hsp]
      rw [show utf8Encode ' ' = [32] from rfl]
      rw [show (' ' : Char).toNat = 32 from rfl]
      simp
    · rw [if_neg hsp]
      by_cases hsafe : alwaysSafe c
      · rw [if_pos hsafe, List.map_append]
        obtain ⟨hlt, hpct, hplus, _⟩ := alwaysSafe_props hsafe
        simp only [List.map_cons, List.map_nil]
        rw [List.singleton_append]
        rw [plusToSpace_eq_of_ne hplus]
        rw [tokenize_ascii hpct hlt, ih]
        have henc : utf8Encode c = [c.toNat] := by
          unfold utf8Encode utf8EncodeNat
          rw [if_pos hlt]
        rw [List.flatMap_cons, henc]
        simp
      · rw [if_neg hsafe, List.map_append]
        rw [map_plusToSpace_escBytes _ (utf8Encode_lt c)]
        rw [tokenize_escBytes (utf8Encode_lt c), ih]
        rw [List.flatMap_cons]
        simp

/-- `unquote_plus` undoes `quote_plus`. -/
theorem unquotePlus_quotePlus (s : List Char) :
    unquotePlus (quotePlus s) = s := by
  unfold unquotePlus
  rw [show quotePlus s = quotePlus s ++ [] from by simp]
  rw [tokenize_quotePlus]
  rw [show tokenize (([] : List Char).map plusToSpace) = [] from rfl]
  rw [List.append_nil, groupGo_all_bytes]
  rw [List.reverse_nil, List.nil_append]
  exact utf8Decode_bind_encode s

/-- No ASCII uppercase letters occur in the string.  Keys and values taken
from an already-lowercased query satisfy this. -/
def noUpper (s : List Char) : Prop :=
  ∀ c ∈ s, ¬ (65 ≤ c.toNat ∧ c.toNat ≤ 90)

theorem lowerChar_hexDigitU_ne_plus {n : Nat} (hn : n < 16) :
    ¬ lowerChar (hexDigitU n) = '+' := by
  intro hc
  have := congrArg Char.toNat hc
  rw [lowerChar_toNat, hexDigitU_toNat hn] at this
  have h43 : ('+' : Char).toNat = 43 := rfl
  rw [h43] at this
  split at this <;> split at this <;> omega

theorem tokenize_lower_escBytes (bs : List Nat) (h : ∀ b ∈ bs, b < 256) (r : List Char) :
    tokenize ((bs.flatMap escByte).map (fun c => plusToSpace (lowerChar c)) ++ r)
      = bs.map Sum.inl ++ tokenize r := by
  induction bs with
  | nil => simp
  | cons b t ih =>
    have hb : b < 256 := h b (by simp)
    rw [List.flatMap_cons, List.map_append, List.append_assoc]
    rw [show escByte b = ['%', hexDigitU (b / 16), hexDigitU (b % 16)] from rfl]
    simp only [List.map_cons, List.map_nil]
    rw [show plusToSpace (lowerChar '%') = '%' from rfl]
    rw [plusToSpace_eq_of_ne (lowerChar_hexDigitU_ne_plus (by omega : b / 16 < 16))]
    rw [plusToSpace_eq_of_ne (lowerChar_hexDigitU_ne_plus (by omega : b % 16 < 16))]
    simp only [List.cons_append, List.nil_append]
    rw [tokenize_esc (hexVal_lower_hexDigitU (by omega)) (hexVal_lower_hexDigitU (by omega))]
    rw [ih (fun x hx => h x (by simp [hx]))]
    simp
    omega

theorem tokenize_lower_quotePlus (s r : List Char) (hs : noUpper s) :
    tokenize ((quotePlus s ++ r).map (fun c => plusToSpace (lowerChar c)))
      = (s.flatMap utf8Encode).map Sum.inl
        ++ tokenize (r.map (fun c => plusToSpace (lowerChar c))) := by
  induction s with
  | nil => simp [quotePlus]
  | cons c t ih =>
    have hc : ¬ (65 ≤ c.toNat ∧ c.toNat ≤ 90) := hs c (by simp)
    have ht : noUpper t := fun x hx => hs x (by simp [hx])
    rw [quotePlus_cons, List.append_assoc]
    by_cases hsp : c = ' '
    · rw [if_pos hsp, List.map_append]
      rw [show (['+'] : List Char).map (fun c => plusToSpace (lowerChar c)) = [' '] from rfl]
      rw [List.singleton_append]
      rw [tokenize_ascii (by decide) (by decide), ih ht]
      rw [List.flatMap_cons, hsp]
      rw [show utf8Encode ' ' = [32] from rfl]
      rw [show (' ' : Char).toNat = 32 from rfl]
      simp
    · rw [if_neg hsp]
      by_cases hsafe : alwaysSafe c
      · rw [if_pos hsafe, List.map_append]
        obtain ⟨hlt, hpct, hplus, _⟩ := alwaysSafe_props hsafe
        simp only [List.map_cons, List.map_nil]
        rw [lowerChar_eq_of_not hc, plusToSpace_eq_of_ne hplus]
        rw [List.singleton_append]
        rw [tokenize_ascii hpct hlt, ih ht]
        have henc : utf8Encode c = [c.toNat] := by
          unfold utf8Encode utf8EncodeNat
          rw [if_pos hlt]
        rw [List.flatMap_cons, henc]
        simp
      · rw [if_neg hsafe, List.map_append]
        rw [tokenize_lower_escBytes _ (utf8Encode_lt c)]
        rw [ih ht]
        rw [List.flatMap_cons]
        simp

/-- `unquote_plus` also undoes `quote_plus` after `.lower()`, provided the
original text had no ASCII uppercase (hex escapes are case-insensitive). -/
theorem unquotePlus_lower_quotePlus (s : List Char) (hs : noUpper s) :
    unquotePlus (pyLower (quotePlus s)) = s := by
  unfold unquotePlus pyLower
  rw [List.map_map]
  rw [show (plusToSpace ∘ lowerChar) = (fun c => plusToSpace (lowerChar c)) from rfl]
  rw [show quotePlus s = quotePlus s ++ [] from by simp]
  rw [tokenize_lower_quotePlus s [] hs]
  rw [show tokenize (([] : List Char).map (fun c => plusToSpace (lowerChar c))) = [] from rfl]
  rw [List.append_nil, groupGo_all_bytes]
  rw [List.reverse_nil, List.nil_append]
  exact utf8Decode_bind_encode s

/-! ## List-of-characters utilities shared by the `urllib.parse` model -/

/-- `s.split(sep, 1)`: split at the first occurrence of `sep`, if any. -/
def splitFirst (sep : Char) : List Char → Option (List Char × List Char)
  | [] => none
  | c :: t =>
    if c = sep then some ([], t)
    else
      match splitFirst sep t with
      | some (a, b) => some (c :: a, b)
      | none => none

/-- `s.split(sep)`: split at every occurrence of `sep`. -/
def splitAll (sep : Char) : List Char → List (List Char)
  | [] => [[]]
  | c :: t =>
    if c = sep then [] :: splitAll sep t
    else
      match splitAll sep t with
      | p :: ps => (c :: p) :: ps
      | [] => [[c]]

/-- `sep.join(parts)` for a one-character separator. -/
def joinWith (sep : Char) : List (List Char) → List Char
  | [] => []
  | [x] => x
  | x :: y :: t => x ++ sep :: joinWith sep (y :: t)

theorem splitFirst_of_not_mem {sep : Char} {l : List Char} (h : sep ∉ l) :
    splitFirst sep l = none := by
  induction l with
  | nil => rfl
  | cons c t ih =>
    rw [splitFirst]
    rw [if_neg (by intro hc; exact h (hc ▸ List.mem_cons_self c t))]
    rw [ih (fun hm => h (List.mem_cons_of_mem c hm))]

theorem splitFirst_append_not_mem {sep : Char} {a : List Char} (h : sep ∉ a) (b : List Char) :
    splitFirst sep (a ++ sep :: b) = some (a, b) := by
  induction a with
  | nil => simp [splitFirst]
  | cons c t ih =>
    rw [List.cons_append, splitFirst]
    rw [if_neg (by intro hc; exact h (hc ▸ List.mem_cons_self c t))]
    rw [ih (fun hm => h (List.mem_cons_of_mem c hm))]

theorem splitFirst_eq_some {sep : Char} {l a b : List Char}
    (h : splitFirst sep l = some (a, b)) : l = a ++ sep :: b ∧ sep ∉ a := by
  induction l generalizing a b with
  | nil => simp [splitFirst] at h
  | cons c t ih =>
    rw [splitFirst] at h
    by_cases hc : c = sep
    · rw [if_pos hc] at h
      injection h with h
      injection h with h1 h2
      subst h1
      subst h2
      subst hc
      exact ⟨rfl, by simp⟩
    · rw [if_neg hc] at h
      match hsp : splitFirst sep t with
      | some (a', b') =>
        rw [hsp] at h
        injection h with h
        injection h with h1 h2
        obtain ⟨ht, hna⟩ := ih hsp
        subst h2
        rw [← h1, ht]
        refine ⟨rfl, ?_⟩
        intro hm
        rcases List.mem_cons.1 hm with hm | hm
        · exact hc hm.symm
        · exact hna hm
      | none =>
        rw [hsp] at h
        simp at h

theorem splitAll_not_mem {sep : Char} {l : List Char} (h : sep ∉ l) :
    splitAll sep l = [l] := by
  induction l with
  | nil => rfl
  | cons c t ih =>
    rw [splitAll]
    rw [if_neg (by intro hc; exact h (hc ▸ List.mem_cons_self c t))]
    rw [ih (fun hm => h (List.mem_cons_of_mem c hm))]

theorem splitAll_append {sep : Char} {a : List Char} (h : sep ∉ a) (b : List Char) :
    splitAll sep (a ++ sep :: b) = a :: splitAll sep b := by
  induction a with
  | nil => simp [splitAll]
  | cons c t ih =>
    rw [List.cons_append, splitAll]
    rw [if_neg (by intro hc; exact h (hc ▸ List.mem_cons_self c t))]
    rw [ih (fun hm => h (List.mem_cons_of_mem c hm))]

theorem splitAll_joinWith {sep : Char} :
    ∀ {parts : List (List Char)}, parts ≠ [] → (∀ x ∈ parts, sep ∉ x) →
      splitAll sep (joinWith sep parts) = parts
  | [], h, _ => absurd rfl h
  | [x], _, hx => by
    rw [joinWith]
    exact splitAll_not_mem (hx x (by simp))
  | x :: y :: t, _, hx => by
    rw [joinWith, splitAll_append (hx x (by simp))]
    rw [splitAll_joinWith (by simp) (fun z hz => hx z (List.mem_cons_of_mem x hz))]

/-- Character class removed by the WHATWG strip that modern CPython
`urlsplit` applies to both ends of the URL (C0 controls and space). -/
def isC0Space (c : Char) : Bool := decide (c.toNat ≤ 0x20)

/-- Characters removed everywhere by `urlsplit` (`\t`, `\r`, `\n`). -/
def isUnsafeByte (c : Char) : Bool :=
  decide (c.toNat = 9 ∨ c.toNat = 13 ∨ c.toNat = 10)

/-- `url.lstrip(_WHATWG_C0_CONTROL_OR_SPACE)`: CPython only lstrips, to
preserve trailing spaces some applications rely on. -/
def stripWSpace (l : List Char) : List Char :=
  l.dropWhile isC0Space

/-- Strip-then-remove cleaning done at the top of `urlsplit`. -/
def cleanUrl (l : List Char) : List Char :=
  (stripWSpace l).filter (fun c => ! isUnsafeByte c)

theorem dropWhile_eq_self_of_all {p : Char → Bool} {l : List Char}
    (h : ∀ c ∈ l, p c = false) : l.dropWhile p = l := by
  cases l with
  | nil => rfl
  | cons c t =>
    rw [List.dropWhile_cons, if_neg]
    rw [h c (by simp)]
    simp

theorem stripWSpace_of_all_good {l : List Char}
    (h : ∀ c ∈ l, isC0Space c = false) : stripWSpace l = l :=
  dropWhile_eq_self_of_all h

theorem dropWhile_eq_self_of_head {p : Char → Bool} {l : List Char}
    (h : ∀ hne : l ≠ [], p (l.head hne) = false) : l.dropWhile p = l := by
  cases l with
  | nil => rfl
  | cons c t =>
    have hc : p c = false := h (by simp)
    rw [List.dropWhile_cons, if_neg]
    rw [hc]
    simp

/-- Cleaning is a no-op when the first character is not C0/space and no
tab, CR or LF occurs anywhere. -/
theorem cleanUrl_of_head_good {l : List Char}
    (hh : ∀ hne : l ≠ [], isC0Space (l.head hne) = false)
    (hu : ∀ c ∈ l, isUnsafeByte c = false) : cleanUrl l = l := by
  unfold cleanUrl stripWSpace
  rw [dropWhile_eq_self_of_head hh]
  apply List.filter_eq_self.2
  intro c hc
  rw [hu c hc]
  rfl

theorem cleanUrl_of_all_good {l : List Char}
    (hg : ∀ c ∈ l, isC0Space c = false) : cleanUrl l = l := by
  unfold cleanUrl
  rw [stripWSpace_of_all_good hg]
  apply List.filter_eq_self.2
  intro c hc
  have h1 := hg c hc
  unfold isC0Space at h1
  unfold isUnsafeByte
  simp only [decide_eq_false_iff_not] at h1
  simp only [Bool.not_eq_true']
  rw [decide_eq_false_iff_not]
  omega

/-! ## `urllib.parse.urlsplit` / `urlparse` / `urlunparse`

Modelled on the modern CPython implementation: WHATWG strip/removal of
unsafe bytes, scheme detection at the first `:` (first character ASCII
alpha, all scheme characters), netloc after `//` up to `/?#` with the
IPv6-bracket `ValueError`, fragment split at the first `#`, query split at
the first `?`, and `;`-parameter splitting in the last path segment for
schemes that use parameters.  The `_checknetloc` NFKC test, which only
rejects exotic non-ASCII netlocs, is not modelled. -/

/-- ASCII letter. -/
def isAsciiAlpha (c : Char) : Bool :=
  decide ((65 ≤ c.toNat ∧ c.toNat ≤ 90) ∨ (97 ≤ c.toNat ∧ c.toNat ≤ 122))

/-- `scheme_chars`: letters, digits, `+`, `-`, `.`. -/
def isSchemeChar (c : Char) : Bool :=
  isAsciiAlpha c || decide ((48 ≤ c.toNat ∧ c.toNat ≤ 57) ∨
    c.toNat = 43 ∨ c.toNat = 45 ∨ c.toNat = 46)

/-- Result of `urlsplit`. -/
structure USplit where
  scheme : List Char
  netloc : List Char
  path : List Char
  query : List Char
  frag : List Char
  deriving Repr, DecidableEq

/-- Result of `urlparse`. -/
structure UParse where
  scheme : List Char
  netloc : List Char
  path : List Char
  params : List Char
  query : List Char
  frag : List Char
  deriving Repr, DecidableEq

/-- Scheme detection: split at the first `:` when the prefix is a valid
scheme (nonempty, ASCII-alpha first, scheme characters throughout). -/
def schemeSplit (url : List Char) : List Char × List Char :=
  match splitFirst ':' url with
  | some (pre, post) =>
    match pre with
    | [] => ([], url)
    | p0 :: _ =>
      if isAsciiAlpha p0 ∧ pre.all isSchemeChar then (pyLower pre, post) else ([], url)
  | none => ([], url)

/-- A character that does not end the netloc. -/
def notDelim (c : Char) : Bool := decide (¬ (c = '/' ∨ c = '?' ∨ c = '#'))

/-- `_splitnetloc`: netloc runs to the first `/`, `?` or `#`. -/
def splitNetloc (l : List Char) : List Char × List Char :=
  (l.takeWhile notDelim, l.dropWhile notDelim)

def urlsplitPy (url0 : List Char) : Except PyErr USplit :=
  let url := cleanUrl url0
  let sr := schemeSplit url
  let nr :=
    if sr.2.take 2 = ['/', '/'] then splitNetloc (sr.2.drop 2) else ([], sr.2)
  if ('[' ∈ nr.1 ∧ ']' ∉ nr.1) ∨ (']' ∈ nr.1 ∧ '[' ∉ nr.1) then
    .error .valueError
  else
    let fr :=
      match splitFirst '#' nr.2 with
      | some (u, f) => (u, f)
      | none => (nr.2, [])
    let pq :=
      match splitFirst '?' fr.1 with
      | some (u, q) => (u, q)
      | none => (fr.1, [])
    .ok ⟨sr.1, nr.1, pq.1, pq.2, fr.2⟩

/-- `uses_params`: schemes for which `urlparse` splits `;`-parameters. -/
def usesParams : List (List Char) :=
  [[], "ftp".data, "hdl".data, "prospero".data, "http".data, "imap".data,
   "https".data, "shttp".data, "rtsp".data, "rtsps".data, "rtspu".data,
   "sip".data, "sips".data, "mms".data, "sftp".data, "tel".data]

/-- `uses_netloc`: schemes for which `urlunsplit` re-adds `//`. -/
def usesNetloc : List (List Char) :=
  [[], "ftp".data, "http".data, "gopher".data, "nntp".data, "telnet".data,
   "imap".data, "wais".data, "file".data, "mms".data, "https".data,
   "shttp".data, "snews".data, "prospero".data, "rtsp".data, "rtsps".data,
   "rtspu".data, "rsync".data, "svn".data, "svn+ssh".data, "sftp".data,
   "nfs".data, "git".data, "git+ssh".data, "ws".data, "wss".data]

/-- Split at the last occurrence of `sep`:
`l = a ++ sep :: b` with `sep ∉ b`. -/
def splitLast (sep : Char) (l : List Char) : Option (List Char × List Char) :=
  match splitFirst sep l.reverse with
  | some (rb, ra) => some (ra.reverse, rb.reverse)
  | none => none

/-- `_splitparams`: look for `;` only in the last path segment. -/
def splitParams (p : List Char) : List Char × List Char :=
  if '/' ∈ p then
    match splitLast '/' p with
    | some (a, b) =>
      match splitFirst ';' b with
      | some (x, y) => (a ++ '/' :: x, y)
      | none => (p, [])
    | none => (p, [])
  else
    match splitFirst ';' p with
    | some (x, y) => (x, y)
    | none => (p, [])

def urlparsePy (url : List Char) : Except PyErr UParse :=
  match urlsplitPy url with
  | .error e => .error e
  | .ok sp =>
    if sp.scheme ∈ usesParams ∧ ';' ∈ sp.path then
      let ppa := splitParams sp.path
      .ok ⟨sp.scheme, sp.netloc, ppa.1, ppa.2, sp.query, sp.frag⟩
    else
      .ok ⟨sp.scheme, sp.netloc, sp.path, [], sp.query, sp.frag⟩

def urlunsplitPy (scheme netloc url query frag : List Char) : List Char :=
  let url1 :=
    if netloc ≠ [] ∨ (scheme ≠ [] ∧ scheme ∈ usesNetloc ∧ url.take 2 ≠ ['/', '/']) then
      '/' :: '/' :: (netloc ++ (if url ≠ [] ∧ url.take 1 ≠ ['/'] then '/' :: url else url))
    else url
  let url2 := if scheme ≠ [] then scheme ++ ':' :: url1 else url1
  let url3 := if query ≠ [] then url2 ++ '?' :: query else url2
  if frag ≠ [] then url3 ++ '#' :: frag else url3

def urlunparsePy (scheme netloc path params query frag : List Char) : List Char :=
  urlunsplitPy scheme netloc
    (if params ≠ [] then path ++ ';' :: params else path) query frag

/-! ## `parse_qsl` / `parse_qs` / `urlencode` -/

/-- `parse_qsl(qs, keep_blank_values=False, separator='&')`. -/
def parseQsl (qs : List Char) : List (List Char × List Char) :=
  if qs = [] then []
  else
    (splitAll '&' qs).filterMap fun chunk =>
      if chunk = [] then none
      else
        match splitFirst '=' chunk with
        | none => none
        | some (n, v) =>
          if v = [] then none else some (unquotePlus n, unquotePlus v)

/-- Append `v` under key `k`, preserving dict insertion order. -/
def insertKV (acc : List (List Char × List (List Char))) (k : List Char) (v : List Char) :
    List (List Char × List (List Char)) :=
  match acc with
  | [] => [(k, [v])]
  | (k', vs) :: t => if k' = k then (k', vs ++ [v]) :: t else (k', vs) :: insertKV t k v

/-- Group a pair list into a dict of value lists, as `parse_qs` does. -/
def groupPairs (ps : List (List Char × List Char)) : List (List Char × List (List Char)) :=
  ps.foldl (fun acc kv => insertKV acc kv.1 kv.2) []

/-- `parse_qs(qs, keep_blank_values=False)`. -/
def parseQs (qs : List Char) : List (List Char × List (List Char)) :=
  groupPairs (parseQsl qs)

/-- `urlencode(d, doseq=True)` over an ordered dict of value lists. -/
def urlencodePy (d : List (List Char × List (List Char))) : List Char :=
  joinWith '&' (d.flatMap fun kv => kv.2.map fun v => quotePlus kv.1 ++ '=' :: quotePlus v)

/-- Code-point lexicographic `≤` on strings, as Python compares `str`. -/
def lexLeB : List Char → List Char → Bool
  | [], _ => true
  | _ :: _, [] => false
  | a :: as, b :: bs =>
    if a.toNat < b.toNat then true
    else if b.toNat < a.toNat then false
    else lexLeB as bs

/-- Order on query-dict items by key (keys are distinct, so Python's tuple
comparison never reaches the values). -/
def keyLe (x y : List Char × List (List Char)) : Prop := lexLeB x.1 y.1 = true

instance : DecidableRel keyLe := fun x y => by
  unfold keyLe
  infer_instance

/-- `dict(sorted(d.items()))`. -/
def sortPairs (d : List (List Char × List (List Char))) :
    List (List Char × List (List Char)) :=
  List.insertionSort keyLe d

/-- `path.rstrip('/')`. -/
def rstripSlashes (p : List Char) : List Char :=
  (p.reverse.dropWhile (fun c => decide (c = '/'))).reverse

/-- The tracking query parameters removed by `normalize_url`
(`src/event_finder/services/normalize.py`). -/
def trackingParams : List (List Char) :=
  ["utm_source".data, "utm_medium".data, "utm_campaign".data, "utm_term".data,
   "utm_content".data, "fbclid".data, "gclid".data, "msclkid".data,
   "twclid".data, "li_fat_id".data, "_ga".data, "_gid".data, "_gac".data,
   "mc_cid".data, "mc_eid".data, "ref".data, "referrer".data, "source".data,
   "campaign".data]

/-- `normalize_url` from `src/event_finder/services/normalize.py`: empty
for falsy input; otherwise parse the lowercased URL, drop tracking query
parameters (key compared lowercased), sort the remaining parameters by key,
re-encode them, strip trailing slashes from the path (`rstrip('/')`), drop
the fragment and rebuild.  `urlsplit`'s IPv6-bracket `ValueError`
propagates, hence the `Except`. -/
def normalizeUrl (url : String) : Except PyErr String :=
  if url.data = [] then .ok ""
  else
    match urlparsePy (pyLower url.data) with
    | .error e => .error e
    | .ok pr =>
      let qp := parseQs pr.query
      let filtered := qp.filter (fun kv => decide (pyLower kv.1 ∉ trackingParams))
      let sorted := sortPairs filtered
      let newQuery := if sorted = [] then [] else urlencodePy sorted
      .ok ⟨urlunparsePy pr.scheme pr.netloc (rstripSlashes pr.path) pr.params newQuery []⟩

/-- `get_domain_from_url` from `src/event_finder/services/normalize.py`:
lowercased netloc with one leading `www.` stripped; `""` for empty input or
on any parse failure (the `try`/`except` fails closed). -/
def getDomainFromUrl (url : String) : String :=
  if url.data = [] then ""
  else
    match urlparsePy (pyLower url.data) with
    | .error _ => ""
    | .ok pr =>
      let d := pr.netloc
      if d.take 4 = ('w' :: 'w' :: 'w' :: '.' :: []) then ⟨d.drop 4⟩ else ⟨d⟩

/-! ## Further character and list lemmas for the `normalize_url` analysis -/

theorem lowerChar_fixed_iff (c : Char) :
    lowerChar c = c ↔ ¬ (65 ≤ c.toNat ∧ c.toNat ≤ 90) := by
  constructor
  · intro h hup
    have ht := lowerChar_toNat c
    rw [if_pos hup, h] at ht
    omega
  · exact lowerChar_eq_of_not

theorem mem_pyLower_fixed {c : Char} {l : List Char} (h : c ∈ pyLower l) :
    lowerChar c = c := by
  unfold pyLower at h
  obtain ⟨a, _, ha⟩ := List.mem_map.1 h
  rw [← ha]
  exact lowerChar_idem a

theorem pyLower_eq_self {l : List Char} (h : ∀ c ∈ l, lowerChar c = c) :
    pyLower l = l := by
  have h2 : l.map lowerChar = l.map id := List.map_congr_left (fun c hc => by rw [h c hc]; rfl)
  rw [pyLower, h2, List.map_id]

theorem pyLower_append (a b : List Char) : pyLower (a ++ b) = pyLower a ++ pyLower b :=
  List.map_append lowerChar a b

theorem pyLower_nil_iff {l : List Char} : pyLower l = [] ↔ l = [] := by
  unfold pyLower
  simp

theorem splitFirst_eq_none {sep : Char} {l : List Char} (h : splitFirst sep l = none) :
    sep ∉ l := by
  induction l with
  | nil => simp
  | cons c t ih =>
    rw [splitFirst] at h
    by_cases hc : c = sep
    · rw [if_pos hc] at h
      simp at h
    · rw [if_neg hc] at h
      intro hm
      rcases List.mem_cons.1 hm with hm | hm
      · exact hc hm.symm
      · cases hsp : splitFirst sep t with
        | some p =>
          obtain ⟨a, b⟩ := p
          rw [hsp] at h
          simp at h
        | none => exact ih hsp hm

theorem splitFirst_append_some {sep : Char} {a x y : List Char}
    (h : splitFirst sep a = some (x, y)) (b : List Char) :
    splitFirst sep (a ++ b) = some (x, y ++ b) := by
  obtain ⟨ha, hnx⟩ := splitFirst_eq_some h
  rw [ha, List.append_assoc, List.cons_append]
  exact splitFirst_append_not_mem hnx (y ++ b)

theorem splitFirst_append_none {sep : Char} {a : List Char}
    (h : splitFirst sep a = none) {b : List Char} (hb : sep ∉ b) :
    splitFirst sep (a ++ b) = none := by
  apply splitFirst_of_not_mem
  intro hm
  rcases List.mem_append.1 hm with hm | hm
  · exact splitFirst_eq_none h hm
  · exact hb hm

theorem splitFirst_append_left {sep : Char} {a : List Char} (h : sep ∉ a) {b x y : List Char}
    (hb : splitFirst sep b = some (x, y)) :
    splitFirst sep (a ++ b) = some (a ++ x, y) := by
  obtain ⟨hbe, hnx⟩ := splitFirst_eq_some hb
  rw [hbe, ← List.append_assoc]
  apply splitFirst_append_not_mem
  intro hm
  rcases List.mem_append.1 hm with hm | hm
  · exact h hm
  · exact hnx hm

/-- Transfer of the first occurrence of a separator across a decomposition:
if `pre ++ m :: post` equals `A ++ sep :: q` with `sep` absent from `pre`,
from `A` and distinct from `m`, then the separator occurrence lies in
`post`. -/
theorem first_sep_shift {sep m : Char} {pre post A q : List Char}
    (heq : pre ++ m :: post = A ++ sep :: q) (hpre : sep ∉ pre) (hm : ¬ m = sep)
    (hA : sep ∉ A) :
    ∃ A1, post = A1 ++ sep :: q ∧ ∀ c ∈ A1, c ∈ A := by
  cases hsp : splitFirst sep post with
  | none =>
    exfalso
    have hnm : sep ∉ pre ++ m :: post := by
      intro hmem
      rcases List.mem_append.1 hmem with hh | hh
      · exact hpre hh
      · rcases List.mem_cons.1 hh with hh | hh
        · exact hm hh.symm
        · exact splitFirst_eq_none hsp hh
    have h1 := splitFirst_of_not_mem hnm
    rw [heq, splitFirst_append_not_mem hA q] at h1
    simp at h1
  | some p =>
    obtain ⟨x, y⟩ := p
    have h2 : splitFirst sep (m :: post) = some (m :: x, y) := by
      rw [splitFirst, if_neg hm, hsp]
    have h1 := splitFirst_append_left hpre h2
    rw [heq, splitFirst_append_not_mem hA q] at h1
    injection h1 with h1
    injection h1 with hAx hqy
    obtain ⟨hpost, _⟩ := splitFirst_eq_some hsp
    refine ⟨x, ?_, ?_⟩
    · rw [hpost, hqy]
    · intro c hc
      rw [hAx]
      exact List.mem_append.2 (Or.inr (List.mem_cons.2 (Or.inr hc)))

theorem mem_of_mem_dropWhile {p : Char → Bool} {l : List Char} {c : Char}
    (h : c ∈ l.dropWhile p) : c ∈ l :=
  (List.dropWhile_sublist p).subset h

theorem mem_of_mem_takeWhile {p : Char → Bool} {l : List Char} {c : Char}
    (h : c ∈ l.takeWhile p) : c ∈ l :=
  (List.takeWhile_sublist p).subset h

theorem mem_cleanUrl {c : Char} {l : List Char} (h : c ∈ cleanUrl l) : c ∈ l := by
  unfold cleanUrl stripWSpace at h
  exact mem_of_mem_dropWhile (List.mem_of_mem_filter h)

theorem mem_cleanUrl_not_unsafe {c : Char} {l : List Char} (h : c ∈ cleanUrl l) :
    isUnsafeByte c = false := by
  unfold cleanUrl at h
  have h2 := List.of_mem_filter h
  simpa using h2

theorem cleanUrl_head_not_c0 {l : List Char} {c : Char} {t : List Char}
    (h : cleanUrl l = c :: t) : isC0Space c = false := by
  unfold cleanUrl stripWSpace at h
  induction l with
  | nil => simp at h
  | cons a l ih =>
    rw [List.dropWhile_cons] at h
    by_cases ha : isC0Space a = true
    · rw [if_pos ha] at h
      exact ih h
    · rw [if_neg ha] at h
      have ha2 : isC0Space a = false := by simpa using ha
      have hu : isUnsafeByte a = false := by
        unfold isC0Space at ha2
        unfold isUnsafeByte
        rw [decide_eq_false_iff_not] at ha2
        rw [decide_eq_false_iff_not]
        omega
      rw [List.filter_cons_of_pos (by rw [hu]; rfl)] at h
      injection h with h1 _
      rw [← h1]
      exact ha2

theorem dropWhile_idem (p : Char → Bool) (l : List Char) :
    (l.dropWhile p).dropWhile p = l.dropWhile p := by
  apply dropWhile_eq_self_of_head
  intro hne
  exact List.head_dropWhile_not p l hne

theorem rstripSlashes_append_slash (p : List Char) :
    rstripSlashes (p ++ ['/']) = rstripSlashes p := by
  unfold rstripSlashes
  have h1 : (p ++ ['/']).reverse = '/' :: p.reverse := by simp
  rw [h1, List.dropWhile_cons, if_pos (by rfl)]

theorem rstripSlashes_decomp (p : List Char) :
    ∃ k, p = rstripSlashes p ++ List.replicate k '/' := by
  refine ⟨(p.reverse.takeWhile (fun c => decide (c = '/'))).length, ?_⟩
  unfold rstripSlashes
  have hrep : p.reverse.takeWhile (fun c => decide (c = '/'))
      = List.replicate (p.reverse.takeWhile (fun c => decide (c = '/'))).length '/' := by
    apply List.eq_replicate_length.2
    intro b hb
    have h2 := List.mem_takeWhile_imp hb
    simpa using h2
  have hsplit := List.takeWhile_append_dropWhile (fun c => decide (c = '/')) p.reverse
  calc p = p.reverse.reverse := (List.reverse_reverse p).symm
    _ = (p.reverse.takeWhile (fun c => decide (c = '/'))
          ++ p.reverse.dropWhile (fun c => decide (c = '/'))).reverse := by rw [hsplit]
    _ = (p.reverse.dropWhile (fun c => decide (c = '/'))).reverse
          ++ (p.reverse.takeWhile (fun c => decide (c = '/'))).reverse := by
        rw [List.reverse_append]
    _ = _ := by
        conv_lhs => rw [hrep]
        rw [List.reverse_replicate]

theorem rstripSlashes_idem (p : List Char) :
    rstripSlashes (rstripSlashes p) = rstripSlashes p := by
  unfold rstripSlashes
  rw [List.reverse_reverse, dropWhile_idem]

theorem rstripSlashes_fix_rev {p : List Char} (h : rstripSlashes p = p) :
    p.reverse.dropWhile (fun c => decide (c = '/')) = p.reverse := by
  unfold rstripSlashes at h
  have h2 := congrArg List.reverse h
  rwa [List.reverse_reverse] at h2

theorem rstripSlashes_singleton : rstripSlashes ['/'] = [] := by
  rfl

theorem rstripSlashes_cons_slash {p : List Char} (hfix : rstripSlashes p = p)
    (hne : p ≠ []) : rstripSlashes ('/' :: p) = '/' :: p := by
  have hrev := rstripSlashes_fix_rev hfix
  have hrne : p.reverse ≠ [] := by simpa using hne
  cases hr : p.reverse with
  | nil => exact absurd hr hrne
  | cons c0 t0 =>
    have hc0 : decide (c0 = '/') = false := by
      by_cases hb : decide (c0 = '/') = true
      · exfalso
        rw [hr, List.dropWhile_cons, if_pos hb] at hrev
        have hlen := congrArg List.length hrev
        have hle : (t0.dropWhile (fun c => decide (c = '/'))).length ≤ t0.length :=
          (List.dropWhile_sublist _).length_le
        simp only [List.length_cons] at hlen
        omega
      · simpa using hb
    unfold rstripSlashes
    rw [List.reverse_cons, hr, List.cons_append, List.dropWhile_cons,
      if_neg (by simp [hc0])]
    rw [← List.cons_append, ← hr, List.reverse_append]
    simp

/-- Validity of a scheme prefix, as `urlsplit` checks it: nonempty, ASCII
letter first, scheme characters throughout. -/
def schemeOk (pre : List Char) : Bool :=
  match pre with
  | [] => false
  | p0 :: rest => isAsciiAlpha p0 && (p0 :: rest).all isSchemeChar

theorem schemeSplit_of_none {url : List Char} (h : splitFirst ':' url = none) :
    schemeSplit url = ([], url) := by
  unfold schemeSplit
  rw [h]

theorem schemeSplit_of_some_ok {url pre post : List Char}
    (h : splitFirst ':' url = some (pre, post)) (hok : schemeOk pre = true) :
    schemeSplit url = (pyLower pre, post) := by
  unfold schemeSplit
  rw [h]
  cases pre with
  | nil => simp [schemeOk] at hok
  | cons p0 t =>
    unfold schemeOk at hok
    rw [Bool.and_eq_true] at hok
    exact if_pos ⟨hok.1, hok.2⟩

theorem schemeSplit_of_some_bad {url pre post : List Char}
    (h : splitFirst ':' url = some (pre, post)) (hbad : schemeOk pre = false) :
    schemeSplit url = ([], url) := by
  unfold schemeSplit
  rw [h]
  cases pre with
  | nil => rfl
  | cons p0 t =>
    apply if_neg
    intro hcond
    have htrue : schemeOk (p0 :: t) = true := by
      unfold schemeOk
      rw [Bool.and_eq_true]
      exact ⟨hcond.1, hcond.2⟩
    rw [htrue] at hbad
    cases hbad

theorem schemeSplit_fst_nil {url : List Char} (h : (schemeSplit url).1 = []) :
    schemeSplit url = ([], url) := by
  cases hsp : splitFirst ':' url with
  | none => exact schemeSplit_of_none hsp
  | some p =>
    obtain ⟨pre, post⟩ := p
    by_cases hok : schemeOk pre = true
    · exfalso
      rw [schemeSplit_of_some_ok hsp hok] at h
      cases pre with
      | nil => simp [schemeOk] at hok
      | cons a t => simp [pyLower] at h
    · exact schemeSplit_of_some_bad hsp (by simpa using hok)

theorem schemeSplit_of_head_bad {c : Char} {t : List Char} (hc : isAsciiAlpha c = false) :
    schemeSplit (c :: t) = ([], c :: t) := by
  cases hsp : splitFirst ':' (c :: t) with
  | none => exact schemeSplit_of_none hsp
  | some p =>
    obtain ⟨pre, post⟩ := p
    apply schemeSplit_of_some_bad hsp
    obtain ⟨heq, _⟩ := splitFirst_eq_some hsp
    cases pre with
    | nil => rfl
    | cons p0 t0 =>
      rw [List.cons_append] at heq
      injection heq with h1 _
      rw [← h1]
      show (isAsciiAlpha c && (c :: t0).all isSchemeChar) = false
      rw [hc]
      rfl

theorem schemeOk_all {s : List Char} (h : schemeOk s = true) :
    ∀ c ∈ s, isSchemeChar c = true := by
  cases s with
  | nil => simp [schemeOk] at h
  | cons p0 t =>
    unfold schemeOk at h
    rw [Bool.and_eq_true] at h
    intro c hc
    exact List.all_eq_true.1 h.2 c hc

theorem schemeOk_head_alpha {s : List Char} (h : schemeOk s = true) :
    ∃ c t, s = c :: t ∧ isAsciiAlpha c = true := by
  cases s with
  | nil => simp [schemeOk] at h
  | cons p0 t =>
    unfold schemeOk at h
    rw [Bool.and_eq_true] at h
    exact ⟨p0, t, rfl, h.1⟩

theorem isSchemeChar_facts {c : Char} (h : isSchemeChar c = true) :
    ¬ c = ':' ∧ ¬ c = '/' ∧ ¬ c = '?' ∧ ¬ c = '#' ∧
      isC0Space c = false ∧ isUnsafeByte c = false := by
  unfold isSchemeChar isAsciiAlpha at h
  rw [Bool.or_eq_true, decide_eq_true_eq, decide_eq_true_eq] at h
  have e1 : (':' : Char).toNat = 58 := rfl
  have e2 : ('/' : Char).toNat = 47 := rfl
  have e3 : ('?' : Char).toNat = 63 := rfl
  have e4 : ('#' : Char).toNat = 35 := rfl
  refine ⟨fun hc => ?_, fun hc => ?_, fun hc => ?_, fun hc => ?_, ?_, ?_⟩
  · rw [hc, e1] at h
    omega
  · rw [hc, e2] at h
    omega
  · rw [hc, e3] at h
    omega
  · rw [hc, e4] at h
    omega
  · unfold isC0Space
    rw [decide_eq_false_iff_not]
    omega
  · unfold isUnsafeByte
    rw [decide_eq_false_iff_not]
    omega

theorem schemeOk_not_colon {s : List Char} (h : schemeOk s = true) : ':' ∉ s :=
  fun hm => (isSchemeChar_facts (schemeOk_all h ':' hm)).1 rfl

theorem lowerChar_alpha {c : Char} (h : isAsciiAlpha c = true) :
    isAsciiAlpha (lowerChar c) = true := by
  unfold isAsciiAlpha at h ⊢
  rw [decide_eq_true_eq] at h
  rw [decide_eq_true_eq, lowerChar_toNat]
  split
  · omega
  · omega

theorem lowerChar_schemeChar {c : Char} (h : isSchemeChar c = true) :
    isSchemeChar (lowerChar c) = true := by
  unfold isSchemeChar isAsciiAlpha at h ⊢
  rw [Bool.or_eq_true, decide_eq_true_eq, decide_eq_true_eq] at h
  rw [Bool.or_eq_true, decide_eq_true_eq, decide_eq_true_eq, lowerChar_toNat]
  split
  · omega
  · omega

theorem schemeOk_pyLower {s : List Char} (h : schemeOk s = true) :
    schemeOk (pyLower s) = true := by
  cases s with
  | nil => simp [schemeOk] at h
  | cons p0 t =>
    unfold schemeOk at h
    rw [Bool.and_eq_true] at h
    obtain ⟨h1, h2⟩ := h
    show schemeOk (lowerChar p0 :: t.map lowerChar) = true
    unfold schemeOk
    rw [Bool.and_eq_true]
    refine ⟨lowerChar_alpha h1, ?_⟩
    rw [List.all_eq_true] at h2 ⊢
    intro c hc
    have hc2 : c ∈ (p0 :: t).map lowerChar := hc
    obtain ⟨c0, hc0, hce⟩ := List.mem_map.1 hc2
    rw [← hce]
    exact lowerChar_schemeChar (h2 c0 hc0)

/-- Character class of everything `urlencode` can emit: `quote_plus` output
plus the `=` and `&` separators. -/
def qencChar (c : Char) : Prop :=
  alwaysSafe c = true ∨ c = '+' ∨ c = '%' ∨ c = '=' ∨ c = '&'

theorem qencChar_toNat {c : Char} (h : qencChar c) :
    (65 ≤ c.toNat ∧ c.toNat ≤ 90) ∨ (97 ≤ c.toNat ∧ c.toNat ≤ 122) ∨
    (48 ≤ c.toNat ∧ c.toNat ≤ 57) ∨ c.toNat = 95 ∨ c.toNat = 46 ∨ c.toNat = 45 ∨
    c.toNat = 126 ∨ c.toNat = 43 ∨ c.toNat = 37 ∨ c.toNat = 61 ∨ c.toNat = 38 := by
  rcases h with h | h | h | h | h
  · unfold alwaysSafe at h
    rw [decide_eq_true_eq] at h
    omega
  · rw [h]
    have e : ('+' : Char).toNat = 43 := rfl
    omega
  · rw [h]
    have e : ('%' : Char).toNat = 37 := rfl
    omega
  · rw [h]
    have e : ('=' : Char).toNat = 61 := rfl
    omega
  · rw [h]
    have e : ('&' : Char).toNat = 38 := rfl
    omega

theorem qencChar_of_toNat {c : Char}
    (h : (65 ≤ c.toNat ∧ c.toNat ≤ 90) ∨ (97 ≤ c.toNat ∧ c.toNat ≤ 122) ∨
      (48 ≤ c.toNat ∧ c.toNat ≤ 57) ∨ c.toNat = 95 ∨ c.toNat = 46 ∨ c.toNat = 45 ∨
      c.toNat = 126 ∨ c.toNat = 43 ∨ c.toNat = 37 ∨ c.toNat = 61 ∨ c.toNat = 38) :
    qencChar c := by
  by_cases hs : (65 ≤ c.toNat ∧ c.toNat ≤ 90) ∨ (97 ≤ c.toNat ∧ c.toNat ≤ 122) ∨
      (48 ≤ c.toNat ∧ c.toNat ≤ 57) ∨ c.toNat = 95 ∨ c.toNat = 46 ∨ c.toNat = 45 ∨
      c.toNat = 126
  · left
    unfold alwaysSafe
    rw [decide_eq_true_eq]
    exact hs
  · have h43 : c.toNat = 43 ∨ c.toNat = 37 ∨ c.toNat = 61 ∨ c.toNat = 38 := by omega
    rcases h43 with h4 | h4 | h4 | h4
    · exact Or.inr (Or.inl (char_eq_iff_toNat.2 h4))
    · exact Or.inr (Or.inr (Or.inl (char_eq_iff_toNat.2 h4)))
    · exact Or.inr (Or.inr (Or.inr (Or.inl (char_eq_iff_toNat.2 h4))))
    · exact Or.inr (Or.inr (Or.inr (Or.inr (char_eq_iff_toNat.2 h4))))

theorem qencChar_facts {c : Char} (h : qencChar c) :
    isC0Space c = false ∧ isUnsafeByte c = false ∧ ¬ c = ':' ∧ ¬ c = '/' ∧
      ¬ c = '?' ∧ ¬ c = '#' ∧ ¬ c = ';' ∧ ¬ c = '[' ∧ ¬ c = ']' := by
  have hn := qencChar_toNat h
  refine ⟨?_, ?_, fun hc => ?_, fun hc => ?_, fun hc => ?_, fun hc => ?_,
    fun hc => ?_, fun hc => ?_, fun hc => ?_⟩
  · unfold isC0Space
    rw [decide_eq_false_iff_not]
    omega
  · unfold isUnsafeByte
    rw [decide_eq_false_iff_not]
    omega
  · rw [hc] at hn
    have e : (':' : Char).toNat = 58 := rfl
    omega
  · rw [hc] at hn
    have e : ('/' : Char).toNat = 47 := rfl
    omega
  · rw [hc] at hn
    have e : ('?' : Char).toNat = 63 := rfl
    omega
  · rw [hc] at hn
    have e : ('#' : Char).toNat = 35 := rfl
    omega
  · rw [hc] at hn
    have e : (';' : Char).toNat = 59 := rfl
    omega
  · rw [hc] at hn
    have e : ('[' : Char).toNat = 91 := rfl
    omega
  · rw [hc] at hn
    have e : (']' : Char).toNat = 93 := rfl
    omega

theorem qencChar_lower {c : Char} (h : qencChar c) : qencChar (lowerChar c) := by
  have hn := qencChar_toNat h
  apply qencChar_of_toNat
  rw [lowerChar_toNat]
  split
  · omega
  · omega

theorem hexDigitU_safe {n : Nat} (h : n < 16) : alwaysSafe (hexDigitU n) = true := by
  unfold alwaysSafe
  rw [decide_eq_true_eq, hexDigitU_toNat h]
  split
  · omega
  · omega

theorem quotePlus_chars {s : List Char} {c : Char} (h : c ∈ quotePlus s) :
    alwaysSafe c = true ∨ c = '+' ∨ c = '%' := by
  induction s with
  | nil => simp [quotePlus] at h
  | cons c0 t ih =>
    rw [quotePlus_cons] at h
    rcases List.mem_append.1 h with h | h
    · revert h
      split
      · intro h
        rcases List.mem_singleton.1 h with rfl
        exact Or.inr (Or.inl rfl)
      · split
        · next hsafe =>
          intro h
          rcases List.mem_singleton.1 h with rfl
          exact Or.inl hsafe
        · intro h
          obtain ⟨b, hb, hcb⟩ := List.mem_flatMap.1 h
          have hblt : b < 256 := utf8Encode_lt c0 b hb
          unfold escByte at hcb
          rcases List.mem_cons.1 hcb with rfl | hcb
          · exact Or.inr (Or.inr rfl)
          rcases List.mem_cons.1 hcb with rfl | hcb
          · exact Or.inl (hexDigitU_safe (by omega))
          rcases List.mem_cons.1 hcb with rfl | hcb
          · exact Or.inl (hexDigitU_safe (by omega))
          · simp at hcb
    · exact ih h

theorem mem_joinWith {sep : Char} {c : Char} :
    ∀ {parts : List (List Char)}, c ∈ joinWith sep parts →
      c = sep ∨ ∃ x ∈ parts, c ∈ x
  | [], h => by simp [joinWith] at h
  | [x], h => by
    rw [joinWith] at h
    exact Or.inr ⟨x, by simp, h⟩
  | x :: y :: t, h => by
    rw [joinWith] at h
    rcases List.mem_append.1 h with h | h
    · exact Or.inr ⟨x, by simp, h⟩
    · rcases List.mem_cons.1 h with h | h
      · exact Or.inl h
      · rcases mem_joinWith h with h | ⟨z, hz, hcz⟩
        · exact Or.inl h
        · exact Or.inr ⟨z, List.mem_cons_of_mem x hz, hcz⟩

theorem urlencodePy_chars {d : List (List Char × List (List Char))} {c : Char}
    (h : c ∈ urlencodePy d) : qencChar c := by
  unfold urlencodePy at h
  rcases mem_joinWith h with h | ⟨x, hx, hcx⟩
  · exact Or.inr (Or.inr (Or.inr (Or.inr h)))
  · obtain ⟨kv, _, hvx⟩ := List.mem_flatMap.1 hx
    obtain ⟨v, _, hve⟩ := List.mem_map.1 hvx
    rw [← hve] at hcx
    rcases List.mem_append.1 hcx with hc | hc
    · rcases quotePlus_chars hc with hc | hc | hc
      · exact Or.inl hc
      · exact Or.inr (Or.inl hc)
      · exact Or.inr (Or.inr (Or.inl hc))
    · rcases List.mem_cons.1 hc with rfl | hc
      · exact Or.inr (Or.inr (Or.inr (Or.inl rfl)))
      · rcases quotePlus_chars hc with hc | hc | hc
        · exact Or.inl hc
        · exact Or.inr (Or.inl hc)
        · exact Or.inr (Or.inr (Or.inl hc))

theorem utf8EncodeNat_ne_nil (n : Nat) : utf8EncodeNat n ≠ [] := by
  unfold utf8EncodeNat
  split
  · simp
  · split
    · simp
    · split
      · simp
      · simp

theorem quotePlus_ne_nil {s : List Char} (h : s ≠ []) : quotePlus s ≠ [] := by
  cases s with
  | nil => exact absurd rfl h
  | cons c t =>
    rw [quotePlus_cons]
    intro he
    have h1 := (List.append_eq_nil.1 he).1
    revert h1
    split
    · simp
    · split
      · simp
      · intro h1
        cases henc : utf8Encode c with
        | nil => exact utf8EncodeNat_ne_nil c.toNat henc
        | cons b bs =>
          rw [henc, List.flatMap_cons] at h1
          have h2 := (List.append_eq_nil.1 h1).1
          unfold escByte at h2
          simp at h2

theorem joinWith_ne_nil {sep : Char} {x : List Char} {rest : List (List Char)}
    (hx : x ≠ []) : joinWith sep (x :: rest) ≠ [] := by
  cases rest with
  | nil => rw [joinWith]; exact hx
  | cons y t =>
    rw [joinWith]
    intro he
    exact hx (List.append_eq_nil.1 he).1

theorem urlencodePy_ne_nil {d : List (List Char × List (List Char))}
    (hne : d ≠ []) (hv : ∀ kv ∈ d, kv.2 ≠ []) : urlencodePy d ≠ [] := by
  cases d with
  | nil => exact absurd rfl hne
  | cons kv t =>
    have hkv : kv.2 ≠ [] := hv kv (by simp)
    unfold urlencodePy
    rw [List.flatMap_cons]
    cases hvs : kv.2 with
    | nil => exact absurd hvs hkv
    | cons v vs' =>
      rw [List.map_cons, List.cons_append]
      apply joinWith_ne_nil
      intro he
      have h2 := (List.append_eq_nil.1 he).2
      simp at h2

/-! ### `unquote_plus` on escape-free input is `plus`-to-space only -/

theorem tokenize_nonascii {c : Char} (hne : ¬ c = '%') (hge : ¬ c.toNat < 0x80)
    (r : List Char) : tokenize (c :: r) = Sum.inr c :: tokenize r := by
  rw [tokenize.eq_def]
  simp only [if_neg hne, if_neg hge]

theorem tokenize_no_esc {l : List Char} (h : '%' ∉ l) :
    tokenize l = l.map (fun c => if c.toNat < 0x80 then Sum.inl c.toNat else Sum.inr c) := by
  induction l with
  | nil => rfl
  | cons c t ih =>
    have hc : ¬ c = '%' := fun he => h (he ▸ List.mem_cons_self c t)
    have ht : '%' ∉ t := fun hm => h (List.mem_cons_of_mem c hm)
    rw [List.map_cons]
    by_cases hlt : c.toNat < 0x80
    · rw [tokenize_ascii hc hlt, ih ht, if_pos hlt]
    · rw [tokenize_nonascii hc hlt, ih ht, if_neg hlt]

theorem utf8Decode_ascii {bs : List Nat} (h : ∀ b ∈ bs, b < 0x80) :
    utf8Decode bs = bs.map Char.ofNat := by
  induction bs with
  | nil => rfl
  | cons b t ih =>
    rw [utf8Decode_one (h b (by simp)) t, ih (fun x hx => h x (by simp [hx])),
      List.map_cons]

theorem groupGo_tok (l : List Char) : ∀ acc : List Nat, (∀ b ∈ acc, b < 0x80) →
    groupGo (l.map (fun c => if c.toNat < 0x80 then Sum.inl c.toNat else Sum.inr c)) acc
      = utf8Decode acc.reverse ++ l := by
  induction l with
  | nil =>
    intro acc _
    rw [List.map_nil, groupGo, List.append_nil]
  | cons c t ih =>
    intro acc hacc
    have hacc' : ∀ b ∈ acc.reverse, b < 0x80 := fun b hb => hacc b (List.mem_reverse.1 hb)
    rw [List.map_cons]
    by_cases hlt : c.toNat < 0x80
    · rw [if_pos hlt]
      show groupGo (t.map _) (c.toNat :: acc) = _
      rw [ih (c.toNat :: acc) (by
        intro b hb
        rcases List.mem_cons.1 hb with rfl | hb
        · exact hlt
        · exact hacc b hb)]
      rw [List.reverse_cons]
      rw [utf8Decode_ascii (by
        intro b hb
        rcases List.mem_append.1 hb with hb | hb
        · exact hacc' b hb
        · simp at hb
          omega)]
      rw [utf8Decode_ascii hacc', List.map_append]
      simp [ofNat_toNat']
    · rw [if_neg hlt]
      show utf8Decode acc.reverse ++ c :: groupGo (t.map _) [] = _
      rw [ih [] (by simp)]
      rw [List.reverse_nil]
      rw [show utf8Decode [] = [] from rfl, List.nil_append]

theorem unquotePlus_no_esc {l : List Char} (h : '%' ∉ l) :
    unquotePlus l = l.map plusToSpace := by
  unfold unquotePlus
  have hm : '%' ∉ l.map plusToSpace := by
    intro hmem
    obtain ⟨c, hc, hce⟩ := List.mem_map.1 hmem
    unfold plusToSpace at hce
    by_cases hp : c = '+'
    · rw [if_pos hp] at hce
      have : (' ' : Char).toNat = ('%' : Char).toNat := by rw [hce]
      simp at this
    · rw [if_neg hp] at hce
      exact h (hce ▸ hc)
  rw [tokenize_no_esc hm, groupGo_tok _ [] (by simp)]
  rw [List.reverse_nil, show utf8Decode [] = [] from rfl, List.nil_append]

/-! ### Round trip: `parse_qsl` / `parse_qs` of `urlencode` output -/

theorem quotePlus_mem_toNat {s : List Char} {c : Char} (h : c ∈ quotePlus s) :
    (65 ≤ c.toNat ∧ c.toNat ≤ 90) ∨ (97 ≤ c.toNat ∧ c.toNat ≤ 122) ∨
    (48 ≤ c.toNat ∧ c.toNat ≤ 57) ∨ c.toNat = 95 ∨ c.toNat = 46 ∨ c.toNat = 45 ∨
    c.toNat = 126 ∨ c.toNat = 43 ∨ c.toNat = 37 := by
  rcases quotePlus_chars h with h | h | h
  · unfold alwaysSafe at h
    rw [decide_eq_true_eq] at h
    omega
  · rw [h]
    have e : ('+' : Char).toNat = 43 := rfl
    omega
  · rw [h]
    have e : ('%' : Char).toNat = 37 := rfl
    omega

theorem quotePlus_not_amp {s : List Char} {c : Char} (h : c ∈ quotePlus s) :
    ¬ c = '&' := by
  intro hc
  have hn := quotePlus_mem_toNat h
  rw [hc] at hn
  have e : ('&' : Char).toNat = 38 := rfl
  omega

theorem quotePlus_not_eqs {s : List Char} {c : Char} (h : c ∈ quotePlus s) :
    ¬ c = '=' := by
  intro hc
  have hn := quotePlus_mem_toNat h
  rw [hc] at hn
  have e : ('=' : Char).toNat = 61 := rfl
  omega

/-- The flat key-value pair list that a value-list dict denotes. -/
def flatPairs (d : List (List Char × List (List Char))) : List (List Char × List Char) :=
  d.flatMap fun kv => kv.2.map fun v => (kv.1, v)

/-- The per-chunk extraction function of `parse_qsl`. -/
def qslChunk (chunk : List Char) : Option (List Char × List Char) :=
  if chunk = [] then none
  else
    match splitFirst '=' chunk with
    | none => none
    | some (n, v) =>
      if v = [] then none else some (unquotePlus n, unquotePlus v)

theorem parseQsl_eq_filterMap {qs : List Char} (h : qs ≠ []) :
    parseQsl qs = (splitAll '&' qs).filterMap qslChunk := by
  unfold parseQsl qslChunk
  rw [if_neg h]

theorem qslChunk_enc {k v : List Char} (hv : v ≠ []) :
    qslChunk (quotePlus k ++ '=' :: quotePlus v) = some (k, v) := by
  unfold qslChunk
  rw [if_neg (by simp)]
  rw [splitFirst_append_not_mem (fun hm => quotePlus_not_eqs hm rfl) (quotePlus v)]
  show (if quotePlus v = [] then none
    else some (unquotePlus (quotePlus k), unquotePlus (quotePlus v))) = some (k, v)
  rw [if_neg (quotePlus_ne_nil hv)]
  rw [unquotePlus_quotePlus, unquotePlus_quotePlus]

theorem lowerChar_fix_eqs : lowerChar '=' = '=' := by
  apply lowerChar_eq_of_not
  have e : ('=' : Char).toNat = 61 := rfl
  omega

theorem lowerChar_fix_amp : lowerChar '&' = '&' := by
  apply lowerChar_eq_of_not
  have e : ('&' : Char).toNat = 38 := rfl
  omega

theorem pyLower_chunk (k v : List Char) :
    pyLower (quotePlus k ++ '=' :: quotePlus v)
      = pyLower (quotePlus k) ++ '=' :: pyLower (quotePlus v) := by
  rw [pyLower_append]
  show pyLower (quotePlus k) ++ lowerChar '=' :: pyLower (quotePlus v) = _
  rw [lowerChar_fix_eqs]

theorem mem_pyLower_quotePlus_toNat {s : List Char} {c : Char}
    (h : c ∈ pyLower (quotePlus s)) :
    (97 ≤ c.toNat ∧ c.toNat ≤ 122) ∨
    (48 ≤ c.toNat ∧ c.toNat ≤ 57) ∨ c.toNat = 95 ∨ c.toNat = 46 ∨ c.toNat = 45 ∨
    c.toNat = 126 ∨ c.toNat = 43 ∨ c.toNat = 37 := by
  obtain ⟨c0, hc0, hce⟩ := List.mem_map.1 h
  have hn := quotePlus_mem_toNat hc0
  rw [← hce, lowerChar_toNat]
  split
  · omega
  · omega

theorem pyLower_quotePlus_not_amp {s : List Char} {c : Char}
    (h : c ∈ pyLower (quotePlus s)) : ¬ c = '&' := by
  intro hc
  have hn := mem_pyLower_quotePlus_toNat h
  rw [hc] at hn
  have e : ('&' : Char).toNat = 38 := rfl
  omega

theorem pyLower_quotePlus_not_eqs {s : List Char} {c : Char}
    (h : c ∈ pyLower (quotePlus s)) : ¬ c = '=' := by
  intro hc
  have hn := mem_pyLower_quotePlus_toNat h
  rw [hc] at hn
  have e : ('=' : Char).toNat = 61 := rfl
  omega

theorem qslChunk_lower_enc {k v : List Char} (hk : noUpper k) (hvu : noUpper v)
    (hv : v ≠ []) :
    qslChunk (pyLower (quotePlus k ++ '=' :: quotePlus v)) = some (k, v) := by
  rw [pyLower_chunk]
  unfold qslChunk
  rw [if_neg (by simp)]
  rw [splitFirst_append_not_mem (fun hm => pyLower_quotePlus_not_eqs hm rfl)
    (pyLower (quotePlus v))]
  show (if pyLower (quotePlus v) = [] then none
    else some (unquotePlus (pyLower (quotePlus k)),
      unquotePlus (pyLower (quotePlus v)))) = some (k, v)
  rw [if_neg (by
    intro he
    exact quotePlus_ne_nil hv (pyLower_nil_iff.1 he))]
  rw [unquotePlus_lower_quotePlus k hk, unquotePlus_lower_quotePlus v hvu]

theorem pyLower_joinWith {sep : Char} (hsep : lowerChar sep = sep) :
    ∀ parts : List (List Char),
      pyLower (joinWith sep parts) = joinWith sep (parts.map pyLower)
  | [] => rfl
  | [x] => by
    rw [joinWith, List.map_cons, List.map_nil, joinWith]
  | x :: y :: t => by
    show pyLower (x ++ sep :: joinWith sep (y :: t))
      = joinWith sep (pyLower x :: (y :: t).map pyLower)
    rw [pyLower_append]
    show pyLower x ++ lowerChar sep :: pyLower (joinWith sep (y :: t)) = _
    rw [hsep, pyLower_joinWith hsep (y :: t), List.map_cons]
    show _ = joinWith sep (pyLower x :: pyLower y :: t.map pyLower)
    rw [joinWith]

theorem splitAll_enc_chunks {d : List (List Char × List (List Char))}
    (hne : d ≠ []) (hvs : ∀ kv ∈ d, kv.2 ≠ []) :
    splitAll '&' (urlencodePy d)
      = d.flatMap fun kv => kv.2.map fun v => quotePlus kv.1 ++ '=' :: quotePlus v := by
  unfold urlencodePy
  apply splitAll_joinWith
  · cases d with
    | nil => exact absurd rfl hne
    | cons kv t =>
      have hkv : kv.2 ≠ [] := hvs kv (by simp)
      rw [List.flatMap_cons]
      cases hv2 : kv.2 with
      | nil => exact absurd hv2 hkv
      | cons v vs' => simp
  · intro x hx
    obtain ⟨kv, _, hvx⟩ := List.mem_flatMap.1 hx
    obtain ⟨v, _, hve⟩ := List.mem_map.1 hvx
    rw [← hve]
    intro hm
    rcases List.mem_append.1 hm with hm | hm
    · exact quotePlus_not_amp hm rfl
    · rcases List.mem_cons.1 hm with hm | hm
      · have e : ('&' : Char).toNat = 38 := rfl
        have e2 : ('=' : Char).toNat = 61 := rfl
        have := congrArg Char.toNat hm
        omega
      · exact quotePlus_not_amp hm rfl

theorem splitAll_lower_enc_chunks {d : List (List Char × List (List Char))}
    (hne : d ≠ []) (hvs : ∀ kv ∈ d, kv.2 ≠ []) :
    splitAll '&' (pyLower (urlencodePy d))
      = d.flatMap fun kv =>
          kv.2.map fun v => pyLower (quotePlus kv.1 ++ '=' :: quotePlus v) := by
  unfold urlencodePy
  rw [pyLower_joinWith lowerChar_fix_amp]
  rw [List.map_flatMap]
  have hmaps : ∀ kv : List Char × List (List Char),
      ((kv.2.map fun v => quotePlus kv.1 ++ '=' :: quotePlus v).map pyLower)
        = kv.2.map fun v => pyLower (quotePlus kv.1 ++ '=' :: quotePlus v) := by
    intro kv
    rw [List.map_map]
    rfl
  rw [show (fun kv : List Char × List (List Char) =>
      ((kv.2.map fun v => quotePlus kv.1 ++ '=' :: quotePlus v).map pyLower))
      = (fun kv : List Char × List (List Char) =>
        kv.2.map fun v => pyLower (quotePlus kv.1 ++ '=' :: quotePlus v)) from
    funext hmaps]
  apply splitAll_joinWith
  · cases d with
    | nil => exact absurd rfl hne
    | cons kv t =>
      have hkv : kv.2 ≠ [] := hvs kv (by simp)
      rw [List.flatMap_cons]
      cases hv2 : kv.2 with
      | nil => exact absurd hv2 hkv
      | cons v vs' => simp
  · intro x hx
    obtain ⟨kv, _, hvx⟩ := List.mem_flatMap.1 hx
    obtain ⟨v, _, hve⟩ := List.mem_map.1 hvx
    rw [← hve, pyLower_chunk]
    intro hm
    rcases List.mem_append.1 hm with hm | hm
    · exact pyLower_quotePlus_not_amp hm rfl
    · rcases List.mem_cons.1 hm with hm | hm
      · have e : ('&' : Char).toNat = 38 := rfl
        have e2 : ('=' : Char).toNat = 61 := rfl
        have := congrArg Char.toNat hm
        omega
      · exact pyLower_quotePlus_not_amp hm rfl

theorem filterMap_enc_run (k : List Char) :
    ∀ vs : List (List Char), (∀ v ∈ vs, v ≠ []) →
      ((vs.map fun v => quotePlus k ++ '=' :: quotePlus v).filterMap qslChunk)
        = vs.map fun v => (k, v)
  | [], _ => rfl
  | v :: vs, hv => by
    rw [List.map_cons, List.filterMap_cons_some (qslChunk_enc (hv v (by simp)))]
    rw [filterMap_enc_run k vs (fun w hw => hv w (List.mem_cons_of_mem v hw)),
      List.map_cons]

theorem filterMap_enc_flat {d : List (List Char × List (List Char))}
    (hvne : ∀ kv ∈ d, ∀ v ∈ kv.2, v ≠ []) :
    ((d.flatMap fun kv => kv.2.map fun v => quotePlus kv.1 ++ '=' :: quotePlus v).filterMap
      qslChunk) = flatPairs d := by
  induction d with
  | nil => rfl
  | cons kv t ih =>
    rw [List.flatMap_cons, List.filterMap_append]
    unfold flatPairs
    rw [List.flatMap_cons]
    rw [filterMap_enc_run kv.1 kv.2 (hvne kv (by simp))]
    rw [ih (fun kv2 h2 => hvne kv2 (List.mem_cons_of_mem kv h2))]
    rfl

theorem filterMap_lower_enc_run (k : List Char) (hk : noUpper k) :
    ∀ vs : List (List Char), (∀ v ∈ vs, v ≠ []) → (∀ v ∈ vs, noUpper v) →
      ((vs.map fun v => pyLower (quotePlus k ++ '=' :: quotePlus v)).filterMap qslChunk)
        = vs.map fun v => (k, v)
  | [], _, _ => rfl
  | v :: vs, hv, hu => by
    rw [List.map_cons,
      List.filterMap_cons_some (qslChunk_lower_enc hk (hu v (by simp)) (hv v (by simp)))]
    rw [filterMap_lower_enc_run k hk vs (fun w hw => hv w (List.mem_cons_of_mem v hw))
      (fun w hw => hu w (List.mem_cons_of_mem v hw)), List.map_cons]

theorem filterMap_lower_enc_flat {d : List (List Char × List (List Char))}
    (hvne : ∀ kv ∈ d, ∀ v ∈ kv.2, v ≠ [])
    (hup : ∀ kv ∈ d, noUpper kv.1 ∧ ∀ v ∈ kv.2, noUpper v) :
    ((d.flatMap fun kv =>
        kv.2.map fun v => pyLower (quotePlus kv.1 ++ '=' :: quotePlus v)).filterMap
      qslChunk) = flatPairs d := by
  induction d with
  | nil => rfl
  | cons kv t ih =>
    rw [List.flatMap_cons, List.filterMap_append]
    unfold flatPairs
    rw [List.flatMap_cons]
    rw [filterMap_lower_enc_run kv.1 (hup kv (by simp)).1 kv.2 (hvne kv (by simp))
      (hup kv (by simp)).2]
    rw [ih (fun kv2 h2 => hvne kv2 (List.mem_cons_of_mem kv h2))
      (fun kv2 h2 => hup kv2 (List.mem_cons_of_mem kv h2))]
    rfl

theorem parseQsl_urlencode {d : List (List Char × List (List Char))}
    (hne : d ≠ []) (hvs : ∀ kv ∈ d, kv.2 ≠ [])
    (hvne : ∀ kv ∈ d, ∀ v ∈ kv.2, v ≠ []) :
    parseQsl (urlencodePy d) = flatPairs d := by
  rw [parseQsl_eq_filterMap (urlencodePy_ne_nil hne hvs)]
  rw [splitAll_enc_chunks hne hvs]
  exact filterMap_enc_flat hvne

theorem parseQsl_lower_urlencode {d : List (List Char × List (List Char))}
    (hne : d ≠ []) (hvs : ∀ kv ∈ d, kv.2 ≠ [])
    (hvne : ∀ kv ∈ d, ∀ v ∈ kv.2, v ≠ [])
    (hup : ∀ kv ∈ d, noUpper kv.1 ∧ ∀ v ∈ kv.2, noUpper v) :
    parseQsl (pyLower (urlencodePy d)) = flatPairs d := by
  rw [parseQsl_eq_filterMap (by
    intro he
    exact urlencodePy_ne_nil hne hvs (pyLower_nil_iff.1 he))]
  rw [splitAll_lower_enc_chunks hne hvs]
  exact filterMap_lower_enc_flat hvne hup

/-! ### `groupPairs` reassembles a nodup-key dict from its flat pairs -/

theorem insertKV_not_mem {acc : List (List Char × List (List Char))} {k : List Char}
    {v : List Char} (h : ∀ e ∈ acc, ¬ e.1 = k) :
    insertKV acc k v = acc ++ [(k, [v])] := by
  induction acc with
  | nil => rfl
  | cons e t ih =>
    obtain ⟨k', vs⟩ := e
    unfold insertKV
    rw [if_neg (h (k', vs) (by simp))]
    rw [ih (fun e2 h2 => h e2 (List.mem_cons_of_mem (k', vs) h2))]
    rfl

theorem insertKV_found {k : List Char} {vs : List (List Char)} {v : List Char} :
    ∀ acc : List (List Char × List (List Char)), (∀ e ∈ acc, ¬ e.1 = k) →
      insertKV (acc ++ [(k, vs)]) k v = acc ++ [(k, vs ++ [v])]
  | [], _ => by
    simp [insertKV]
  | e :: t, h => by
    obtain ⟨k', vs'⟩ := e
    rw [List.cons_append, List.cons_append]
    unfold insertKV
    rw [if_neg (h (k', vs') (by simp))]
    rw [insertKV_found t (fun e2 h2 => h e2 (List.mem_cons_of_mem (k', vs') h2))]

theorem foldl_ins_run (k : List Char) :
    ∀ (vs : List (List Char)) (acc : List (List Char × List (List Char)))
      (pre : List (List Char)), (∀ e ∈ acc, ¬ e.1 = k) →
      List.foldl (fun a kv => insertKV a kv.1 kv.2) (acc ++ [(k, pre)])
          (vs.map fun v => (k, v))
        = acc ++ [(k, pre ++ vs)]
  | [], acc, pre, _ => by
    rw [List.map_nil, List.foldl_nil, List.append_nil]
  | v :: vs, acc, pre, h => by
    rw [List.map_cons, List.foldl_cons]
    show List.foldl _ (insertKV (acc ++ [(k, pre)]) k v) _ = _
    rw [insertKV_found acc h]
    rw [foldl_ins_run k vs acc (pre ++ [v]) h]
    rw [List.append_assoc]
    rfl

theorem foldl_ins_flat :
    ∀ (d : List (List Char × List (List Char)))
      (acc : List (List Char × List (List Char))),
      (d.map Prod.fst).Nodup → (∀ e ∈ acc, ∀ kv ∈ d, ¬ e.1 = kv.1) →
      (∀ kv ∈ d, kv.2 ≠ []) →
      List.foldl (fun a kv => insertKV a kv.1 kv.2) acc (flatPairs d) = acc ++ d
  | [], acc, _, _, _ => by
    unfold flatPairs
    rw [List.flatMap_nil, List.foldl_nil, List.append_nil]
  | kv :: t, acc, hnd, hdisj, hvs => by
    obtain ⟨k, vs⟩ := kv
    unfold flatPairs
    rw [List.flatMap_cons, List.foldl_append]
    have hkv2 : vs ≠ [] := hvs (k, vs) (by simp)
    have hknotin : ∀ e ∈ acc, ¬ e.1 = k := fun e he => hdisj e he (k, vs) (by simp)
    have hrun : List.foldl (fun a kv => insertKV a kv.1 kv.2) acc
        (vs.map fun v => ((k, vs).1, v)) = acc ++ [(k, vs)] := by
      cases vs with
      | nil => exact absurd rfl hkv2
      | cons v vs' =>
        rw [List.map_cons, List.foldl_cons]
        show List.foldl _ (insertKV acc k v) _ = _
        rw [insertKV_not_mem hknotin]
        rw [foldl_ins_run k vs' acc [v] hknotin]
        rfl
    rw [hrun]
    have hfst : (List.map Prod.fst ((k, vs) :: t)) = k :: t.map Prod.fst := rfl
    rw [hfst] at hnd
    have hknott : k ∉ t.map Prod.fst := (List.nodup_cons.1 hnd).1
    have hrest := foldl_ins_flat t (acc ++ [(k, vs)]) (List.nodup_cons.1 hnd).2
      (by
        intro e he kv2 h2
        rcases List.mem_append.1 he with he | he
        · exact hdisj e he kv2 (List.mem_cons_of_mem (k, vs) h2)
        · rcases List.mem_singleton.1 he with rfl
          intro hek
          apply hknott
          have hk2 : k = kv2.1 := hek
          rw [hk2]
          exact List.mem_map_of_mem Prod.fst h2)
      (fun kv2 h2 => hvs kv2 (List.mem_cons_of_mem (k, vs) h2))
    rw [show flatPairs t = t.flatMap fun kv => kv.2.map fun v => (kv.1, v) from rfl] at hrest
    rw [hrest, List.append_assoc]
    rfl

theorem groupPairs_flatPairs {d : List (List Char × List (List Char))}
    (hnd : (d.map Prod.fst).Nodup) (hvs : ∀ kv ∈ d, kv.2 ≠ []) :
    groupPairs (flatPairs d) = d := by
  unfold groupPairs
  rw [foldl_ins_flat d [] hnd (by simp) hvs]
  rfl

theorem parseQs_urlencode {d : List (List Char × List (List Char))}
    (hne : d ≠ []) (hnd : (d.map Prod.fst).Nodup) (hvs : ∀ kv ∈ d, kv.2 ≠ [])
    (hvne : ∀ kv ∈ d, ∀ v ∈ kv.2, v ≠ []) :
    parseQs (urlencodePy d) = d := by
  unfold parseQs
  rw [parseQsl_urlencode hne hvs hvne]
  exact groupPairs_flatPairs hnd hvs

theorem parseQs_lower_urlencode {d : List (List Char × List (List Char))}
    (hne : d ≠ []) (hnd : (d.map Prod.fst).Nodup) (hvs : ∀ kv ∈ d, kv.2 ≠ [])
    (hvne : ∀ kv ∈ d, ∀ v ∈ kv.2, v ≠ [])
    (hup : ∀ kv ∈ d, noUpper kv.1 ∧ ∀ v ∈ kv.2, noUpper v) :
    parseQs (pyLower (urlencodePy d)) = d := by
  unfold parseQs
  rw [parseQsl_lower_urlencode hne hvs hvne hup]
  exact groupPairs_flatPairs hnd hvs

/-! ### Structural facts about `groupPairs`, `sortPairs` and `parse_qsl` output -/

theorem insertKV_keys_sub {k : List Char} {v : List Char} :
    ∀ acc : List (List Char × List (List Char)),
      ∀ x ∈ (insertKV acc k v).map Prod.fst, x ∈ acc.map Prod.fst ∨ x = k
  | [], x, hx => by
    simp [insertKV] at hx
    exact Or.inr hx
  | e :: t, x, hx => by
    obtain ⟨k', vs⟩ := e
    unfold insertKV at hx
    by_cases hk : k' = k
    · rw [if_pos hk] at hx
      rcases List.mem_cons.1 hx with hx | hx
      · exact Or.inl (by rw [hx]; simp)
      · exact Or.inl (List.mem_cons_of_mem k' hx)
    · rw [if_neg hk] at hx
      rcases List.mem_cons.1 hx with hx | hx
      · exact Or.inl (by rw [hx]; simp)
      · rcases insertKV_keys_sub t x hx with hx | hx
        · exact Or.inl (List.mem_cons_of_mem k' hx)
        · exact Or.inr hx

theorem insertKV_keys_nodup {k : List Char} {v : List Char} :
    ∀ acc : List (List Char × List (List Char)),
      (acc.map Prod.fst).Nodup → ((insertKV acc k v).map Prod.fst).Nodup
  | [], _ => by simp [insertKV]
  | e :: t, hnd => by
    obtain ⟨k', vs⟩ := e
    have hnd2 := List.nodup_cons.1 hnd
    unfold insertKV
    by_cases hk : k' = k
    · rw [if_pos hk]
      exact hnd
    · rw [if_neg hk]
      rw [List.map_cons]
      apply List.nodup_cons.2
      refine ⟨?_, insertKV_keys_nodup t hnd2.2⟩
      intro hmem
      rcases insertKV_keys_sub t k' hmem with hx | hx
      · exact hnd2.1 hx
      · exact hk hx

theorem foldl_ins_keys_nodup :
    ∀ (ps : List (List Char × List Char)) (acc : List (List Char × List (List Char))),
      (acc.map Prod.fst).Nodup →
      ((ps.foldl (fun a kv => insertKV a kv.1 kv.2) acc).map Prod.fst).Nodup
  | [], _, h => h
  | kv :: t, acc, h => by
    rw [List.foldl_cons]
    exact foldl_ins_keys_nodup t (insertKV acc kv.1 kv.2) (insertKV_keys_nodup acc h)

theorem groupPairs_keys_nodup (ps : List (List Char × List Char)) :
    ((groupPairs ps).map Prod.fst).Nodup := by
  unfold groupPairs
  exact foldl_ins_keys_nodup ps [] (by simp)

theorem insertKV_props {Pk Pv : List Char → Prop} {k : List Char} {v : List Char}
    (hk : Pk k) (hv : Pv v) :
    ∀ acc : List (List Char × List (List Char)),
      (∀ e ∈ acc, Pk e.1 ∧ e.2 ≠ [] ∧ ∀ w ∈ e.2, Pv w) →
      ∀ e ∈ insertKV acc k v, Pk e.1 ∧ e.2 ≠ [] ∧ ∀ w ∈ e.2, Pv w
  | [], _, e, he => by
    simp only [insertKV] at he
    rcases List.mem_singleton.1 he with rfl
    refine ⟨hk, by simp, ?_⟩
    intro w hw
    rcases List.mem_singleton.1 hw with rfl
    exact hv
  | e0 :: t, hacc, e, he => by
    obtain ⟨k', vs⟩ := e0
    have h0 := hacc (k', vs) (by simp)
    unfold insertKV at he
    by_cases hkk : k' = k
    · rw [if_pos hkk] at he
      rcases List.mem_cons.1 he with rfl | he
      · refine ⟨h0.1, by simp, ?_⟩
        intro w hw
        rcases List.mem_append.1 hw with hw | hw
        · exact h0.2.2 w hw
        · rcases List.mem_singleton.1 hw with rfl
          exact hv
      · exact hacc e (List.mem_cons_of_mem (k', vs) he)
    · rw [if_neg hkk] at he
      rcases List.mem_cons.1 he with rfl | he
      · exact h0
      · exact insertKV_props hk hv t
          (fun e2 h2 => hacc e2 (List.mem_cons_of_mem (k', vs) h2)) e he

theorem foldl_ins_props {Pk Pv : List Char → Prop} :
    ∀ (ps : List (List Char × List Char)) (acc : List (List Char × List (List Char))),
      (∀ e ∈ acc, Pk e.1 ∧ e.2 ≠ [] ∧ ∀ w ∈ e.2, Pv w) →
      (∀ kv ∈ ps, Pk kv.1 ∧ Pv kv.2) →
      ∀ e ∈ ps.foldl (fun a kv => insertKV a kv.1 kv.2) acc,
        Pk e.1 ∧ e.2 ≠ [] ∧ ∀ w ∈ e.2, Pv w
  | [], _, hacc, _ => hacc
  | kv :: t, acc, hacc, hps => by
    rw [List.foldl_cons]
    have hkv := hps kv (by simp)
    exact foldl_ins_props t (insertKV acc kv.1 kv.2)
      (insertKV_props hkv.1 hkv.2 acc hacc)
      (fun kv2 h2 => hps kv2 (List.mem_cons_of_mem kv h2))

theorem groupPairs_props {Pk Pv : List Char → Prop} {ps : List (List Char × List Char)}
    (hps : ∀ kv ∈ ps, Pk kv.1 ∧ Pv kv.2) :
    ∀ e ∈ groupPairs ps, Pk e.1 ∧ e.2 ≠ [] ∧ ∀ w ∈ e.2, Pv w := by
  unfold groupPairs
  exact foldl_ins_props ps [] (by simp) hps

theorem lexLeB_total : ∀ a b : List Char, lexLeB a b = true ∨ lexLeB b a = true
  | [], _ => Or.inl rfl
  | _ :: _, [] => Or.inr rfl
  | a :: as, b :: bs => by
    by_cases h1 : a.toNat < b.toNat
    · left
      show (if a.toNat < b.toNat then true
        else if b.toNat < a.toNat then false else lexLeB as bs) = true
      rw [if_pos h1]
    · by_cases h2 : b.toNat < a.toNat
      · right
        show (if b.toNat < a.toNat then true
          else if a.toNat < b.toNat then false else lexLeB bs as) = true
        rw [if_pos h2]
      · rcases lexLeB_total as bs with h | h
        · left
          show (if a.toNat < b.toNat then true
            else if b.toNat < a.toNat then false else lexLeB as bs) = true
          rw [if_neg h1, if_neg h2]
          exact h
        · right
          show (if b.toNat < a.toNat then true
            else if a.toNat < b.toNat then false else lexLeB bs as) = true
          rw [if_neg h2, if_neg h1]
          exact h

theorem lexLeB_cons_iff {a b : Char} {as bs : List Char} :
    lexLeB (a :: as) (b :: bs) = true ↔
      a.toNat < b.toNat ∨ (a.toNat = b.toNat ∧ lexLeB as bs = true) := by
  show (if a.toNat < b.toNat then true
    else if b.toNat < a.toNat then false else lexLeB as bs) = true ↔ _
  by_cases h1 : a.toNat < b.toNat
  · rw [if_pos h1]
    constructor
    · intro _
      exact Or.inl h1
    · intro _
      rfl
  · rw [if_neg h1]
    by_cases h2 : b.toNat < a.toNat
    · rw [if_pos h2]
      constructor
      · intro hf
        cases hf
      · rintro (h | ⟨he, _⟩)
        · omega
        · omega
    · rw [if_neg h2]
      constructor
      · intro h
        exact Or.inr ⟨by omega, h⟩
      · rintro (h | ⟨_, h⟩)
        · omega
        · exact h

theorem lexLeB_trans : ∀ a b c : List Char,
    lexLeB a b = true → lexLeB b c = true → lexLeB a c = true
  | [], _, _ => fun _ _ => rfl
  | a :: as, [], _ => fun h _ => by cases h
  | a :: as, b :: bs, [] => fun _ h2 => by cases h2
  | a :: as, b :: bs, c :: cs => by
    intro h1 h2
    rw [lexLeB_cons_iff] at h1 h2 ⊢
    rcases h1 with h1 | ⟨h1e, h1r⟩
    · rcases h2 with h2 | ⟨h2e, _⟩
      · exact Or.inl (by omega)
      · exact Or.inl (by omega)
    · rcases h2 with h2 | ⟨h2e, h2r⟩
      · exact Or.inl (by omega)
      · exact Or.inr ⟨by omega, lexLeB_trans as bs cs h1r h2r⟩

instance : IsTotal (List Char × List (List Char)) keyLe :=
  ⟨fun a b => lexLeB_total a.1 b.1⟩

instance : IsTrans (List Char × List (List Char)) keyLe :=
  ⟨fun a b c h1 h2 => lexLeB_trans a.1 b.1 c.1 h1 h2⟩

theorem sortPairs_perm (d : List (List Char × List (List Char))) :
    List.Perm (sortPairs d) d :=
  List.perm_insertionSort keyLe d

theorem sortPairs_mem {d : List (List Char × List (List Char))}
    {x : List Char × List (List Char)} : x ∈ sortPairs d ↔ x ∈ d :=
  (sortPairs_perm d).mem_iff

theorem sortPairs_sorted (d : List (List Char × List (List Char))) :
    List.Sorted keyLe (sortPairs d) :=
  List.sorted_insertionSort keyLe d

theorem sortPairs_eq_of_sorted {d : List (List Char × List (List Char))}
    (h : List.Sorted keyLe d) : sortPairs d = d :=
  List.Sorted.insertionSort_eq h

theorem sortPairs_keys_nodup {d : List (List Char × List (List Char))}
    (h : (d.map Prod.fst).Nodup) : ((sortPairs d).map Prod.fst).Nodup :=
  ((sortPairs_perm d).map Prod.fst).nodup_iff.2 h

theorem filter_keys_nodup {d : List (List Char × List (List Char))}
    {p : List Char × List (List Char) → Bool} (h : (d.map Prod.fst).Nodup) :
    ((d.filter p).map Prod.fst).Nodup :=
  List.Nodup.sublist ((List.filter_sublist d).map Prod.fst) h

theorem splitAll_ne_nil {sep : Char} : ∀ l : List Char, splitAll sep l ≠ []
  | [] => by simp [splitAll]
  | c :: t => by
    unfold splitAll
    by_cases hc : c = sep
    · rw [if_pos hc]
      simp
    · rw [if_neg hc]
      cases hsp : splitAll sep t with
      | nil => simp
      | cons p ps => simp

theorem mem_splitAll {sep : Char} {x : List Char} :
    ∀ {l : List Char}, x ∈ splitAll sep l → ∀ c ∈ x, c ∈ l := by
  intro l
  induction l generalizing x with
  | nil =>
    intro hx c hc
    simp [splitAll] at hx
    rw [hx] at hc
    simp at hc
  | cons a t ih =>
    intro hx c hc
    rw [splitAll] at hx
    by_cases ha : a = sep
    · rw [if_pos ha] at hx
      rcases List.mem_cons.1 hx with rfl | hx
      · simp at hc
      · exact List.mem_cons_of_mem a (ih hx c hc)
    · rw [if_neg ha] at hx
      cases hsp : splitAll sep t with
      | nil => exact absurd hsp (splitAll_ne_nil t)
      | cons p ps =>
        rw [hsp] at hx
        rcases List.mem_cons.1 hx with rfl | hx
        · rcases List.mem_cons.1 hc with rfl | hc
          · simp
          · exact List.mem_cons_of_mem a (ih (hsp ▸ List.mem_cons_self p ps) c hc)
        · exact List.mem_cons_of_mem a
            (ih (hsp ▸ List.mem_cons_of_mem p hx) c hc)

theorem noUpper_unquote_fixed {l : List Char} (hfix : ∀ c ∈ l, lowerChar c = c)
    (hpct : '%' ∉ l) : noUpper (unquotePlus l) := by
  rw [unquotePlus_no_esc hpct]
  intro c hc
  obtain ⟨c0, hc0, hce⟩ := List.mem_map.1 hc
  unfold plusToSpace at hce
  by_cases hp : c0 = '+'
  · rw [if_pos hp] at hce
    rw [← hce]
    have e : (' ' : Char).toNat = 32 := rfl
    omega
  · rw [if_neg hp] at hce
    rw [← hce]
    exact (lowerChar_fixed_iff c0).1 (hfix c0 hc0)

theorem unquote_ne_nil_fixed {l : List Char} (hpct : '%' ∉ l) (hne : l ≠ []) :
    unquotePlus l ≠ [] := by
  rw [unquotePlus_no_esc hpct]
  simpa using hne

theorem parseQsl_entry_facts {qs : List Char} (hfix : ∀ c ∈ qs, lowerChar c = c)
    (hpct : '%' ∉ qs) :
    ∀ kv ∈ parseQsl qs, noUpper kv.1 ∧ (noUpper kv.2 ∧ kv.2 ≠ []) := by
  intro kv hkv
  unfold parseQsl at hkv
  by_cases hq : qs = []
  · rw [if_pos hq] at hkv
    simp at hkv
  · rw [if_neg hq] at hkv
    obtain ⟨chunk, hchunk, hfm⟩ := List.mem_filterMap.1 hkv
    have hsub : ∀ c ∈ chunk, c ∈ qs := mem_splitAll hchunk
    by_cases hce : chunk = []
    · rw [if_pos hce] at hfm
      cases hfm
    · rw [if_neg hce] at hfm
      cases hsp : splitFirst '=' chunk with
      | none =>
        rw [hsp] at hfm
        cases hfm
      | some nv =>
        obtain ⟨n, v⟩ := nv
        rw [hsp] at hfm
        have hfm2 : (if v = [] then none
            else some (unquotePlus n, unquotePlus v)) = some kv := hfm
        by_cases hv : v = []
        · rw [if_pos hv] at hfm2
          cases hfm2
        · rw [if_neg hv] at hfm2
          injection hfm2 with hfm2
          obtain ⟨hchk, _⟩ := splitFirst_eq_some hsp
          have hsubn : ∀ c ∈ n, c ∈ qs := by
            intro c hc
            exact hsub c (hchk ▸ List.mem_append.2 (Or.inl hc))
          have hsubv : ∀ c ∈ v, c ∈ qs := by
            intro c hc
            exact hsub c
              (hchk ▸ List.mem_append.2 (Or.inr (List.mem_cons_of_mem '=' hc)))
          rw [← hfm2]
          refine ⟨?_, ?_, ?_⟩
          · exact noUpper_unquote_fixed (fun c hc => hfix c (hsubn c hc))
              (fun hm => hpct (hsubn '%' hm))
          · exact noUpper_unquote_fixed (fun c hc => hfix c (hsubv c hc))
              (fun hm => hpct (hsubv '%' hm))
          · exact unquote_ne_nil_fixed (fun hm => hpct (hsubv '%' hm)) hv

/-! ### Decomposing a successful `urlsplit` -/

theorem notDelim_false {c : Char} (h : notDelim c = false) :
    c = '/' ∨ c = '?' ∨ c = '#' := by
  unfold notDelim at h
  rw [decide_eq_false_iff_not] at h
  by_cases hc : c = '/' ∨ c = '?' ∨ c = '#'
  · exact hc
  · exact absurd hc (fun hcc => h hcc)

theorem schemeSplit_fst_valid (x : List Char) :
    (schemeSplit x).1 = [] ∨ schemeOk (schemeSplit x).1 = true := by
  cases hsp : splitFirst ':' x with
  | none =>
    rw [schemeSplit_of_none hsp]
    exact Or.inl rfl
  | some p =>
    obtain ⟨pre, post⟩ := p
    by_cases hok : schemeOk pre = true
    · rw [schemeSplit_of_some_ok hsp hok]
      exact Or.inr (schemeOk_pyLower hok)
    · rw [schemeSplit_of_some_bad hsp (by simpa using hok)]
      exact Or.inl rfl

theorem schemeSplit_snd_subset (x : List Char) :
    ∀ c ∈ (schemeSplit x).2, c ∈ x := by
  cases hsp : splitFirst ':' x with
  | none =>
    rw [schemeSplit_of_none hsp]
    exact fun c hc => hc
  | some p =>
    obtain ⟨pre, post⟩ := p
    by_cases hok : schemeOk pre = true
    · rw [schemeSplit_of_some_ok hsp hok]
      obtain ⟨hx, _⟩ := splitFirst_eq_some hsp
      intro c hc
      rw [hx]
      exact List.mem_append.2 (Or.inr (List.mem_cons_of_mem ':' hc))
    · rw [schemeSplit_of_some_bad hsp (by simpa using hok)]
      exact fun c hc => hc

theorem urlsplit_ok_decomp {l : List Char} {sp : USplit} (h : urlsplitPy l = .ok sp) :
    ∃ rest1 rest2 qtl ftl,
      schemeSplit (cleanUrl l) = (sp.scheme, rest1) ∧
      ((rest1.take 2 = ['/', '/'] ∧
          sp.netloc = (rest1.drop 2).takeWhile notDelim ∧
          rest2 = (rest1.drop 2).dropWhile notDelim) ∨
        (rest1.take 2 ≠ ['/', '/'] ∧ sp.netloc = [] ∧ rest2 = rest1)) ∧
      ¬ (('[' ∈ sp.netloc ∧ ']' ∉ sp.netloc) ∨ (']' ∈ sp.netloc ∧ '[' ∉ sp.netloc)) ∧
      rest2 = sp.path ++ qtl ++ ftl ∧
      ((qtl = [] ∧ sp.query = []) ∨ qtl = '?' :: sp.query) ∧
      ((ftl = [] ∧ sp.frag = []) ∨ ftl = '#' :: sp.frag) ∧
      '#' ∉ sp.path ++ qtl ∧ '?' ∉ sp.path := by
  simp only [urlsplitPy] at h
  obtain ⟨s1, r1, hsr⟩ : ∃ s1 r1, schemeSplit (cleanUrl l) = (s1, r1) :=
    ⟨(schemeSplit (cleanUrl l)).1, (schemeSplit (cleanUrl l)).2, rfl⟩
  rw [hsr] at h
  split at h
  · next htake =>
    simp only [splitNetloc] at h
    split at h
    · simp at h
    · next hbr =>
      split at h
      · next p1 q1 hq =>
        split at h
        · next u2 f2 hh =>
          rw [hh] at hq
          dsimp only at hq
          injection h with h
          subst h
          dsimp only
          obtain ⟨hr2, hnf⟩ := splitFirst_eq_some hh
          have hr2e : (r1.drop 2).dropWhile notDelim = u2 ++ '#' :: f2 := hr2
          obtain ⟨hu2, hnq⟩ := splitFirst_eq_some hq
          refine ⟨r1, (r1.drop 2).dropWhile notDelim, '?' :: q1, '#' :: f2, hsr,
            Or.inl ⟨htake, rfl, rfl⟩, hbr, ?_, Or.inr rfl, Or.inr rfl, ?_, hnq⟩
          · rw [hr2e, hu2]
          · rw [← hu2]
            exact hnf
        · next hh =>
          rw [hh] at hq
          dsimp only at hq
          injection h with h
          subst h
          dsimp only
          obtain ⟨hr2, hnq⟩ := splitFirst_eq_some hq
          have hr2e : (r1.drop 2).dropWhile notDelim = p1 ++ '?' :: q1 := hr2
          refine ⟨r1, (r1.drop 2).dropWhile notDelim, '?' :: q1, [], hsr,
            Or.inl ⟨htake, rfl, rfl⟩, hbr, ?_, Or.inr rfl, Or.inl ⟨rfl, rfl⟩, ?_, hnq⟩
          · rw [hr2e]
            simp
          · intro hm
            have hh2 : splitFirst '#' ((r1.drop 2).dropWhile notDelim) = none := hh
            apply splitFirst_eq_none hh2
            rw [hr2e]
            exact hm
      · next hq =>
        split at h
        · next u2 f2 hh =>
          rw [hh] at hq
          dsimp only at hq
          injection h with h
          subst h
          dsimp only
          obtain ⟨hr2, hnf⟩ := splitFirst_eq_some hh
          have hr2e : (r1.drop 2).dropWhile notDelim = u2 ++ '#' :: f2 := hr2
          refine ⟨r1, (r1.drop 2).dropWhile notDelim, [], '#' :: f2, hsr,
            Or.inl ⟨htake, rfl, rfl⟩, hbr, ?_, Or.inl ⟨rfl, rfl⟩, Or.inr rfl, ?_, ?_⟩
          · rw [hr2e]
            simp
          · simpa using hnf
          · exact fun hm => splitFirst_eq_none hq hm
        · next hh =>
          rw [hh] at hq
          dsimp only at hq
          injection h with h
          subst h
          dsimp only
          refine ⟨r1, (r1.drop 2).dropWhile notDelim, [], [], hsr,
            Or.inl ⟨htake, rfl, rfl⟩, hbr, by simp, Or.inl ⟨rfl, rfl⟩,
            Or.inl ⟨rfl, rfl⟩, ?_, ?_⟩
          · have hh2 : splitFirst '#' ((r1.drop 2).dropWhile notDelim) = none := hh
            simpa using fun hm => splitFirst_eq_none hh2 hm
          · exact fun hm => splitFirst_eq_none hq hm
  · next htake =>
    split at h
    · simp at h
    · next hbr =>
      split at h
      · next p1 q1 hq =>
        split at h
        · next u2 f2 hh =>
          rw [hh] at hq
          dsimp only at hq
          injection h with h
          subst h
          dsimp only
          obtain ⟨hr1, hnf⟩ := splitFirst_eq_some hh
          have hr1e : r1 = u2 ++ '#' :: f2 := hr1
          obtain ⟨hu2, hnq⟩ := splitFirst_eq_some hq
          refine ⟨r1, r1, '?' :: q1, '#' :: f2, hsr,
            Or.inr ⟨htake, rfl, rfl⟩, hbr, ?_, Or.inr rfl, Or.inr rfl, ?_, hnq⟩
          · rw [hr1e, hu2]
          · rw [← hu2]
            exact hnf
        · next hh =>
          rw [hh] at hq
          dsimp only at hq
          injection h with h
          subst h
          dsimp only
          obtain ⟨hr1, hnq⟩ := splitFirst_eq_some hq
          have hr1e : r1 = p1 ++ '?' :: q1 := hr1
          refine ⟨r1, r1, '?' :: q1, [], hsr,
            Or.inr ⟨htake, rfl, rfl⟩, hbr, ?_, Or.inr rfl, Or.inl ⟨rfl, rfl⟩, ?_, hnq⟩
          · rw [hr1e]
            simp
          · intro hm
            have hh2 : splitFirst '#' r1 = none := hh
            apply splitFirst_eq_none hh2
            rw [hr1e]
            exact hm
      · next hq =>
        split at h
        · next u2 f2 hh =>
          rw [hh] at hq
          dsimp only at hq
          injection h with h
          subst h
          dsimp only
          obtain ⟨hr1, hnf⟩ := splitFirst_eq_some hh
          have hr1e : r1 = u2 ++ '#' :: f2 := hr1
          refine ⟨r1, r1, [], '#' :: f2, hsr,
            Or.inr ⟨htake, rfl, rfl⟩, hbr, ?_, Or.inl ⟨rfl, rfl⟩, Or.inr rfl, ?_, ?_⟩
          · rw [hr1e]
            simp
          · simpa using hnf
          · exact fun hm => splitFirst_eq_none hq hm
        · next hh =>
          rw [hh] at hq
          dsimp only at hq
          injection h with h
          subst h
          dsimp only
          refine ⟨r1, r1, [], [], hsr,
            Or.inr ⟨htake, rfl, rfl⟩, hbr, ?_, Or.inl ⟨rfl, rfl⟩,
            Or.inl ⟨rfl, rfl⟩, ?_, ?_⟩
          · simp
          · have hh2 : splitFirst '#' r1 = none := hh
            simpa using fun hm => splitFirst_eq_none hh2 hm
          · exact fun hm => splitFirst_eq_none hq hm

theorem urlparse_no_params {l : List Char} {sp : USplit} (h : urlsplitPy l = .ok sp)
    (hs : ';' ∉ sp.path) :
    urlparsePy l = .ok ⟨sp.scheme, sp.netloc, sp.path, [], sp.query, sp.frag⟩ := by
  unfold urlparsePy
  rw [h]
  show (if sp.scheme ∈ usesParams ∧ ';' ∈ sp.path then
      Except.ok (⟨sp.scheme, sp.netloc, (splitParams sp.path).1, (splitParams sp.path).2,
        sp.query, sp.frag⟩ : UParse)
    else Except.ok (⟨sp.scheme, sp.netloc, sp.path, [], sp.query, sp.frag⟩ : UParse))
    = (Except.ok (⟨sp.scheme, sp.netloc, sp.path, [], sp.query, sp.frag⟩ : UParse)
        : Except PyErr UParse)
  rw [if_neg (fun hc => hs hc.2)]

/-! ### Shape of `urlunsplit` output and derived facts of a successful parse -/

theorem unsplit_query (s n u q : List Char) :
    urlunsplitPy s n u q []
      = urlunsplitPy s n u [] [] ++ (if q = [] then [] else '?' :: q) := by
  unfold urlunsplitPy
  by_cases hq : q = []
  · subst hq
    simp
  · simp [hq]

theorem unsplit_nofq (s n u : List Char) :
    urlunsplitPy s n u [] []
      = if s ≠ [] then
          s ++ ':' :: (if n ≠ [] ∨ (s ≠ [] ∧ s ∈ usesNetloc ∧ u.take 2 ≠ ['/', '/']) then
            '/' :: '/' :: (n ++ (if u ≠ [] ∧ u.take 1 ≠ ['/'] then '/' :: u else u))
          else u)
        else (if n ≠ [] ∨ (s ≠ [] ∧ s ∈ usesNetloc ∧ u.take 2 ≠ ['/', '/']) then
            '/' :: '/' :: (n ++ (if u ≠ [] ∧ u.take 1 ≠ ['/'] then '/' :: u else u))
          else u) :=
  rfl

theorem mem_unsplit_url1 {s n u : List Char} {c : Char}
    (h : c ∈ (if n ≠ [] ∨ (s ≠ [] ∧ s ∈ usesNetloc ∧ u.take 2 ≠ ['/', '/']) then
        '/' :: '/' :: (n ++ (if u ≠ [] ∧ u.take 1 ≠ ['/'] then '/' :: u else u))
      else u)) :
    c ∈ n ∨ c ∈ u ∨ c = '/' := by
  revert h
  split
  · intro h
    rcases List.mem_cons.1 h with rfl | h
    · exact Or.inr (Or.inr rfl)
    rcases List.mem_cons.1 h with rfl | h
    · exact Or.inr (Or.inr rfl)
    rcases List.mem_append.1 h with h | h
    · exact Or.inl h
    · revert h
      split
      · intro h
        rcases List.mem_cons.1 h with rfl | h
        · exact Or.inr (Or.inr rfl)
        · exact Or.inr (Or.inl h)
      · intro h
        exact Or.inr (Or.inl h)
  · intro h
    exact Or.inr (Or.inl h)

theorem mem_urlunsplit {s n u q : List Char} {c : Char}
    (h : c ∈ urlunsplitPy s n u q []) :
    c ∈ s ∨ c ∈ n ∨ c ∈ u ∨ c ∈ q ∨ c = ':' ∨ c = '/' ∨ c = '?' := by
  rw [unsplit_query, unsplit_nofq] at h
  rcases List.mem_append.1 h with h | h
  · revert h
    split
    · intro h
      rcases List.mem_append.1 h with h | h
      · exact Or.inl h
      · rcases List.mem_cons.1 h with rfl | h
        · exact Or.inr (Or.inr (Or.inr (Or.inr (Or.inl rfl))))
        · rcases mem_unsplit_url1 h with h | h | h
          · exact Or.inr (Or.inl h)
          · exact Or.inr (Or.inr (Or.inl h))
          · exact Or.inr (Or.inr (Or.inr (Or.inr (Or.inr (Or.inl h)))))
    · intro h
      rcases mem_unsplit_url1 h with h | h | h
      · exact Or.inr (Or.inl h)
      · exact Or.inr (Or.inr (Or.inl h))
      · exact Or.inr (Or.inr (Or.inr (Or.inr (Or.inr (Or.inl h)))))
  · revert h
    split
    · intro h
      simp at h
    · intro h
      rcases List.mem_cons.1 h with rfl | h
      · exact Or.inr (Or.inr (Or.inr (Or.inr (Or.inr (Or.inr rfl)))))
      · exact Or.inr (Or.inr (Or.inr (Or.inl h)))

theorem lowerChar_fix_sep : lowerChar ':' = ':' ∧ lowerChar '/' = '/' ∧
    lowerChar '?' = '?' := by
  refine ⟨?_, ?_, ?_⟩
  · apply lowerChar_eq_of_not
    have e : (':' : Char).toNat = 58 := rfl
    omega
  · apply lowerChar_eq_of_not
    have e : ('/' : Char).toNat = 47 := rfl
    omega
  · apply lowerChar_eq_of_not
    have e : ('?' : Char).toNat = 63 := rfl
    omega

theorem pyLower_urlunsplit {s n u q : List Char} (hs : pyLower s = s)
    (hn : pyLower n = n) (hu : pyLower u = u) :
    pyLower (urlunsplitPy s n u q []) = urlunsplitPy s n u (pyLower q) [] := by
  rw [unsplit_query s n u q, unsplit_query s n u (pyLower q), pyLower_append]
  congr 1
  · apply pyLower_eq_self
    intro c hc
    have hc2 : c ∈ urlunsplitPy s n u [] [] := by
      rw [unsplit_nofq]
      exact hc
    rcases mem_urlunsplit hc2 with h | h | h | h | h | h | h
    · rw [← hs] at h
      exact mem_pyLower_fixed h
    · rw [← hn] at h
      exact mem_pyLower_fixed h
    · rw [← hu] at h
      exact mem_pyLower_fixed h
    · simp at h
    · rw [h]
      exact lowerChar_fix_sep.1
    · rw [h]
      exact lowerChar_fix_sep.2.1
    · rw [h]
      exact lowerChar_fix_sep.2.2
  · by_cases hq : q = []
    · subst hq
      rw [if_pos rfl]
      rw [show pyLower ([] : List Char) = [] from rfl, if_pos rfl]
    · rw [if_neg hq, if_neg (fun he => hq (pyLower_nil_iff.1 he))]
      show pyLower ('?' :: q) = '?' :: pyLower q
      show lowerChar '?' :: pyLower q = '?' :: pyLower q
      rw [lowerChar_fix_sep.2.2]

theorem dropWhile_cons_head_false {p : Char → Bool} :
    ∀ {l : List Char} {c : Char} {t : List Char}, l.dropWhile p = c :: t → p c = false
  | [], c, t, h => by simp at h
  | a :: l, c, t, h => by
    rw [List.dropWhile_cons] at h
    by_cases ha : p a = true
    · rw [if_pos ha] at h
      exact dropWhile_cons_head_false h
    · rw [if_neg ha] at h
      injection h with h1 _
      rw [← h1]
      simpa using ha

theorem urlsplit_ok_facts {l : List Char} {sp : USplit} (h : urlsplitPy l = .ok sp) :
    (sp.scheme = [] ∨ schemeOk sp.scheme = true) ∧
    (∀ c ∈ sp.netloc, notDelim c = true) ∧
    (∀ c ∈ sp.netloc, c ∈ cleanUrl l) ∧
    ¬ (('[' ∈ sp.netloc ∧ ']' ∉ sp.netloc) ∨ (']' ∈ sp.netloc ∧ '[' ∉ sp.netloc)) ∧
    '#' ∉ sp.path ∧ '?' ∉ sp.path ∧ '#' ∉ sp.query ∧
    (∀ c ∈ sp.path, c ∈ cleanUrl l) ∧ (∀ c ∈ sp.query, c ∈ cleanUrl l) ∧
    (sp.path ≠ [] → sp.path.take 1 ≠ ['/'] →
      sp.netloc = [] ∧ (sp.scheme = [] → ∃ tl, cleanUrl l = sp.path ++ tl)) := by
  obtain ⟨r1, r2, qtl, ftl, hsr, hnet, hbr, hr2, hq, _, hhash, hqm⟩ :=
    urlsplit_ok_decomp h
  have hval : sp.scheme = [] ∨ schemeOk sp.scheme = true := by
    have hv := schemeSplit_fst_valid (cleanUrl l)
    rw [hsr] at hv
    simpa using hv
  have hr1sub : ∀ c ∈ r1, c ∈ cleanUrl l := by
    have hv := schemeSplit_snd_subset (cleanUrl l)
    rw [hsr] at hv
    simpa using hv
  have hr2sub : ∀ c ∈ r2, c ∈ cleanUrl l := by
    rcases hnet with ⟨_, _, hdrop⟩ | ⟨_, _, heq⟩
    · intro c hc
      rw [hdrop] at hc
      exact hr1sub c ((List.drop_sublist 2 r1).subset (mem_of_mem_dropWhile hc))
    · intro c hc
      rw [heq] at hc
      exact hr1sub c hc
  have hpsub : ∀ c ∈ sp.path, c ∈ cleanUrl l := by
    intro c hc
    apply hr2sub c
    rw [hr2]
    exact List.mem_append.2 (Or.inl (List.mem_append.2 (Or.inl hc)))
  have hqsub : ∀ c ∈ sp.query, c ∈ cleanUrl l := by
    intro c hc
    rcases hq with ⟨_, hq0⟩ | hq1
    · rw [hq0] at hc
      simp at hc
    · apply hr2sub c
      rw [hr2, hq1]
      exact List.mem_append.2 (Or.inl (List.mem_append.2 (Or.inr
        (List.mem_cons_of_mem '?' hc))))
  have hnd : ∀ c ∈ sp.netloc, notDelim c = true := by
    rcases hnet with ⟨_, hn, _⟩ | ⟨_, hn, _⟩
    · intro c hc
      rw [hn] at hc
      exact List.mem_takeWhile_imp hc
    · intro c hc
      rw [hn] at hc
      simp at hc
  have hnsub : ∀ c ∈ sp.netloc, c ∈ cleanUrl l := by
    rcases hnet with ⟨_, hn, _⟩ | ⟨_, hn, _⟩
    · intro c hc
      rw [hn] at hc
      exact hr1sub c ((List.drop_sublist 2 r1).subset (mem_of_mem_takeWhile hc))
    · intro c hc
      rw [hn] at hc
      simp at hc
  have hhp : '#' ∉ sp.path := by
    intro hm
    exact hhash (List.mem_append.2 (Or.inl hm))
  have hhq : '#' ∉ sp.query := by
    intro hm
    rcases hq with ⟨_, hq0⟩ | hq1
    · rw [hq0] at hm
      simp at hm
    · exact hhash (List.mem_append.2 (Or.inr (hq1 ▸ List.mem_cons_of_mem '?' hm)))
  refine ⟨hval, hnd, hnsub, hbr, hhp, hqm, hhq, hpsub, hqsub, ?_⟩
  intro hpne hp1
  rcases hnet with ⟨htake, hn, hdrop⟩ | ⟨htake, hn, heq⟩
  · exfalso
    cases hp : sp.path with
    | nil => exact hpne hp
    | cons c0 t0 =>
      have hr2c : r2 = c0 :: (t0 ++ qtl ++ ftl) := by
        rw [hr2, hp]
        simp
      have hc0 : notDelim c0 = false := by
        apply dropWhile_cons_head_false
        rw [← hdrop]
        exact hr2c
      rcases notDelim_false hc0 with h0 | h0 | h0
      · apply hp1
        rw [hp, h0]
        rfl
      · apply hqm
        rw [hp, h0]
        exact List.mem_cons_self '?' t0
      · apply hhash
        apply List.mem_append.2
        apply Or.inl
        rw [hp, h0]
        exact List.mem_cons_self '#' t0
  · refine ⟨hn, ?_⟩
    intro hs0
    have hss : schemeSplit (cleanUrl l) = ([], cleanUrl l) := by
      apply schemeSplit_fst_nil
      rw [hsr]
      exact hs0
    have hr1u : r1 = cleanUrl l := by
      rw [hsr] at hss
      have hv := congrArg Prod.snd hss
      simpa using hv
    refine ⟨qtl ++ ftl, ?_⟩
    rw [← hr1u, ← heq, hr2, List.append_assoc]

/-! ### Re-parsing the rebuilt URL -/

theorem takeWhile_eq_nil_of_head {p : Char → Bool} {l : List Char}
    (h : ∀ c t, l = c :: t → p c = false) : l.takeWhile p = [] := by
  cases l with
  | nil => rfl
  | cons c t =>
    rw [List.takeWhile_cons, if_neg (by simp [h c t rfl])]

theorem dropWhile_eq_self_of_head2 {p : Char → Bool} {l : List Char}
    (h : ∀ c t, l = c :: t → p c = false) : l.dropWhile p = l := by
  cases l with
  | nil => rfl
  | cons c t =>
    rw [List.dropWhile_cons, if_neg (by simp [h c t rfl])]

theorem alpha_not_c0 {c : Char} (h : isAsciiAlpha c = true) : isC0Space c = false := by
  unfold isAsciiAlpha at h
  rw [decide_eq_true_eq] at h
  unfold isC0Space
  rw [decide_eq_false_iff_not]
  omega

theorem take2_ne_slashslash {X tl : List Char} (hX2 : X.take 2 ≠ ['/', '/'])
    (hXsingle : ∀ c, X = [c] → ¬ c = '/')
    (htlhead : ∀ c t2, tl = c :: t2 → c = '?') :
    (X ++ tl).take 2 ≠ ['/', '/'] := by
  cases X with
  | nil =>
    cases htl2 : tl with
    | nil => simp
    | cons c t2 =>
      have hc := htlhead c t2 htl2
      subst hc
      intro heq
      rw [List.nil_append] at heq
      have h1 : ('?' :: t2).take 2 = '?' :: t2.take 1 := rfl
      rw [h1] at heq
      injection heq with heq _
      exact absurd heq (by decide)
  | cons a X' =>
    cases X' with
    | nil =>
      intro heq
      have h1 : ((a :: ([] : List Char)) ++ tl).take 2 = a :: tl.take 1 := rfl
      rw [h1] at heq
      injection heq with heq _
      exact hXsingle a rfl heq
    | cons b X'' =>
      intro heq
      apply hX2
      have h1 : ((a :: b :: X'') ++ tl).take 2 = [a, b] := rfl
      rw [h1] at heq
      exact heq

theorem parse_noNetloc {s W X tl q2 : List Char}
    (hclean : cleanUrl W = W)
    (hscheme : schemeSplit W = (s, X ++ tl))
    (htake : (X ++ tl).take 2 ≠ ['/', '/'])
    (hXq : '?' ∉ X) (hXh : '#' ∉ X) (htlh : '#' ∉ tl)
    (htl : (tl = [] ∧ q2 = []) ∨ tl = '?' :: q2) :
    urlsplitPy W = .ok ⟨s, [], X, q2, []⟩ := by
  simp only [urlsplitPy]
  rw [hclean, hscheme]
  dsimp only
  rw [if_neg htake]
  dsimp only
  rw [if_neg (show ¬ (('[' ∈ ([] : List Char) ∧ ']' ∉ ([] : List Char)) ∨
    (']' ∈ ([] : List Char) ∧ '[' ∉ ([] : List Char))) by simp)]
  have hfr : splitFirst '#' (X ++ tl) = none := by
    apply splitFirst_of_not_mem
    intro hm
    rcases List.mem_append.1 hm with hm | hm
    · exact hXh hm
    · exact htlh hm
  rw [hfr]
  dsimp only
  rcases htl with ⟨htl0, hq20⟩ | htl1
  · subst htl0
    subst hq20
    rw [List.append_nil]
    rw [splitFirst_of_not_mem hXq]
  · subst htl1
    rw [splitFirst_append_not_mem hXq q2]

theorem parse_with_netloc {s n W X tl q2 : List Char}
    (hclean : cleanUrl W = W)
    (hscheme : schemeSplit W = (s, '/' :: '/' :: (n ++ (X ++ tl))))
    (hnall : ∀ c ∈ n, notDelim c = true)
    (hstop : ∀ c t2, X ++ tl = c :: t2 → notDelim c = false)
    (hbr : ¬ (('[' ∈ n ∧ ']' ∉ n) ∨ (']' ∈ n ∧ '[' ∉ n)))
    (hXq : '?' ∉ X) (hXh : '#' ∉ X) (htlh : '#' ∉ tl)
    (htl : (tl = [] ∧ q2 = []) ∨ tl = '?' :: q2) :
    urlsplitPy W = .ok ⟨s, n, X, q2, []⟩ := by
  simp only [urlsplitPy]
  rw [hclean, hscheme]
  dsimp only
  rw [if_pos (show ('/' :: '/' :: (n ++ (X ++ tl))).take 2 = ['/', '/'] from rfl)]
  simp only [splitNetloc]
  rw [show ('/' :: '/' :: (n ++ (X ++ tl))).drop 2 = n ++ (X ++ tl) from rfl]
  rw [List.takeWhile_append_of_pos hnall, List.dropWhile_append_of_pos hnall]
  rw [takeWhile_eq_nil_of_head hstop, dropWhile_eq_self_of_head2 hstop]
  rw [List.append_nil]
  rw [if_neg hbr]
  have hfr : splitFirst '#' (X ++ tl) = none := by
    apply splitFirst_of_not_mem
    intro hm
    rcases List.mem_append.1 hm with hm | hm
    · exact hXh hm
    · exact htlh hm
  rw [hfr]
  dsimp only
  rcases htl with ⟨htl0, hq20⟩ | htl1
  · subst htl0
    subst hq20
    rw [List.append_nil]
    rw [splitFirst_of_not_mem hXq]
  · subst htl1
    rw [splitFirst_append_not_mem hXq q2]

theorem cleanUrl_of_head_good2 {l : List Char}
    (hh : ∀ c t, l = c :: t → isC0Space c = false)
    (hu : ∀ c ∈ l, isUnsafeByte c = false) : cleanUrl l = l := by
  unfold cleanUrl stripWSpace
  rw [dropWhile_eq_self_of_head2 hh]
  apply List.filter_eq_self.2
  intro c hc
  rw [hu c hc]
  rfl

/-- Re-parsing the URL rebuilt from scheme `s`, netloc `n`, slash-stripped
path `p2` and encoded query `q2` (tail `tl` is the `?`-prefixed query, or
empty) recovers the same components, except that the rebuild may have
prefixed a `/` to the path. -/
theorem rebuild_reparse_tail {s n p2 q2 tl : List Char}
    (hs : s = [] ∨ schemeOk s = true)
    (hsfix : pyLower s = s)
    (hn : ∀ c ∈ n, notDelim c = true)
    (hnb : ¬ (('[' ∈ n ∧ ']' ∉ n) ∨ (']' ∈ n ∧ '[' ∉ n)))
    (hnu : ∀ c ∈ n, isUnsafeByte c = false)
    (hpq : '?' ∉ p2) (hph : '#' ∉ p2)
    (hpu : ∀ c ∈ p2, isUnsafeByte c = false)
    (hpfix : rstripSlashes p2 = p2)
    (hstart : n ≠ [] → p2 = [] ∨ p2.take 1 = ['/'])
    (hp2 : n = [] → p2.take 2 ≠ ['/', '/'])
    (hreject : n = [] → s = [] → ∀ pre post, splitFirst ':' p2 = some (pre, post) →
      schemeOk pre = false)
    (hheadc0 : n = [] → s = [] → ∀ c t, p2 = c :: t → isC0Space c = false)
    (hqc : ∀ c ∈ q2, qencChar c)
    (htl : (tl = [] ∧ q2 = []) ∨ tl = '?' :: q2) :
    ∃ p3, urlsplitPy (urlunsplitPy s n p2 [] [] ++ tl) = .ok ⟨s, n, p3, q2, []⟩ ∧
      rstripSlashes p3 = p3 ∧ (∀ c ∈ p3, c = '/' ∨ c ∈ p2) ∧
      ∀ q3, urlunsplitPy s n p3 q3 [] = urlunsplitPy s n p2 q3 [] := by
  have htlhead : ∀ c t2, tl = c :: t2 → c = '?' := by
    intro c t2 he
    rcases htl with ⟨h0, _⟩ | h1
    · rw [h0] at he
      cases he
    · rw [h1] at he
      injection he with he _
      exact he.symm
  have htlh : '#' ∉ tl := by
    rcases htl with ⟨h0, _⟩ | h1
    · rw [h0]
      simp
    · rw [h1]
      intro hm
      rcases List.mem_cons.1 hm with he | hm
      · exact absurd he (by decide)
      · exact (qencChar_facts (hqc '#' hm)).2.2.2.2.2.1 rfl
  have htlcolon : ':' ∉ tl := by
    rcases htl with ⟨h0, _⟩ | h1
    · rw [h0]
      simp
    · rw [h1]
      intro hm
      rcases List.mem_cons.1 hm with he | hm
      · exact absurd he (by decide)
      · exact (qencChar_facts (hqc ':' hm)).2.2.1 rfl
  have htlunsafe : ∀ c ∈ tl, isUnsafeByte c = false := by
    intro c hc
    rcases htl with ⟨h0, _⟩ | h1
    · rw [h0] at hc
      simp at hc
    · rw [h1] at hc
      rcases List.mem_cons.1 hc with rfl | hc
      · decide
      · exact (qencChar_facts (hqc c hc)).2.1
  have hWunsafe : ∀ c ∈ urlunsplitPy s n p2 [] [] ++ tl, isUnsafeByte c = false := by
    intro c hc
    rcases List.mem_append.1 hc with hc | hc
    · rcases mem_urlunsplit hc with h | h | h | h | h | h | h
      · rcases hs with hs0 | hsok
        · rw [hs0] at h
          simp at h
        · exact (isSchemeChar_facts (schemeOk_all hsok c h)).2.2.2.2.2
      · exact hnu c h
      · exact hpu c h
      · simp at h
      · rw [h]
        decide
      · rw [h]
        decide
      · rw [h]
        decide
    · exact htlunsafe c hc
  have hp2single : ∀ c, p2 = [c] → ¬ c = '/' := by
    intro c he hc
    subst hc
    rw [he] at hpfix
    exact absurd hpfix (by decide)
  rcases hs with hs0 | hsok
  · subst hs0
    by_cases hn0 : n = []
    · subst hn0
      have hWs : urlunsplitPy [] [] p2 [] [] ++ tl = p2 ++ tl := by
        rw [unsplit_nofq, if_neg (by simp), if_neg (by simp)]
      have hscheme : schemeSplit (p2 ++ tl) = ([], p2 ++ tl) := by
        cases hcol : splitFirst ':' p2 with
        | none => exact schemeSplit_of_none (splitFirst_append_none hcol htlcolon)
        | some pr =>
          obtain ⟨pre, post⟩ := pr
          exact schemeSplit_of_some_bad (splitFirst_append_some hcol tl)
            (hreject rfl rfl pre post hcol)
      have hclean : cleanUrl (p2 ++ tl) = p2 ++ tl := by
        apply cleanUrl_of_head_good2
        · intro c t he
          cases hp2c : p2 with
          | nil =>
            rw [hp2c, List.nil_append] at he
            have hc := htlhead c t he
            subst hc
            decide
          | cons a p2' =>
            rw [hp2c, List.cons_append] at he
            injection he with he1 _
            rw [← he1]
            exact hheadc0 rfl rfl a p2' hp2c
        · intro c hc
          exact hWunsafe c (by rw [hWs]; exact hc)
      refine ⟨p2, ?_, hpfix, fun c hc => Or.inr hc, fun q3 => rfl⟩
      rw [hWs]
      exact parse_noNetloc hclean hscheme
        (take2_ne_slashslash (hp2 rfl) hp2single htlhead) hpq hph htlh htl
    · have hpp : p2 = [] ∨ p2.take 1 = ['/'] := hstart hn0
      have hppif : (if p2 ≠ [] ∧ p2.take 1 ≠ ['/'] then '/' :: p2 else p2) = p2 := by
        rcases hpp with h0 | h1
        · rw [if_neg (by simp [h0])]
        · rw [if_neg (by simp [h1])]
      have hWs : urlunsplitPy [] n p2 [] [] ++ tl = '/' :: '/' :: (n ++ (p2 ++ tl)) := by
        rw [unsplit_nofq, if_neg (by simp), if_pos (Or.inl hn0), hppif]
        simp
      have hstop : ∀ c t2, p2 ++ tl = c :: t2 → notDelim c = false := by
        intro c t2 he
        rcases hpp with h0 | h1
        · rw [h0, List.nil_append] at he
          have hc := htlhead c t2 he
          subst hc
          decide
        · cases hp2c : p2 with
          | nil =>
            rw [hp2c] at h1
            simp at h1
          | cons a p2' =>
            rw [hp2c] at h1
            have h2 : (a :: p2').take 1 = [a] := rfl
            rw [h2] at h1
            injection h1 with h1 _
            rw [hp2c, List.cons_append] at he
            injection he with he1 _
            rw [← he1, h1]
            decide
      have hclean : cleanUrl ('/' :: '/' :: (n ++ (p2 ++ tl)))
          = '/' :: '/' :: (n ++ (p2 ++ tl)) := by
        apply cleanUrl_of_head_good2
        · intro c t he
          injection he with he1 _
          rw [← he1]
          decide
        · intro c hc
          exact hWunsafe c (by rw [hWs]; exact hc)
      have hscheme : schemeSplit ('/' :: '/' :: (n ++ (p2 ++ tl)))
          = ([], '/' :: '/' :: (n ++ (p2 ++ tl))) :=
        schemeSplit_of_head_bad (by decide)
      refine ⟨p2, ?_, hpfix, fun c hc => Or.inr hc, fun q3 => rfl⟩
      rw [hWs]
      exact parse_with_netloc hclean hscheme hn hstop hnb hpq hph htlh htl
  · obtain ⟨c0, s', hse, hc0alpha⟩ := schemeOk_head_alpha hsok
    have hsne : s ≠ [] := by
      rw [hse]
      simp
    have hscolon : ':' ∉ s := schemeOk_not_colon hsok
    have hheadW : ∀ (R : List Char) c t, s ++ ':' :: R = c :: t → isC0Space c = false := by
      intro R c t he
      rw [hse, List.cons_append] at he
      injection he with he1 _
      rw [← he1]
      exact alpha_not_c0 hc0alpha
    by_cases hn0 : n = []
    · subst hn0
      by_cases hUN : s ∈ usesNetloc
      · cases p2 with
        | nil =>
          have hWs : urlunsplitPy s [] [] [] [] ++ tl
              = s ++ ':' :: ('/' :: '/' :: ([] ++ ([] ++ tl))) := by
            rw [unsplit_nofq, if_pos hsne,
              if_pos (Or.inr ⟨hsne, hUN, by simp⟩), if_neg (by simp)]
            simp
          have hscheme : schemeSplit (s ++ ':' :: ('/' :: '/' :: ([] ++ ([] ++ tl))))
              = (s, '/' :: '/' :: ([] ++ ([] ++ tl))) := by
            rw [schemeSplit_of_some_ok
              (splitFirst_append_not_mem hscolon ('/' :: '/' :: ([] ++ ([] ++ tl)))) hsok,
              hsfix]
          have hclean : cleanUrl (s ++ ':' :: ('/' :: '/' :: ([] ++ ([] ++ tl))))
              = s ++ ':' :: ('/' :: '/' :: ([] ++ ([] ++ tl))) := by
            apply cleanUrl_of_head_good2
            · exact hheadW ('/' :: '/' :: ([] ++ ([] ++ tl)))
            · intro c hc
              exact hWunsafe c (by rw [hWs]; exact hc)
          refine ⟨[], ?_, rfl, fun c hc => by simp at hc, fun q3 => rfl⟩
          rw [hWs]
          exact parse_with_netloc hclean hscheme (by simp)
            (fun c t2 he => by
              have he2 : tl = c :: t2 := he
              have hc := htlhead c t2 he2
              subst hc
              decide)
            (by simp) (by simp) (by simp) htlh htl
        | cons a p2' =>
          by_cases ha : a = '/'
          · subst ha
            have hWs : urlunsplitPy s [] ('/' :: p2') [] [] ++ tl
                = s ++ ':' :: ('/' :: '/' :: ([] ++ (('/' :: p2') ++ tl))) := by
              rw [unsplit_nofq, if_pos hsne,
                if_pos (Or.inr ⟨hsne, hUN, hp2 rfl⟩), if_neg (by simp)]
              simp
            have hscheme : schemeSplit
                (s ++ ':' :: ('/' :: '/' :: ([] ++ (('/' :: p2') ++ tl))))
                = (s, '/' :: '/' :: ([] ++ (('/' :: p2') ++ tl))) := by
              rw [schemeSplit_of_some_ok
                (splitFirst_append_not_mem hscolon
                  ('/' :: '/' :: ([] ++ (('/' :: p2') ++ tl)))) hsok, hsfix]
            have hclean : cleanUrl
                (s ++ ':' :: ('/' :: '/' :: ([] ++ (('/' :: p2') ++ tl))))
                = s ++ ':' :: ('/' :: '/' :: ([] ++ (('/' :: p2') ++ tl))) := by
              apply cleanUrl_of_head_good2
              · exact hheadW ('/' :: '/' :: ([] ++ (('/' :: p2') ++ tl)))
              · intro c hc
                exact hWunsafe c (by rw [hWs]; exact hc)
            refine ⟨'/' :: p2', ?_, hpfix, fun c hc => Or.inr hc, fun q3 => rfl⟩
            rw [hWs]
            exact parse_with_netloc hclean hscheme (by simp)
              (fun c t2 he => by
                have he2 : '/' :: (p2' ++ tl) = c :: t2 := he
                injection he2 with he1 _
                rw [← he1]
                decide)
              (by simp) hpq hph htlh htl
          · have hc1 : ('/' :: a :: p2' : List Char).take 2 ≠ ['/', '/'] := by
              intro heq
              have h2 : ('/' :: a :: p2' : List Char).take 2 = ['/', a] := rfl
              rw [h2] at heq
              injection heq with _ heq2
              injection heq2 with heq2 _
              exact ha heq2
            have hWs : urlunsplitPy s [] (a :: p2') [] [] ++ tl
                = s ++ ':' :: ('/' :: '/' :: ([] ++ (('/' :: a :: p2') ++ tl))) := by
              rw [unsplit_nofq, if_pos hsne,
                if_pos (Or.inr ⟨hsne, hUN, hp2 rfl⟩),
                if_pos ⟨by simp, by simp [ha]⟩]
              simp
            have hscheme : schemeSplit
                (s ++ ':' :: ('/' :: '/' :: ([] ++ (('/' :: a :: p2') ++ tl))))
                = (s, '/' :: '/' :: ([] ++ (('/' :: a :: p2') ++ tl))) := by
              rw [schemeSplit_of_some_ok
                (splitFirst_append_not_mem hscolon
                  ('/' :: '/' :: ([] ++ (('/' :: a :: p2') ++ tl)))) hsok, hsfix]
            have hclean : cleanUrl
                (s ++ ':' :: ('/' :: '/' :: ([] ++ (('/' :: a :: p2') ++ tl))))
                = s ++ ':' :: ('/' :: '/' :: ([] ++ (('/' :: a :: p2') ++ tl))) := by
              apply cleanUrl_of_head_good2
              · exact hheadW ('/' :: '/' :: ([] ++ (('/' :: a :: p2') ++ tl)))
              · intro c hc
                exact hWunsafe c (by rw [hWs]; exact hc)
            refine ⟨'/' :: a :: p2', ?_, ?_, ?_, ?_⟩
            · rw [hWs]
              exact parse_with_netloc hclean hscheme (by simp)
                (fun c t2 he => by
                  have he2 : '/' :: (a :: p2' ++ tl) = c :: t2 := he
                  injection he2 with he1 _
                  rw [← he1]
                  decide)
                (by simp)
                (by
                  intro hm
                  rcases List.mem_cons.1 hm with he | hm
                  · exact absurd he (by decide)
                  · exact hpq hm)
                (by
                  intro hm
                  rcases List.mem_cons.1 hm with he | hm
                  · exact absurd he (by decide)
                  · exact hph hm)
                htlh htl
            · exact rstripSlashes_cons_slash hpfix (by simp)
            · intro c hc
              rcases List.mem_cons.1 hc with rfl | hc
              · exact Or.inl rfl
              · exact Or.inr hc
            · intro q3
              rw [unsplit_query s [] ('/' :: a :: p2') q3,
                unsplit_query s [] (a :: p2') q3]
              congr 1
              rw [unsplit_nofq, unsplit_nofq, if_pos hsne, if_pos hsne]
              congr 1
              rw [if_pos (Or.inr ⟨hsne, hUN, hc1⟩),
                if_pos (Or.inr ⟨hsne, hUN, hp2 rfl⟩)]
              rw [if_neg (by simp), if_pos ⟨by simp, by simp [ha]⟩]
      · have hWs : urlunsplitPy s [] p2 [] [] ++ tl = s ++ ':' :: (p2 ++ tl) := by
          rw [unsplit_nofq, if_pos hsne, if_neg (by simp [hUN])]
          simp
        have hscheme : schemeSplit (s ++ ':' :: (p2 ++ tl)) = (s, p2 ++ tl) := by
          rw [schemeSplit_of_some_ok
            (splitFirst_append_not_mem hscolon (p2 ++ tl)) hsok, hsfix]
        have hclean : cleanUrl (s ++ ':' :: (p2 ++ tl)) = s ++ ':' :: (p2 ++ tl) := by
          apply cleanUrl_of_head_good2
          · exact hheadW (p2 ++ tl)
          · intro c hc
            exact hWunsafe c (by rw [hWs]; exact hc)
        refine ⟨p2, ?_, hpfix, fun c hc => Or.inr hc, fun q3 => rfl⟩
        rw [hWs]
        exact parse_noNetloc hclean hscheme
          (take2_ne_slashslash (hp2 rfl) hp2single htlhead) hpq hph htlh htl
    · have hpp : p2 = [] ∨ p2.take 1 = ['/'] := hstart hn0
      have hppif : (if p2 ≠ [] ∧ p2.take 1 ≠ ['/'] then '/' :: p2 else p2) = p2 := by
        rcases hpp with h0 | h1
        · rw [if_neg (by simp [h0])]
        · rw [if_neg (by simp [h1])]
      have hWs : urlunsplitPy s n p2 [] [] ++ tl
          = s ++ ':' :: ('/' :: '/' :: (n ++ (p2 ++ tl))) := by
        rw [unsplit_nofq, if_pos hsne, if_pos (Or.inl hn0), hppif]
        simp
      have hstop : ∀ c t2, p2 ++ tl = c :: t2 → notDelim c = false := by
        intro c t2 he
        rcases hpp with h0 | h1
        · rw [h0, List.nil_append] at he
          have hc := htlhead c t2 he
          subst hc
          decide
        · cases hp2c : p2 with
          | nil =>
            rw [hp2c] at h1
            simp at h1
          | cons a p2' =>
            rw [hp2c] at h1
            have h2 : (a :: p2').take 1 = [a] := rfl
            rw [h2] at h1
            injection h1 with h1 _
            rw [hp2c, List.cons_append] at he
            injection he with he1 _
            rw [← he1, h1]
            decide
      have hscheme : schemeSplit (s ++ ':' :: ('/' :: '/' :: (n ++ (p2 ++ tl))))
          = (s, '/' :: '/' :: (n ++ (p2 ++ tl))) := by
        rw [schemeSplit_of_some_ok
          (splitFirst_append_not_mem hscolon ('/' :: '/' :: (n ++ (p2 ++ tl)))) hsok,
          hsfix]
      have hclean : cleanUrl (s ++ ':' :: ('/' :: '/' :: (n ++ (p2 ++ tl))))
          = s ++ ':' :: ('/' :: '/' :: (n ++ (p2 ++ tl))) := by
        apply cleanUrl_of_head_good2
        · exact hheadW ('/' :: '/' :: (n ++ (p2 ++ tl)))
        · intro c hc
          exact hWunsafe c (by rw [hWs]; exact hc)
      refine ⟨p2, ?_, hpfix, fun c hc => Or.inr hc, fun q3 => rfl⟩
      rw [hWs]
      exact parse_with_netloc hclean hscheme hn hstop hnb hpq hph htlh htl

/-- `rebuild_reparse_tail` with the query tail folded back into `urlunsplit`. -/
theorem rebuild_reparse {s n p2 q2 : List Char}
    (hs : s = [] ∨ schemeOk s = true)
    (hsfix : pyLower s = s)
    (hn : ∀ c ∈ n, notDelim c = true)
    (hnb : ¬ (('[' ∈ n ∧ ']' ∉ n) ∨ (']' ∈ n ∧ '[' ∉ n)))
    (hnu : ∀ c ∈ n, isUnsafeByte c = false)
    (hpq : '?' ∉ p2) (hph : '#' ∉ p2)
    (hpu : ∀ c ∈ p2, isUnsafeByte c = false)
    (hpfix : rstripSlashes p2 = p2)
    (hstart : n ≠ [] → p2 = [] ∨ p2.take 1 = ['/'])
    (hp2 : n = [] → p2.take 2 ≠ ['/', '/'])
    (hreject : n = [] → s = [] → ∀ pre post, splitFirst ':' p2 = some (pre, post) →
      schemeOk pre = false)
    (hheadc0 : n = [] → s = [] → ∀ c t, p2 = c :: t → isC0Space c = false)
    (hq : q2 = [] ∨ (q2 ≠ [] ∧ ∀ c ∈ q2, qencChar c)) :
    ∃ p3, urlsplitPy (urlunsplitPy s n p2 q2 []) = .ok ⟨s, n, p3, q2, []⟩ ∧
      rstripSlashes p3 = p3 ∧ (∀ c ∈ p3, c = '/' ∨ c ∈ p2) ∧
      ∀ q3, urlunsplitPy s n p3 q3 [] = urlunsplitPy s n p2 q3 [] := by
  rcases hq with hq0 | ⟨hq2ne, hqc⟩
  · subst hq0
    obtain ⟨p3, h1, h2, h3, h4⟩ := rebuild_reparse_tail hs hsfix hn hnb hnu hpq hph hpu
      hpfix hstart hp2 hreject hheadc0 (by simp) (Or.inl ⟨rfl, rfl⟩)
    rw [List.append_nil] at h1
    exact ⟨p3, h1, h2, h3, h4⟩
  · obtain ⟨p3, h1, h2, h3, h4⟩ := rebuild_reparse_tail hs hsfix hn hnb hnu hpq hph hpu
      hpfix hstart hp2 hreject hheadc0 hqc (Or.inr rfl)
    refine ⟨p3, ?_, h2, h3, h4⟩
    rw [unsplit_query s n p2 q2, if_neg hq2ne]
    exact h1

/-! ### Further groundwork: idempotence of lowering, nonemptiness of
unquoting, and subset facts for `_splitparams` -/

theorem schemeSplit_fst_fixed (x : List Char) :
    pyLower (schemeSplit x).1 = (schemeSplit x).1 := by
  cases hsp : splitFirst ':' x with
  | none =>
    rw [schemeSplit_of_none hsp]
    rfl
  | some pr =>
    obtain ⟨pre, post⟩ := pr
    by_cases hok : schemeOk pre = true
    · rw [schemeSplit_of_some_ok hsp hok]
      exact pyLower_idem pre
    · rw [schemeSplit_of_some_bad hsp (by simpa using hok)]
      rfl

theorem urlsplit_scheme_fixed {l : List Char} {sp : USplit}
    (h : urlsplitPy l = .ok sp) : pyLower sp.scheme = sp.scheme := by
  obtain ⟨r1, r2, qtl, ftl, hsr, _, _, _, _, _, _, _⟩ := urlsplit_ok_decomp h
  have hf := schemeSplit_fst_fixed (cleanUrl l)
  rw [hsr] at hf
  exact hf

theorem utf8Decode_ne_nil : ∀ {l : List Nat}, l ≠ [] → utf8Decode l ≠ []
  | [], h => absurd rfl h
  | [_], _ => by
    unfold utf8Decode
    repeat' split
    all_goals simp
  | [_, _], _ => by
    unfold utf8Decode
    repeat' split
    all_goals simp
  | [_, _, _], _ => by
    unfold utf8Decode
    repeat' split
    all_goals simp
  | _ :: _ :: _ :: _ :: _, _ => by
    unfold utf8Decode
    repeat' split
    all_goals simp

theorem tokenize_ne_nil : ∀ {l : List Char}, l ≠ [] → tokenize l ≠ []
  | [], h => absurd rfl h
  | _ :: _, _ => by
    rw [tokenize.eq_def]
    repeat' split
    all_goals simp_all

theorem groupGo_ne_nil : ∀ (l : List (Sum Nat Char)) (acc : List Nat),
    (l ≠ [] ∨ acc ≠ []) → groupGo l acc ≠ []
  | [], acc, h => by
    unfold groupGo
    rcases h with h | h
    · exact absurd rfl h
    · exact utf8Decode_ne_nil (by simpa using h)
  | Sum.inl b :: t, acc, _ => by
    unfold groupGo
    exact groupGo_ne_nil t (b :: acc) (Or.inr (by simp))
  | Sum.inr c :: t, acc, _ => by
    unfold groupGo
    intro he
    have h2 := (List.append_eq_nil.1 he).2
    simp at h2

theorem unquotePlus_ne_nil {l : List Char} (h : l ≠ []) : unquotePlus l ≠ [] := by
  unfold unquotePlus
  apply groupGo_ne_nil
  left
  apply tokenize_ne_nil
  simpa using h

theorem parseQsl_val_ne {qs : List Char} : ∀ kv ∈ parseQsl qs, kv.2 ≠ [] := by
  intro kv hkv
  unfold parseQsl at hkv
  by_cases hq : qs = []
  · rw [if_pos hq] at hkv
    simp at hkv
  · rw [if_neg hq] at hkv
    obtain ⟨chunk, _, hfm⟩ := List.mem_filterMap.1 hkv
    by_cases hce : chunk = []
    · rw [if_pos hce] at hfm
      cases hfm
    · rw [if_neg hce] at hfm
      cases hsp : splitFirst '=' chunk with
      | none =>
        rw [hsp] at hfm
        cases hfm
      | some nv =>
        obtain ⟨n, v⟩ := nv
        rw [hsp] at hfm
        have hfm2 : (if v = [] then none
            else some (unquotePlus n, unquotePlus v)) = some kv := hfm
        by_cases hv : v = []
        · rw [if_pos hv] at hfm2
          cases hfm2
        · rw [if_neg hv] at hfm2
          injection hfm2 with hfm2
          rw [← hfm2]
          exact unquotePlus_ne_nil hv

theorem mem_rstrip {c : Char} {p : List Char} (h : c ∈ rstripSlashes p) : c ∈ p := by
  obtain ⟨k, hk⟩ := rstripSlashes_decomp p
  rw [hk]
  exact List.mem_append.2 (Or.inl h)

theorem rstrip_cons {p : List Char} {c : Char} {t : List Char}
    (h : rstripSlashes p = c :: t) : ∃ t2, p = c :: t2 := by
  obtain ⟨k, hk⟩ := rstripSlashes_decomp p
  rw [h] at hk
  exact ⟨t ++ List.replicate k '/', by rw [hk]; simp⟩

theorem rstrip_take2_ne {p : List Char} (h : p.take 2 ≠ ['/', '/']) :
    (rstripSlashes p).take 2 ≠ ['/', '/'] := by
  intro h2
  apply h
  obtain ⟨k, hk⟩ := rstripSlashes_decomp p
  cases hr : rstripSlashes p with
  | nil =>
    rw [hr] at h2
    simp at h2
  | cons a t =>
    cases t with
    | nil =>
      rw [hr] at h2
      simp at h2
    | cons b t2 =>
      rw [hr] at h2
      have he : (a :: b :: t2).take 2 = [a, b] := rfl
      rw [he] at h2
      injection h2 with h2a h2b
      injection h2b with h2b _
      rw [hk, hr, h2a, h2b]
      rfl

theorem schemeOk_head_bad {c : Char} {t : List Char} (h : isAsciiAlpha c = false) :
    schemeOk (c :: t) = false := by
  show (isAsciiAlpha c && (c :: t).all isSchemeChar) = false
  rw [h]
  rfl

theorem schemeSplit_nil_reject {x pre post : List Char}
    (h1 : (schemeSplit x).1 = []) (h2 : splitFirst ':' x = some (pre, post)) :
    schemeOk pre = false := by
  cases pre with
  | nil => rfl
  | cons p0 rest =>
    by_cases hok : schemeOk (p0 :: rest) = true
    · rw [schemeSplit_of_some_ok h2 hok] at h1
      exact absurd (pyLower_nil_iff.1 h1) (by simp)
    · simpa using hok

theorem splitLast_eq_some {sep : Char} {l a b : List Char}
    (h : splitLast sep l = some (a, b)) : l = a ++ sep :: b ∧ sep ∉ b := by
  unfold splitLast at h
  cases hsp : splitFirst sep l.reverse with
  | none =>
    rw [hsp] at h
    cases h
  | some pr =>
    obtain ⟨rb, ra⟩ := pr
    rw [hsp] at h
    injection h with h
    obtain ⟨hrev, hnm⟩ := splitFirst_eq_some hsp
    cases h
    constructor
    · have h3 := congrArg List.reverse hrev
      rw [List.reverse_reverse] at h3
      rw [h3]
      simp
    · intro hm
      exact hnm (List.mem_reverse.1 hm)

theorem splitParams_sub (p : List Char) :
    (∀ c ∈ (splitParams p).1, c ∈ p) ∧ ∀ c ∈ (splitParams p).2, c ∈ p := by
  unfold splitParams
  by_cases hsl : '/' ∈ p
  · rw [if_pos hsl]
    cases hlast : splitLast '/' p with
    | none => exact ⟨fun c hc => hc, by simp⟩
    | some ab =>
      obtain ⟨a, b⟩ := ab
      obtain ⟨hpe, _⟩ := splitLast_eq_some hlast
      dsimp only
      cases hsp : splitFirst ';' b with
      | none => exact ⟨fun c hc => hc, by simp⟩
      | some xy =>
        obtain ⟨x, y⟩ := xy
        obtain ⟨hbe, _⟩ := splitFirst_eq_some hsp
        dsimp only
        constructor
        · intro c hc
          rw [hpe]
          rcases List.mem_append.1 hc with hc | hc
          · exact List.mem_append.2 (Or.inl hc)
          · rcases List.mem_cons.1 hc with rfl | hc
            · exact List.mem_append.2 (Or.inr (List.mem_cons_self _ _))
            · refine List.mem_append.2 (Or.inr (List.mem_cons_of_mem _ ?_))
              rw [hbe]
              exact List.mem_append.2 (Or.inl hc)
        · intro c hc
          rw [hpe]
          refine List.mem_append.2 (Or.inr (List.mem_cons_of_mem _ ?_))
          rw [hbe]
          exact List.mem_append.2 (Or.inr (List.mem_cons_of_mem _ hc))
  · rw [if_neg hsl]
    cases hsp : splitFirst ';' p with
    | none => exact ⟨fun c hc => hc, by simp⟩
    | some xy =>
      obtain ⟨x, y⟩ := xy
      obtain ⟨hbe, _⟩ := splitFirst_eq_some hsp
      dsimp only
      constructor
      · intro c hc
        rw [hbe]
        exact List.mem_append.2 (Or.inl hc)
      · intro c hc
        rw [hbe]
        exact List.mem_append.2 (Or.inr (List.mem_cons_of_mem _ hc))

theorem mem_unsplit_noq {s n u : List Char} {c : Char}
    (h : c ∈ urlunsplitPy s n u [] []) :
    c ∈ s ∨ c ∈ n ∨ c ∈ u ∨ c = ':' ∨ c = '/' := by
  rw [unsplit_nofq] at h
  revert h
  split
  · intro h
    rcases List.mem_append.1 h with h | h
    · exact Or.inl h
    · rcases List.mem_cons.1 h with rfl | h
      · exact Or.inr (Or.inr (Or.inr (Or.inl rfl)))
      · rcases mem_unsplit_url1 h with h | h | h
        · exact Or.inr (Or.inl h)
        · exact Or.inr (Or.inr (Or.inl h))
        · exact Or.inr (Or.inr (Or.inr (Or.inr h)))
  · intro h
    rcases mem_unsplit_url1 h with h | h | h
    · exact Or.inr (Or.inl h)
    · exact Or.inr (Or.inr (Or.inl h))
    · exact Or.inr (Or.inr (Or.inr (Or.inr h)))

/-! ### The rebuilt URL is clean, and its query component re-parses -/

theorem notDelim_true {c : Char} (h : notDelim c = true) :
    ¬ c = '/' ∧ ¬ c = '?' ∧ ¬ c = '#' := by
  unfold notDelim at h
  rw [decide_eq_true_eq] at h
  exact ⟨fun hc => h (Or.inl hc), fun hc => h (Or.inr (Or.inl hc)),
    fun hc => h (Or.inr (Or.inr hc))⟩

theorem unsplit_scheme_head {s n u q : List Char} (hne : s ≠ []) :
    ∃ r, urlunsplitPy s n u q [] = s ++ ':' :: r := by
  rw [unsplit_query, unsplit_nofq, if_pos hne]
  by_cases hq : q = []
  · rw [if_pos hq, List.append_nil]
    exact ⟨_, rfl⟩
  · rw [if_neg hq, List.append_assoc]
    exact ⟨_, rfl⟩

theorem norm_clean {s n url q2 : List Char}
    (hs : s = [] ∨ schemeOk s = true)
    (hnu : ∀ c ∈ n, isUnsafeByte c = false)
    (huu : ∀ c ∈ url, isUnsafeByte c = false)
    (hqc : ∀ c ∈ q2, qencChar c)
    (hhead : s = [] → n = [] → ∀ c t, url = c :: t → isC0Space c = false) :
    cleanUrl (urlunsplitPy s n url q2 []) = urlunsplitPy s n url q2 [] := by
  apply cleanUrl_of_head_good2
  · intro c t he
    rcases hs with hs0 | hsok
    · subst hs0
      by_cases hn0 : n = []
      · subst hn0
        have hW : urlunsplitPy [] [] url q2 []
            = url ++ (if q2 = [] then [] else '?' :: q2) := by
          rw [unsplit_query, unsplit_nofq, if_neg (by simp), if_neg (by simp)]
        rw [hW] at he
        cases hu : url with
        | nil =>
          rw [hu, List.nil_append] at he
          by_cases hq : q2 = []
          · rw [if_pos hq] at he
            cases he
          · rw [if_neg hq] at he
            injection he with he1 _
            rw [← he1]
            decide
        | cons c0 t0 =>
          rw [hu, List.cons_append] at he
          injection he with he1 _
          rw [← he1]
          exact hhead rfl rfl c0 t0 hu
      · have hW : urlunsplitPy [] n url q2 []
            = '/' :: '/' :: (n ++ (if url ≠ [] ∧ url.take 1 ≠ ['/'] then '/' :: url else url))
              ++ (if q2 = [] then [] else '?' :: q2) := by
          rw [unsplit_query, unsplit_nofq, if_neg (by simp), if_pos (Or.inl hn0)]
        rw [hW] at he
        injection he with he1 _
        rw [← he1]
        decide
    · obtain ⟨c0, s', hse, halpha⟩ := schemeOk_head_alpha hsok
      obtain ⟨r, hr⟩ := unsplit_scheme_head (s := s) (n := n) (u := url) (q := q2)
        (by rw [hse]; simp)
      rw [hr, hse, List.cons_append] at he
      injection he with he1 _
      rw [← he1]
      exact alpha_not_c0 halpha
  · intro c hc
    rcases mem_urlunsplit hc with h | h | h | h | h | h | h
    · rcases hs with hs0 | hsok
      · rw [hs0] at h
        simp at h
      · exact (isSchemeChar_facts (schemeOk_all hsok c h)).2.2.2.2.2
    · exact hnu c h
    · exact huu c h
    · exact (qencChar_facts (hqc c h)).2.1
    · rw [h]
      decide
    · rw [h]
      decide
    · rw [h]
      decide

theorem schemeSplit_shape {x s r : List Char} (h : schemeSplit x = (s, r)) :
    (s = [] ∧ r = x) ∨ ∃ pre, x = pre ++ ':' :: r ∧ s = pyLower pre ∧ schemeOk pre = true := by
  cases hsp : splitFirst ':' x with
  | none =>
    rw [schemeSplit_of_none hsp] at h
    injection h with h1 h2
    exact Or.inl ⟨h1.symm, h2.symm⟩
  | some pr =>
    obtain ⟨pre, post⟩ := pr
    by_cases hok : schemeOk pre = true
    · rw [schemeSplit_of_some_ok hsp hok] at h
      injection h with h1 h2
      refine Or.inr ⟨pre, ?_, h1.symm, hok⟩
      obtain ⟨hx, _⟩ := splitFirst_eq_some hsp
      rw [hx, h2]
    · rw [schemeSplit_of_some_bad hsp (by simpa using hok)] at h
      injection h with h1 h2
      exact Or.inl ⟨h1.symm, h2.symm⟩

theorem reparse_query {W : List Char} {sp' : USplit} {A q2 : List Char}
    (h : urlsplitPy W = .ok sp')
    (hcl : cleanUrl W = W)
    (hh : '#' ∉ W)
    (hsplit : (W = A ++ '?' :: q2 ∧ '?' ∉ A) ∨ ('?' ∉ W ∧ q2 = [])) :
    sp'.query = q2 := by
  obtain ⟨r1, r2, qtl, ftl, hsr, hnet, hbr, hr2, hq, hf, hhash, hqm⟩ := urlsplit_ok_decomp h
  rw [hcl] at hsr
  obtain ⟨S, hWS, hSq⟩ : ∃ S, W = S ++ r1 ∧ '?' ∉ S := by
    rcases schemeSplit_shape hsr with ⟨_, hr⟩ | ⟨pre, hx, _, hok⟩
    · exact ⟨[], by rw [hr, List.nil_append], by simp⟩
    · refine ⟨pre ++ [':'], ?_, ?_⟩
      · rw [hx, List.append_assoc]
        rfl
      · intro hm
        rcases List.mem_append.1 hm with hm | hm
        · exact (isSchemeChar_facts (schemeOk_all hok '?' hm)).2.2.1 rfl
        · rcases List.mem_cons.1 hm with he | hm
          · exact absurd he (by decide)
          · simp at hm
  have hr1W : ∀ c ∈ r1, c ∈ W := by
    intro c hc
    rw [hWS]
    exact List.mem_append.2 (Or.inr hc)
  have hr2r1 : ∀ c ∈ r2, c ∈ r1 := by
    rcases hnet with ⟨_, _, hdrop⟩ | ⟨_, _, heq⟩
    · intro c hc
      rw [hdrop] at hc
      exact (List.drop_sublist 2 r1).subset (mem_of_mem_dropWhile hc)
    · intro c hc
      rw [heq] at hc
      exact hc
  have hftl : ftl = [] := by
    rcases hf with ⟨h0, _⟩ | h1
    · exact h0
    · exfalso
      apply hh
      apply hr1W
      apply hr2r1
      rw [hr2, h1]
      exact List.mem_append.2 (Or.inr (List.mem_cons_self _ _))
  have hr2pq : r2 = sp'.path ++ qtl := by
    rw [hr2, hftl, List.append_nil]
  rcases hq with ⟨hqtl0, hq0⟩ | hqtl1
  · rcases hsplit with ⟨hWe, _⟩ | ⟨_, hq20⟩
    · exfalso
      have hqW : '?' ∉ W := by
        intro hm
        rw [hWS] at hm
        rcases List.mem_append.1 hm with hm | hm
        · exact hSq hm
        · rcases hnet with ⟨htake, hn, hdrop⟩ | ⟨_, _, heq⟩
          · have hr1e : r1 = '/' :: '/' :: r1.drop 2 := by
              have h3 := List.take_append_drop 2 r1
              rw [htake] at h3
              exact h3.symm
            have hd2 : r1.drop 2
                = (r1.drop 2).takeWhile notDelim ++ (r1.drop 2).dropWhile notDelim :=
              (List.takeWhile_append_dropWhile _ _).symm
            rw [hr1e] at hm
            rcases List.mem_cons.1 hm with he | hm
            · exact absurd he (by decide)
            rcases List.mem_cons.1 hm with he | hm
            · exact absurd he (by decide)
            rw [hd2] at hm
            rcases List.mem_append.1 hm with hm | hm
            · exact (notDelim_true (List.mem_takeWhile_imp hm)).2.1 rfl
            · rw [← hdrop, hr2pq, hqtl0, List.append_nil] at hm
              exact hqm hm
          · rw [← heq, hr2pq, hqtl0, List.append_nil] at hm
            exact hqm hm
      apply hqW
      rw [hWe]
      exact List.mem_append.2 (Or.inr (List.mem_cons_self _ _))
    · rw [hq0, hq20]
  · have hspl2 : splitFirst '?' r2 = some (sp'.path, sp'.query) := by
      rw [hr2pq, hqtl1]
      exact splitFirst_append_not_mem hqm _
    obtain ⟨P1, hP1⟩ : ∃ P1, splitFirst '?' r1 = some (P1, sp'.query) := by
      rcases hnet with ⟨htake, hn, hdrop⟩ | ⟨_, _, heq⟩
      · refine ⟨r1.take 2 ++ ((r1.drop 2).takeWhile notDelim ++ sp'.path), ?_⟩
        have hkey : splitFirst '?' ((r1.drop 2).takeWhile notDelim ++ r2)
            = some ((r1.drop 2).takeWhile notDelim ++ sp'.path, sp'.query) :=
          splitFirst_append_left
            (fun hm => (notDelim_true (List.mem_takeWhile_imp hm)).2.1 rfl) hspl2
        have hkey2 : splitFirst '?' (r1.take 2 ++ ((r1.drop 2).takeWhile notDelim ++ r2))
            = some (r1.take 2 ++ ((r1.drop 2).takeWhile notDelim ++ sp'.path), sp'.query) := by
          apply splitFirst_append_left ?ha hkey
          case ha =>
            intro hm
            rw [htake] at hm
            rcases List.mem_cons.1 hm with he | hm
            · exact absurd he (by decide)
            rcases List.mem_cons.1 hm with he | hm
            · exact absurd he (by decide)
            simp at hm
        have hr1e : r1.take 2 ++ ((r1.drop 2).takeWhile notDelim ++ r2) = r1 := by
          rw [hdrop]
          conv_rhs => rw [← List.take_append_drop 2 r1,
            ← List.takeWhile_append_dropWhile notDelim (r1.drop 2)]
        rw [hr1e] at hkey2
        exact hkey2
      · refine ⟨sp'.path, ?_⟩
        rw [heq] at hspl2
        exact hspl2
    have hWsp : splitFirst '?' W = some (A, q2) ∨ ('?' ∉ W ∧ q2 = []) := by
      rcases hsplit with ⟨hWe, hA⟩ | h2
      · left
        rw [hWe]
        exact splitFirst_append_not_mem hA _
      · exact Or.inr h2
    rcases hWsp with hWsp | ⟨hqW, _⟩
    · rw [hWS, splitFirst_append_left hSq hP1] at hWsp
      injection hWsp with hWsp
      injection hWsp with _ hq2e
    · exfalso
      apply hqW
      apply hr1W
      apply hr2r1
      rw [hr2pq, hqtl1]
      exact List.mem_append.2 (Or.inr (List.mem_cons_self _ _))

/-! ### `normalize_url` output shape and the query round trip -/

/-- The dict `normalize_url` builds from a query: parse it, drop tracking
keys (compared lowercased) and sort the rest by key. -/
def filteredQuery (q : List Char) : List (List Char × List (List Char)) :=
  sortPairs ((parseQs q).filter (fun kv => decide (pyLower kv.1 ∉ trackingParams)))

/-- The query string `normalize_url` rebuilds with (`urlencode` of the
filtered dict, empty when the dict is empty). -/
def newQueryOf (q : List Char) : List Char :=
  if filteredQuery q = [] then [] else urlencodePy (filteredQuery q)

/-- Side condition for idempotence of `normalize_url`: the lowercased
input parses, its path carries no `;` (so no params split) and no
netloc-less leading `//` (which `urlunsplit` would collapse), and its
query has no `%`-escapes (which re-encoding can rewrite). -/
def idemSafe (u : String) : Bool :=
  match urlsplitPy (pyLower u.data) with
  | .error _ => false
  | .ok sp =>
    decide (';' ∉ sp.path) && decide ('%' ∉ sp.query) &&
      ! (decide (sp.netloc = []) && decide (sp.path.take 2 = ['/', '/']))

/-- The query keys of a URL as `urlsplit` + `parse_qs` see them (empty on
a parse failure). -/
def queryKeysOf (v : String) : List (List Char) :=
  match urlsplitPy v.data with
  | .error _ => []
  | .ok sp => (parseQs sp.query).map Prod.fst

theorem normalize_shape {u : String} {pr : UParse} (hne : ¬ u.data = [])
    (hp : urlparsePy (pyLower u.data) = .ok pr) :
    normalizeUrl u = .ok ⟨urlunsplitPy pr.scheme pr.netloc
      (if pr.params ≠ [] then rstripSlashes pr.path ++ ';' :: pr.params
        else rstripSlashes pr.path)
      (newQueryOf pr.query) []⟩ := by
  unfold normalizeUrl
  rw [if_neg hne, hp]
  rfl

theorem urlparse_ok_facts {l : List Char} {pr : UParse} (h : urlparsePy l = .ok pr) :
    ∃ sp : USplit, urlsplitPy l = .ok sp ∧ pr.scheme = sp.scheme ∧ pr.netloc = sp.netloc ∧
      pr.query = sp.query ∧
      ((pr.path = sp.path ∧ pr.params = []) ∨
        (pr.path = (splitParams sp.path).1 ∧ pr.params = (splitParams sp.path).2)) := by
  unfold urlparsePy at h
  cases hsp : urlsplitPy l with
  | error e =>
    rw [hsp] at h
    dsimp only at h
    cases h
  | ok sp =>
    rw [hsp] at h
    dsimp only at h
    refine ⟨sp, rfl, ?_⟩
    split at h
    · injection h with h
      rw [← h]
      exact ⟨rfl, rfl, rfl, Or.inr ⟨rfl, rfl⟩⟩
    · injection h with h
      rw [← h]
      exact ⟨rfl, rfl, rfl, Or.inl ⟨rfl, rfl⟩⟩

theorem normalize_ok_cases {u : String} {v : String} (h : normalizeUrl u = .ok v) :
    (u.data = [] ∧ v = "") ∨
      ∃ pr : UParse, urlparsePy (pyLower u.data) = .ok pr ∧
        v.data = urlunsplitPy pr.scheme pr.netloc
          (if pr.params ≠ [] then rstripSlashes pr.path ++ ';' :: pr.params
            else rstripSlashes pr.path) (newQueryOf pr.query) [] := by
  by_cases hne : u.data = []
  · left
    refine ⟨hne, ?_⟩
    unfold normalizeUrl at h
    rw [if_pos hne] at h
    injection h with h
    exact h.symm
  · right
    cases hp : urlparsePy (pyLower u.data) with
    | error e =>
      unfold normalizeUrl at h
      rw [if_neg hne, hp] at h
      dsimp only at h
      cases h
    | ok pr =>
      rw [normalize_shape hne hp] at h
      injection h with h
      exact ⟨pr, rfl, by rw [← h]⟩

theorem filteredQuery_nodup (q : List Char) :
    ((filteredQuery q).map Prod.fst).Nodup :=
  sortPairs_keys_nodup (filter_keys_nodup (groupPairs_keys_nodup _))

theorem filteredQuery_mem_facts {q : List Char} {kv : List Char × List (List Char)}
    (h : kv ∈ filteredQuery q) :
    kv.2 ≠ [] ∧ (∀ v ∈ kv.2, v ≠ []) ∧ pyLower kv.1 ∉ trackingParams := by
  have h2 : kv ∈ (parseQs q).filter (fun kv => decide (pyLower kv.1 ∉ trackingParams)) :=
    sortPairs_mem.1 h
  have h3 : kv ∈ parseQs q := List.mem_of_mem_filter h2
  have h4 := List.of_mem_filter h2
  have h5 := @groupPairs_props (fun _ => True) (fun w => w ≠ []) (parseQsl q)
    (fun kv2 hkv2 => ⟨trivial, parseQsl_val_ne kv2 hkv2⟩) kv h3
  exact ⟨h5.2.1, h5.2.2, by simpa using h4⟩

theorem filteredQuery_noUpper {q : List Char} (hfix : ∀ c ∈ q, lowerChar c = c)
    (hpct : '%' ∉ q) {kv : List Char × List (List Char)} (h : kv ∈ filteredQuery q) :
    noUpper kv.1 ∧ ∀ v ∈ kv.2, noUpper v := by
  have h3 : kv ∈ parseQs q := List.mem_of_mem_filter (sortPairs_mem.1 h)
  have h5 := @groupPairs_props noUpper (fun w => noUpper w) (parseQsl q)
    (fun kv2 hkv2 => ⟨(parseQsl_entry_facts hfix hpct kv2 hkv2).1,
      (parseQsl_entry_facts hfix hpct kv2 hkv2).2.1⟩) kv h3
  exact ⟨h5.1, h5.2.2⟩

theorem filteredQuery_sorted (q : List Char) : List.Sorted keyLe (filteredQuery q) :=
  sortPairs_sorted _

theorem parseQs_newQuery (q : List Char) : parseQs (newQueryOf q) = filteredQuery q := by
  unfold newQueryOf
  by_cases h0 : filteredQuery q = []
  · rw [if_pos h0, h0]
    rfl
  · rw [if_neg h0]
    exact parseQs_urlencode h0 (filteredQuery_nodup q)
      (fun kv hkv => (filteredQuery_mem_facts hkv).1)
      (fun kv hkv => (filteredQuery_mem_facts hkv).2.1)

theorem newQueryOf_chars {q : List Char} {c : Char} (h : c ∈ newQueryOf q) :
    qencChar c := by
  unfold newQueryOf at h
  by_cases h0 : filteredQuery q = []
  · rw [if_pos h0] at h
    simp at h
  · rw [if_neg h0] at h
    exact urlencodePy_chars h

theorem newQueryOf_lower_stable {q : List Char} (hfix : ∀ c ∈ q, lowerChar c = c)
    (hpct : '%' ∉ q) :
    newQueryOf (pyLower (newQueryOf q)) = newQueryOf q := by
  by_cases h0 : filteredQuery q = []
  · have hq0 : newQueryOf q = [] := by
      unfold newQueryOf
      rw [if_pos h0]
    rw [hq0]
    rfl
  · have hq1 : newQueryOf q = urlencodePy (filteredQuery q) := by
      unfold newQueryOf
      rw [if_neg h0]
    rw [hq1]
    have hrt : parseQs (pyLower (urlencodePy (filteredQuery q))) = filteredQuery q :=
      parseQs_lower_urlencode h0 (filteredQuery_nodup q)
        (fun kv hkv => (filteredQuery_mem_facts hkv).1)
        (fun kv hkv => (filteredQuery_mem_facts hkv).2.1)
        (fun kv hkv => ⟨(filteredQuery_noUpper hfix hpct hkv).1,
          (filteredQuery_noUpper hfix hpct hkv).2⟩)
    have hfilter : (filteredQuery q).filter
        (fun kv => decide (pyLower kv.1 ∉ trackingParams)) = filteredQuery q := by
      apply List.filter_eq_self.2
      intro kv hkv
      rw [decide_eq_true_eq]
      exact (filteredQuery_mem_facts hkv).2.2
    have hsorted : sortPairs (filteredQuery q) = filteredQuery q :=
      sortPairs_eq_of_sorted (filteredQuery_sorted q)
    have hfq : filteredQuery (pyLower (urlencodePy (filteredQuery q))) = filteredQuery q := by
      show sortPairs ((parseQs (pyLower (urlencodePy (filteredQuery q)))).filter
        (fun kv => decide (pyLower kv.1 ∉ trackingParams))) = filteredQuery q
      rw [hrt, hfilter, hsorted]
    show (if filteredQuery (pyLower (urlencodePy (filteredQuery q))) = [] then []
        else urlencodePy (filteredQuery (pyLower (urlencodePy (filteredQuery q)))))
      = urlencodePy (filteredQuery q)
    rw [hfq, if_neg h0]

theorem idemSafe_spec {u : String} (h : idemSafe u = true) :
    ∃ sp, urlsplitPy (pyLower u.data) = .ok sp ∧ ';' ∉ sp.path ∧ '%' ∉ sp.query ∧
      ¬ (sp.netloc = [] ∧ sp.path.take 2 = ['/', '/']) := by
  unfold idemSafe at h
  cases hsp : urlsplitPy (pyLower u.data) with
  | error e =>
    rw [hsp] at h
    dsimp only at h
    cases h
  | ok sp =>
    rw [hsp] at h
    dsimp only at h
    rw [Bool.and_eq_true, Bool.and_eq_true] at h
    obtain ⟨⟨h1, h2⟩, h3⟩ := h
    refine ⟨sp, rfl, by simpa using h1, by simpa using h2, ?_⟩
    rintro ⟨hn, hp⟩
    rw [Bool.not_eq_true', Bool.and_eq_false_iff] at h3
    rcases h3 with h3 | h3
    · rw [decide_eq_false_iff_not] at h3
      exact h3 hn
    · rw [decide_eq_false_iff_not] at h3
      exact h3 hp

/-! ### Head and character provenance of the rebuilt URL, and the
`normalize_url` round trip -/

theorem path_head_c0 {l : List Char} {sp : USplit} (hok : urlsplitPy l = .ok sp)
    (hs0 : sp.scheme = []) {c : Char} {t : List Char}
    (he : sp.path = c :: t) : isC0Space c = false := by
  by_cases hc : c = '/'
  · rw [hc]
    decide
  · obtain ⟨hval, hnd, hnsub, hbr, hhp, hqp, hhq, hpsub, hqsub, h8⟩ := urlsplit_ok_facts hok
    have h82 := (h8 (by rw [he]; simp)
      (by
        rw [he]
        intro he2
        have he3 : ([c] : List Char) = ['/'] := he2
        injection he3 with he4 _
        exact hc he4)).2 hs0
    obtain ⟨tl0, hcl⟩ := h82
    have hcl2 : cleanUrl l = c :: (t ++ tl0) := by
      rw [hcl, he]
      rfl
    exact cleanUrl_head_not_c0 hcl2

theorem splitParams_head {p : List Char} {c : Char} {t : List Char}
    (h : (splitParams p).1 = c :: t) : c = '/' ∨ ∃ t2, p = c :: t2 := by
  unfold splitParams at h
  by_cases hsl : '/' ∈ p
  · rw [if_pos hsl] at h
    cases hlast : splitLast '/' p with
    | none =>
      rw [hlast] at h
      dsimp only at h
      exact Or.inr ⟨t, h⟩
    | some ab =>
      obtain ⟨a0, b0⟩ := ab
      rw [hlast] at h
      obtain ⟨hpe, _⟩ := splitLast_eq_some hlast
      dsimp only at h
      cases hsp2 : splitFirst ';' b0 with
      | none =>
        rw [hsp2] at h
        dsimp only at h
        exact Or.inr ⟨t, h⟩
      | some xy =>
        obtain ⟨x, y⟩ := xy
        rw [hsp2] at h
        dsimp only at h
        cases ha0 : a0 with
        | nil =>
          rw [ha0, List.nil_append] at h
          injection h with h1 _
          exact Or.inl h1.symm
        | cons a1 t1 =>
          rw [ha0, List.cons_append] at h
          injection h with h1 _
          refine Or.inr ⟨t1 ++ '/' :: b0, ?_⟩
          rw [hpe, ha0, ← h1]
          rfl
  · rw [if_neg hsl] at h
    cases hsp2 : splitFirst ';' p with
    | none =>
      rw [hsp2] at h
      dsimp only at h
      exact Or.inr ⟨t, h⟩
    | some xy =>
      obtain ⟨x, y⟩ := xy
      rw [hsp2] at h
      dsimp only at h
      obtain ⟨hpe, _⟩ := splitFirst_eq_some hsp2
      refine Or.inr ⟨t ++ ';' :: y, ?_⟩
      rw [hpe, h]
      rfl

theorem url_head_c0 {l : List Char} {sp : USplit} {pth : List Char}
    (hok : urlsplitPy l = .ok sp) (hs0 : sp.scheme = [])
    (hpth : pth = sp.path ∨ pth = (splitParams sp.path).1)
    {c : Char} {t : List Char} (he : rstripSlashes pth = c :: t) :
    isC0Space c = false := by
  by_cases hc : c = '/'
  · rw [hc]
    decide
  · obtain ⟨t2, ht2⟩ := rstrip_cons he
    rcases hpth with hp1 | hp1
    · rw [hp1] at ht2
      exact path_head_c0 hok hs0 ht2
    · rw [hp1] at ht2
      rcases splitParams_head ht2 with h1 | ⟨t3, h3⟩
      · exact absurd h1 hc
      · exact path_head_c0 hok hs0 h3

theorem urlparse_path_subs {l : List Char} {pr : UParse} (h : urlparsePy l = .ok pr) :
    ∃ sp : USplit, urlsplitPy l = .ok sp ∧ pr.scheme = sp.scheme ∧ pr.netloc = sp.netloc ∧
      pr.query = sp.query ∧ (∀ c ∈ pr.path, c ∈ sp.path) ∧ (∀ c ∈ pr.params, c ∈ sp.path) ∧
      (pr.path = sp.path ∨ pr.path = (splitParams sp.path).1) := by
  obtain ⟨sp, hsp, h1, h2, h3, hpp⟩ := urlparse_ok_facts h
  refine ⟨sp, hsp, h1, h2, h3, ?_, ?_, ?_⟩
  · rcases hpp with ⟨hp1, _⟩ | ⟨hp1, _⟩
    · intro c hc
      rw [hp1] at hc
      exact hc
    · intro c hc
      rw [hp1] at hc
      exact (splitParams_sub sp.path).1 c hc
  · rcases hpp with ⟨_, hp2⟩ | ⟨_, hp2⟩
    · intro c hc
      rw [hp2] at hc
      simp at hc
    · intro c hc
      rw [hp2] at hc
      exact (splitParams_sub sp.path).2 c hc
  · rcases hpp with ⟨hp1, _⟩ | ⟨hp1, _⟩
    · exact Or.inl hp1
    · exact Or.inr hp1

theorem norm_no_hash {u v : String} (h : normalizeUrl u = .ok v) : '#' ∉ v.data := by
  rcases normalize_ok_cases h with ⟨_, hv⟩ | ⟨pr, hpr, hv⟩
  · rw [hv]
    decide
  · obtain ⟨sp, hsp, hsch, hnet, hq, hpathsub, hparamsub, _⟩ := urlparse_path_subs hpr
    obtain ⟨hval, hnd, hnsub, hbr, hhp, hqp2, hhq, hpsub, hqsub, h8⟩ := urlsplit_ok_facts hsp
    rw [hv]
    intro hm
    rcases mem_urlunsplit hm with hc | hc | hc | hc | hc | hc | hc
    · rw [hsch] at hc
      rcases hval with h0 | hok2
      · rw [h0] at hc
        simp at hc
      · exact (isSchemeChar_facts (schemeOk_all hok2 '#' hc)).2.2.2.1 rfl
    · rw [hnet] at hc
      exact (notDelim_true (hnd '#' hc)).2.2 rfl
    · have hless : '#' ∈ rstripSlashes pr.path ∨ '#' ∈ pr.params ∨ ('#' : Char) = ';' := by
        revert hc
        split
        · intro hc
          rcases List.mem_append.1 hc with hc | hc
          · exact Or.inl hc
          · rcases List.mem_cons.1 hc with he | hc
            · exact Or.inr (Or.inr he)
            · exact Or.inr (Or.inl hc)
        · intro hc
          exact Or.inl hc
      rcases hless with hc | hc | hc
      · exact hhp (hpathsub '#' (mem_rstrip hc))
      · exact hhp (hparamsub '#' hc)
      · exact absurd hc (by decide)
    · exact (qencChar_facts (newQueryOf_chars hc)).2.2.2.2.2.1 rfl
    · exact absurd hc (by decide)
    · exact absurd hc (by decide)
    · exact absurd hc (by decide)

theorem norm_clean_out {u v : String} (h : normalizeUrl u = .ok v) :
    cleanUrl v.data = v.data := by
  rcases normalize_ok_cases h with ⟨_, hv⟩ | ⟨pr, hpr, hv⟩
  · rw [hv]
    rfl
  · obtain ⟨sp, hsp, hsch, hnet, hq, hpathsub, hparamsub, hpalt⟩ := urlparse_path_subs hpr
    obtain ⟨hval, hnd, hnsub, hbr, hhp, hqp2, hhq, hpsub, hqsub, h8⟩ := urlsplit_ok_facts hsp
    rw [hv]
    apply norm_clean
    · rw [hsch]
      exact hval
    · rw [hnet]
      intro c hc
      exact mem_cleanUrl_not_unsafe (hnsub c hc)
    · intro c hc
      revert hc
      split
      · intro hc
        rcases List.mem_append.1 hc with hc | hc
        · exact mem_cleanUrl_not_unsafe (hpsub c (hpathsub c (mem_rstrip hc)))
        · rcases List.mem_cons.1 hc with rfl | hc
          · decide
          · exact mem_cleanUrl_not_unsafe (hpsub c (hparamsub c hc))
      · intro hc
        exact mem_cleanUrl_not_unsafe (hpsub c (hpathsub c (mem_rstrip hc)))
    · intro c hc
      exact newQueryOf_chars hc
    · intro hs0 hn0 c t he
      rw [hsch] at hs0
      revert he
      split
      · next hparne =>
        intro he
        cases hrp : rstripSlashes pr.path with
        | nil =>
          rw [hrp, List.nil_append] at he
          injection he with he1 _
          rw [← he1]
          decide
        | cons a t0 =>
          rw [hrp, List.cons_append] at he
          injection he with he1 _
          rw [← he1]
          exact url_head_c0 hsp hs0 hpalt hrp
      · intro he
        exact url_head_c0 hsp hs0 hpalt he

theorem normalize_reparse {x : List Char} {sp : USplit}
    (hok : urlsplitPy (pyLower x) = .ok sp)
    (hsemi : ';' ∉ sp.path)
    (hpct : '%' ∉ sp.query)
    (hcoll : ¬ (sp.netloc = [] ∧ sp.path.take 2 = ['/', '/'])) :
    normalizeUrl ⟨urlunsplitPy sp.scheme sp.netloc (rstripSlashes sp.path)
      (newQueryOf sp.query) []⟩
      = .ok ⟨urlunsplitPy sp.scheme sp.netloc (rstripSlashes sp.path)
        (newQueryOf sp.query) []⟩ := by
  obtain ⟨s, n, p, q, f⟩ := sp
  obtain ⟨hval, hnd, hnsub, hbr, hhp, hqp, hhq, hpsub, hqsub, h8⟩ := urlsplit_ok_facts hok
  have hfixc : ∀ c ∈ cleanUrl (pyLower x), lowerChar c = c :=
    fun c hc => mem_pyLower_fixed (mem_cleanUrl hc)
  have hqfix : ∀ c ∈ q, lowerChar c = c := fun c hc => hfixc c (hqsub c hc)
  have hnfix : pyLower n = n := pyLower_eq_self (fun c hc => hfixc c (hnsub c hc))
  have hsfix : pyLower s = s := urlsplit_scheme_fixed hok
  have hpfix2 : pyLower (rstripSlashes p) = rstripSlashes p :=
    pyLower_eq_self (fun c hc => hfixc c (hpsub c (mem_rstrip hc)))
  by_cases hv0 : urlunsplitPy s n (rstripSlashes p) (newQueryOf q) [] = []
  · rw [hv0]
    rfl
  · have hlow : pyLower (urlunsplitPy s n (rstripSlashes p) (newQueryOf q) [])
        = urlunsplitPy s n (rstripSlashes p) (pyLower (newQueryOf q)) [] :=
      pyLower_urlunsplit hsfix hnfix hpfix2
    have hpq2 : '?' ∉ rstripSlashes p := fun hm => hqp (mem_rstrip hm)
    have hph2 : '#' ∉ rstripSlashes p := fun hm => hhp (mem_rstrip hm)
    have hpu2 : ∀ c ∈ rstripSlashes p, isUnsafeByte c = false :=
      fun c hc => mem_cleanUrl_not_unsafe (hpsub c (mem_rstrip hc))
    have hstart2 : n ≠ [] → rstripSlashes p = [] ∨ (rstripSlashes p).take 1 = ['/'] := by
      intro hn0
      cases hr : rstripSlashes p with
      | nil => exact Or.inl rfl
      | cons c t =>
        right
        by_cases hc : c = '/'
        · rw [hc]
          rfl
        · exfalso
          obtain ⟨t2, ht2⟩ := rstrip_cons hr
          have h81 := (h8 (by rw [ht2]; simp)
            (by
              rw [ht2]
              intro he
              have he2 : ([c] : List Char) = ['/'] := he
              injection he2 with he1 _
              exact hc he1)).1
          exact hn0 h81
    have hp2cond : n = [] → (rstripSlashes p).take 2 ≠ ['/', '/'] := by
      intro hn0
      apply rstrip_take2_ne
      intro hpt
      exact hcoll ⟨hn0, hpt⟩
    have hreject2 : n = [] → s = [] → ∀ pre post,
        splitFirst ':' (rstripSlashes p) = some (pre, post) → schemeOk pre = false := by
      intro hn0 hs0 pre post hsp2
      obtain ⟨hpe, hprem⟩ := splitFirst_eq_some hsp2
      cases hpre : pre with
      | nil => rfl
      | cons a pre' =>
        by_cases ha : a = '/'
        · rw [ha]
          exact schemeOk_head_bad (by decide)
        · rw [hpre] at hpe
          have hr : rstripSlashes p = a :: (pre' ++ ':' :: post) := hpe
          obtain ⟨t2, ht2⟩ := rstrip_cons hr
          have h82 := (h8 (by rw [ht2]; simp)
            (by
              rw [ht2]
              intro he
              have he2 : ([a] : List Char) = ['/'] := he
              injection he2 with he1 _
              exact ha he1)).2 hs0
          obtain ⟨tl0, hcl⟩ := h82
          obtain ⟨k, hdec⟩ := rstripSlashes_decomp p
          have hclsp : splitFirst ':' (cleanUrl (pyLower x))
              = some (pre, post ++ (List.replicate k '/' ++ tl0)) := by
            rw [hcl, hdec, List.append_assoc]
            exact splitFirst_append_some hsp2 _
          obtain ⟨r1, r2, qtl, ftl, hsr, _, _, _, _, _, _, _⟩ := urlsplit_ok_decomp hok
          have hfst : (schemeSplit (cleanUrl (pyLower x))).1 = [] := by
            rw [hsr]
            exact hs0
          rw [← hpre]
          exact schemeSplit_nil_reject hfst hclsp
    have hheadc02 : n = [] → s = [] → ∀ c t, rstripSlashes p = c :: t →
        isC0Space c = false := by
      intro hn0 hs0 c t he
      exact url_head_c0 hok hs0 (Or.inl rfl) he
    have hq2 : pyLower (newQueryOf q) = [] ∨
        (pyLower (newQueryOf q) ≠ [] ∧ ∀ c ∈ pyLower (newQueryOf q), qencChar c) := by
      by_cases hq0 : newQueryOf q = []
      · left
        rw [hq0]
        rfl
      · right
        refine ⟨fun he => hq0 (pyLower_nil_iff.1 he), ?_⟩
        intro c hc
        obtain ⟨d, hd, he⟩ := List.mem_map.1 hc
        rw [← he]
        exact qencChar_lower (newQueryOf_chars hd)
    obtain ⟨p3, hparse, hp3fix, hp3mem, hp3un⟩ := rebuild_reparse hval hsfix hnd hbr
      (fun c hc => mem_cleanUrl_not_unsafe (hnsub c hc)) hpq2 hph2 hpu2
      (rstripSlashes_idem p) hstart2 hp2cond hreject2 hheadc02 hq2
    have hsemi3 : ';' ∉ p3 := by
      intro hm
      rcases hp3mem ';' hm with he | hm2
      · exact absurd he (by decide)
      · exact hsemi (mem_rstrip hm2)
    have hparse2 : urlparsePy (pyLower (urlunsplitPy s n (rstripSlashes p)
        (newQueryOf q) [])) = .ok ⟨s, n, p3, [], pyLower (newQueryOf q), []⟩ := by
      rw [hlow]
      exact urlparse_no_params hparse hsemi3
    have hshape := @normalize_shape ⟨urlunsplitPy s n (rstripSlashes p) (newQueryOf q) []⟩
      ⟨s, n, p3, [], pyLower (newQueryOf q), []⟩ hv0 hparse2
    rw [hshape]
    have hstable := newQueryOf_lower_stable hqfix hpct
    show Except.ok (⟨urlunsplitPy s n (rstripSlashes p3)
        (newQueryOf (pyLower (newQueryOf q))) []⟩ : String)
      = Except.ok (⟨urlunsplitPy s n (rstripSlashes p) (newQueryOf q) []⟩ : String)
    rw [hp3fix, hstable, hp3un (newQueryOf q)]

/-! ## `datetime` model and `parse_date`
(`src/event_finder/services/normalize.py`)

`datetime` values are naive timestamps to one-second resolution (the code
never constructs sub-second or timezone-aware values itself; extraction
collaborators could, but no claim depends on that).  `dateutil.parser.parse`
is an external library and enters as an oracle: `none` stands for the
`ValueError`/`TypeError`/`ParserError` outcomes the caller catches. -/

structure PyDateTime where
  year : Nat
  month : Nat
  day : Nat
  hour : Nat
  minute : Nat
  second : Nat
  deriving Repr, DecidableEq

/-- `datetime.date()`: the calendar-day projection. -/
def dateOf (d : PyDateTime) : Nat × Nat × Nat := (d.year, d.month, d.day)

/-- Lexicographic `≤` on calendar days, as Python compares `date`s. -/
def tripleLeB (a b : Nat × Nat × Nat) : Bool :=
  if a.1 < b.1 then true
  else if b.1 < a.1 then false
  else if a.2.1 < b.2.1 then true
  else if b.2.1 < a.2.1 then false
  else decide (a.2.2 ≤ b.2.2)

/-- Lexicographic `≤` on full timestamps, as Python compares `datetime`s. -/
def dtLeB (a b : PyDateTime) : Bool :=
  if a.year < b.year then true else if b.year < a.year then false
  else if a.month < b.month then true else if b.month < a.month then false
  else if a.day < b.day then true else if b.day < a.day then false
  else if a.hour < b.hour then true else if b.hour < a.hour then false
  else if a.minute < b.minute then true else if b.minute < a.minute then false
  else decide (a.second ≤ b.second)

/-- `datetime.max` (to the modelled resolution). -/
def dtMax : PyDateTime := ⟨9999, 12, 31, 23, 59, 59⟩

def isLeapYear (y : Nat) : Bool :=
  decide (y % 4 = 0 ∧ (y % 100 ≠ 0 ∨ y % 400 = 0))

def daysInMonth (y m : Nat) : Nat :=
  if m = 1 ∨ m = 3 ∨ m = 5 ∨ m = 7 ∨ m = 8 ∨ m = 10 ∨ m = 12 then 31
  else if m = 4 ∨ m = 6 ∨ m = 9 ∨ m = 11 then 30
  else if isLeapYear y then 29
  else 28

/-- The `datetime(year, month, day)` constructor: `ValueError` outside the
valid ranges (`MINYEAR = 1`, `MAXYEAR = 9999`). -/
def mkDatetime (y m d : Nat) : Except PyErr PyDateTime :=
  if 1 ≤ y ∧ y ≤ 9999 ∧ 1 ≤ m ∧ m ≤ 12 ∧ 1 ≤ d ∧ d ≤ daysInMonth y m then
    .ok ⟨y, m, d, 0, 0, 0⟩
  else .error .valueError

/-- ASCII whitespace stripped by `str.strip()`. -/
def isPySpace (c : Char) : Bool :=
  decide (c.toNat = 32 ∨ (9 ≤ c.toNat ∧ c.toNat ≤ 13))

def pyStrip (l : List Char) : List Char :=
  ((l.dropWhile isPySpace).reverse.dropWhile isPySpace).reverse

def isDigit (c : Char) : Bool := decide (48 ≤ c.toNat ∧ c.toNat ≤ 57)

/-- Match exactly `k` digits, returning them and the rest. -/
def takeDigits : Nat → List Char → Option (List Char × List Char)
  | 0, l => some ([], l)
  | _ + 1, [] => none
  | k + 1, c :: t =>
    if isDigit c then
      match takeDigits k t with
      | some (ds, r) => some (c :: ds, r)
      | none => none
    else none

def natOfDigits (ds : List Char) : Nat :=
  ds.foldl (fun acc c => 10 * acc + (c.toNat - 48)) 0

/-- Separator class of the ISO and US patterns: slash or dash. -/
def isSep1 (c : Char) : Bool := decide (c = '/' ∨ c = '-')

/-- Separator class of the European pattern: slash, dot or dash. -/
def isSep2 (c : Char) : Bool := decide (c = '/' ∨ c = '.' ∨ c = '-')

/-- Greedy `\d{1,2}` followed by the continuation `k`: try two digits,
backtrack to one. -/
def d12 {α : Type} (l : List Char) (k : Nat → List Char → Option α) : Option α :=
  match takeDigits 2 l with
  | some (ds, r) =>
    match k (natOfDigits ds) r with
    | some x => some x
    | none =>
      match takeDigits 1 l with
      | some (ds1, r1) => k (natOfDigits ds1) r1
      | none => none
  | none =>
    match takeDigits 1 l with
    | some (ds1, r1) => k (natOfDigits ds1) r1
    | none => none

/-- Greedy `\d{2,4}` at the end of a pattern: try 4, 3, then 2 digits. -/
def d24 (l : List Char) : Option Nat :=
  match takeDigits 4 l with
  | some (ds, _) => some (natOfDigits ds)
  | none =>
    match takeDigits 3 l with
    | some (ds, _) => some (natOfDigits ds)
    | none =>
      match takeDigits 2 l with
      | some (ds, _) => some (natOfDigits ds)
      | none => none

/-- One separator character from the class `sep`. -/
def sepChar {α : Type} (sep : Char → Bool) (l : List Char) (k : List Char → Option α) :
    Option α :=
  match l with
  | [] => none
  | c :: t => if sep c then k t else none

/-- The ISO pattern (4-digit year, sep, 1-2 digit month, sep, 1-2 digit
day) anchored at the current position. -/
def matchIsoAt (l : List Char) : Option (Nat × Nat × Nat) :=
  match takeDigits 4 l with
  | none => none
  | some (ys, r1) =>
    sepChar isSep1 r1 fun r2 =>
      d12 r2 fun mo r3 =>
        sepChar isSep1 r3 fun r4 =>
          d12 r4 fun dy _ => some (natOfDigits ys, mo, dy)

/-- The US and European patterns (1-2 digits, sep, 1-2 digits, sep, 2-4
digits) anchored at the current position. -/
def matchTwoAt (sep : Char → Bool) (l : List Char) : Option (Nat × Nat × Nat) :=
  d12 l fun g1 r1 =>
    sepChar sep r1 fun r2 =>
      d12 r2 fun g2 r3 =>
        sepChar sep r3 fun r4 =>
          match d24 r4 with
          | some g3 => some (g1, g2, g3)
          | none => none

/-- `re.search`: try the anchored matcher at each position, leftmost first. -/
def reSearch {α : Type} (f : List Char → Option α) : List Char → Option α
  | [] => f []
  | c :: t =>
    match f (c :: t) with
    | some x => some x
    | none => reSearch f t

/-- Two-digit year window: `year += 2000 if year < 50 else 1900`. -/
def fixYear (y : Nat) : Nat :=
  if y < 100 then (if y < 50 then y + 2000 else y + 1900) else y

inductive PyDateInput where
  | noneV
  | str (s : String)
  | dt (d : PyDateTime)

/-- `parse_date` from `src/event_finder/services/normalize.py`.  `fuzzy`
is the `dateutil.parser.parse(date_str, fuzzy=True)` oracle; `none` is a
failure the code catches.  Pattern fallbacks run in order ISO, then US,
then European; a `datetime()` `ValueError` is caught and falls through to
the next pattern. -/
def parseDate (fuzzy : String → Option PyDateTime) (input : PyDateInput) :
    Option PyDateTime :=
  match input with
  | .noneV => none
  | .dt d => some d
  | .str s =>
    if s.data = [] then none
    else
      let t := pyStrip s.data
      if t = [] then none
      else
        match fuzzy ⟨t⟩ with
        | some d => some d
        | none =>
          let r1 :=
            match reSearch matchIsoAt t with
            | some (y, mo, dy) => (mkDatetime y mo dy).toOption
            | none => none
          match r1 with
          | some d => some d
          | none =>
            let r2 :=
              match reSearch (matchTwoAt isSep1) t with
              | some (mo, dy, yr) => (mkDatetime (fixYear yr) mo dy).toOption
              | none => none
            match r2 with
            | some d => some d
            | none =>
              match reSearch (matchTwoAt isSep2) t with
              | some (dy, mo, yr) => (mkDatetime (fixYear yr) mo dy).toOption
              | none => none

/-! ## Data model (`src/event_finder/core/models.py`,
`src/event_finder/schemas.py`) -/

/-- `EventType(str, Enum)`: `in_person`, `online`, `N/A`. -/
inductive EventType where
  | in_person
  | online
  | notAvailable
  deriving Repr, DecidableEq

/-- Coercion of a string to the enum, as `EventType(value)` succeeds. -/
def EventType.fromStr (s : String) : Option EventType :=
  if s = "in_person" then some .in_person
  else if s = "online" then some .online
  else if s = "N/A" then some .notAvailable
  else none

structure Location where
  name : Option String
  addr : Option String
  city : Option String
  country : Option String
  deriving Repr, DecidableEq

/-- The `Event` pydantic model.  All fields keep their `models.py` types;
`event_type` is an `EventType` by construction because pydantic validates
it when an `Event` is created. -/
structure Event where
  url : Option String
  speakers : Option (List String)
  event_type : EventType
  event_name : Option String
  date : Option PyDateTime
  location : Option Location
  deriving Repr, DecidableEq

/-- pydantic validation of the `event_type` field when constructing an
`Event` from a raw string: unrecognized values raise `ValidationError`.
`Event.__post_init__` in `models.py` would coerce bad strings to
`EventType.NOT_AVAILABLE` instead, but pydantic `BaseModel` never invokes
`__post_init__`, so that method is dead code. -/
def validateEventType (raw : String) : Except PyErr EventType :=
  match EventType.fromStr raw with
  | some et => .ok et
  | none => .error .validationError

/-- `Event(event_type=raw)` with all other fields left at their defaults
(`url="N/A"`, `speakers=[]`, `event_name="N/A"`, `date=None`,
`location=None`). -/
def constructEventWithType (raw : String) : Except PyErr Event :=
  match validateEventType raw with
  | .ok et => .ok ⟨some "N/A", some [], et, some "N/A", none, none⟩
  | .error e => .error e

/-- The coercion the dead `__post_init__` would perform if it ran. -/
def postInitCoerce (raw : String) : EventType :=
  (EventType.fromStr raw).getD .notAvailable

structure ListEvent where
  events : List Event
  deriving Repr, DecidableEq

structure EventsResponse where
  speaker : String
  count : Nat
  events : List Event
  deriving Repr, DecidableEq

structure SerperSearchResult where
  title : String
  url : Option String
  snippet : String
  source : String
  deriving Repr, DecidableEq

structure SerperSearchResults where
  results : List SerperSearchResult
  deriving Repr, DecidableEq

/-! ## Serper search stage (`src/event_finder/services/serper.py`)

`batch_search` posts all queries in one request; the HTTP call and JSON
decode are the oracle `resp` (`.error` covers every exception the broad
`except` catches, returning an empty result).  Each per-query response
dict either has an `"organic"` list or not. -/

/-- One entry of a response's `"organic"` list; `none` fields model absent
keys, read with `r.get(key, "")`. -/
structure OrganicResult where
  title : Option String
  link : Option String
  snippet : Option String

/-- One per-query response dict of the Serper API. -/
structure QueryResponse where
  organic : Option (List OrganicResult)

def toSearchResult (r : OrganicResult) : SerperSearchResult :=
  ⟨r.title.getD "", some (r.link.getD ""), r.snippet.getD "", "serper"⟩

/-- The accumulation loop of `batch_search`.  Faithful to the source,
including the `else` branch that reassigns `output = []`, discarding
everything accumulated so far, whenever a response has no `"organic"`
key. -/
def batchLoop (maxResults : Nat) :
    List QueryResponse → List SerperSearchResult → List SerperSearchResult
  | [], out => out
  | r :: rest, out =>
    match r.organic with
    | some os => batchLoop maxResults rest (out ++ (os.take maxResults).map toSearchResult)
    | none => batchLoop maxResults rest []

/-- `SerperSearchService.batch_search` with `search_type="search"` and
`max_results = TOP_N`. -/
def batchSearch (maxResults : Nat) (resp : Except PyErr (List QueryResponse)) :
    SerperSearchResults :=
  match resp with
  | .error _ => ⟨[]⟩
  | .ok lst => ⟨batchLoop maxResults lst []⟩

/-! ## Workflow (`src/event_finder/services/workflow.py`) -/

/-- `EXCLUDE_DOMAINS` from `src/event_finder/config/lists.py`. -/
def excludeDomains : List String :=
  ["facebook.com", "twitter.com", "x.com", "linkedin.com", "instagram.com",
   "youtube.com", "tiktok.com", "reddit.com", "pinterest.com",
   "snapchat.com", "discord.com", "telegram.org", "whatsapp.com",
   "wikipedia.org", "amazon.com", "ebay.com", "craigslist.org",
   "indeed.com", "glassdoor.com", "monster.com", "careerbuilder.com"]

/-- `QUERY_TEMPLATES` applied to a name by `build_search_queries`
(`src/event_finder/core/utils.py`): `template.format(user_query)`. -/
def buildSearchQueries (name : String) : List String :=
  ["\"" ++ name ++ "\" upcoming events 2025",
   "\"" ++ name ++ "\" keynote conference",
   "\"" ++ name ++ "\" webinar workshop",
   "\"" ++ name ++ "\" speaking events",
   "site:eventbrite.com \"" ++ name ++ "\"",
   "site:meetup.com \"" ++ name ++ "\""]

/-- The URL-selection loop of `find_upcoming_events`: skip `None` URLs,
normalize, take the domain, skip excluded or already-seen domains,
otherwise accept.  `normalize_url` can raise, which propagates. -/
def selectGo : List SerperSearchResult → List String → List String →
    Except PyErr (List String × List String)
  | [], doms, urls => .ok (doms, urls)
  | r :: rest, doms, urls =>
    match r.url with
    | none => selectGo rest doms urls
    | some u =>
      match normalizeUrl u with
      | .error e => .error e
      | .ok nu =>
        if getDomainFromUrl nu ∉ excludeDomains ∧ getDomainFromUrl nu ∉ doms then
          selectGo rest (doms ++ [getDomainFromUrl nu]) (urls ++ [nu])
        else selectGo rest doms urls

/-- URL selection over the search results: returns
`(existed_domains, urls)`. -/
def selectUrls (results : List SerperSearchResult) :
    Except PyErr (List String × List String) :=
  selectGo results [] []

/-- `batch_urls[i:i + batch_size]` slicing, driven by a length fuel so the
function stays structurally recursive. -/
def chunkGo {α : Type} (n : Nat) : Nat → List α → List (List α)
  | 0, _ => []
  | _, [] => []
  | fuel + 1, l => l.take n :: chunkGo n fuel (l.drop n)

/-- Split a list into consecutive batches of size `n`. -/
def chunkBy {α : Type} (n : Nat) (l : List α) : List (List α) :=
  chunkGo n l.length l

/-- The value one awaited extraction batch task settles to, as inspected
by `extract_urls`: a `ListEvent`, or any other object (for instance the
`List[ExtractedContent]` that `firecrawl.extract_urls_content` actually
returns, which fails the `isinstance(result, ListEvent)` check). -/
inductive BatchResult where
  | listEvent (le : ListEvent)
  | otherValue

/-- `extract_urls` from `workflow.py`, with the extraction collaborator as
two oracles: `collabCall ` models calling `extract_urls_content(batch,
speaker)` (call-time exceptions such as a signature mismatch propagate,
because the list comprehension building `batch_tasks` is outside any
`try`), and `awaitTask ` models awaiting one task inside
`asyncio.gather(..., return_exceptions=True)`, whose exceptions are
captured and then skipped by the result loop.  Batches with a non-empty
`ListEvent` are kept in batch order and merged. -/
def extractUrls {τ : Type} (collabCall : List String → String → Except PyErr τ)
    (awaitTask : τ → Except PyErr BatchResult)
    (batchUrls : List String) (speaker : String) : Except PyErr ListEvent := do
  let batches := chunkBy 5 batchUrls
  let tasks ← batches.mapM (fun b => collabCall b speaker)
  let results := tasks.map awaitTask
  let successfulResults := results.filterMap fun r =>
    match r with
    | .ok (BatchResult.listEvent le) => if 0 < le.events.length then some le else none
    | .ok BatchResult.otherValue => none
    | .error _ => none
  .ok ⟨successfulResults.flatMap (fun le => le.events)⟩

/-- The actual extraction collaborator wired in by `workflow.py`:
`from event_finder.services.firecrawl import extract_urls_content`, whose
signature is `extract_urls_content(urls)` — one parameter — while the
workflow calls `extract_urls_content(batch, speaker)` with two positional
arguments.  In Python, calling an `async def` with the wrong arity raises
`TypeError` synchronously, before any task exists. -/
def firecrawlCollabCall (_ : List String) (_ : String) : Except PyErr Empty :=
  .error .typeError

/-- `extract_urls` as composed in the repository. -/
def extractUrlsReal (batchUrls : List String) (speaker : String) :
    Except PyErr ListEvent :=
  extractUrls firecrawlCollabCall (fun e => nomatch e) batchUrls speaker

/-- Python truthiness of the `Optional[str]` field `event_name`. -/
def nameTruthy : Option String → Bool
  | none => false
  | some s => decide (s ≠ "")

/-- The loop body of `deduplicate_and_filter_past_events`: keep an event
only when both `date` and `event_name` are truthy and its calendar day is
not before today's; deduplicate on the `(event_name, date)` pair, full
timestamp included, first occurrence winning. -/
def dedupGo (now : PyDateTime) :
    List Event → List (Option String × Option PyDateTime) → List Event
  | [], _ => []
  | ev :: rest, seen =>
    match ev.date with
    | some d =>
      if nameTruthy ev.event_name then
        if tripleLeB (dateOf now) (dateOf d) then
          if (ev.event_name, ev.date) ∈ seen then dedupGo now rest seen
          else ev :: dedupGo now rest ((ev.event_name, ev.date) :: seen)
        else dedupGo now rest seen
      else dedupGo now rest seen
    | none => dedupGo now rest seen

/-- `deduplicate_and_filter_past_events` (`now = datetime.now()` is passed
explicitly). -/
def dedupFilterPast (now : PyDateTime) (events : List Event) : List Event :=
  dedupGo now events []

/-- Sort key of `sort_events_by_date` (`src/event_finder/core/utils.py`):
the event's date, or `datetime.max` when absent. -/
def sortKeyOf (ev : Event) : PyDateTime := ev.date.getD dtMax

/-- Stable insertion: the new element goes after every element whose key
is `≤` its own, matching Python's stable `sorted`. -/
def insEv (x : Event) : List Event → List Event
  | [] => [x]
  | y :: ys => if dtLeB (sortKeyOf y) (sortKeyOf x) then y :: insEv x ys else x :: y :: ys

/-- `sort_events_by_date`: stable ascending sort by date with `None`
sorting last. -/
def sortEventsByDate (l : List Event) : List Event :=
  l.foldl (fun acc x => insEv x acc) []

/-- The date-normalization step of the post-processing loop:
`ev.date = parse_date(ev.date)` (the stored date is a `datetime` or
`None`, so `parse_date` passes it through). -/
def normalizeEventDate (fuzzy : String → Option PyDateTime) (ev : Event) : Event :=
  let di := match ev.date with
    | none => PyDateInput.noneV
    | some d => PyDateInput.dt d
  { ev with date := parseDate fuzzy di }

/-- The event-type filter step of `find_upcoming_events`: a falsy filter
string is no filter; a string `EventType(...)` rejects is no filter;
otherwise keep exactly the matching events. -/
def passesFilter (f : Option String) (ev : Event) : Bool :=
  match f with
  | none => true
  | some fs =>
    if fs = "" then true
    else
      match EventType.fromStr fs with
      | none => true
      | some et => decide (ev.event_type = et)

/-- `find_upcoming_events` (`src/event_finder/services/workflow.py`).
External effects are oracle parameters: `httpResp` is the outcome of the
Serper batch request, `collabCall `/`awaitTask ` the extraction
collaborator as in `extractUrls`, `fuzzy` the `dateutil` oracle used by
`parse_date`, `now` the clock, and `topN` the `TOP_N` setting.  Client
construction (`get_serper_client`, `get_openai_client`) is assumed to have
succeeded; the OpenAI client is only printed, never used. -/
def findUpcomingEvents {τ : Type}
    (httpResp : Except PyErr (List QueryResponse))
    (collabCall : List String → String → Except PyErr τ)
    (awaitTask : τ → Except PyErr BatchResult)
    (fuzzy : String → Option PyDateTime)
    (now : PyDateTime) (topN : Nat)
    (userQuery : String) (filterEventType : Option String) :
    Except PyErr EventsResponse := do
  let _queries := buildSearchQueries userQuery
  let searchResults := batchSearch topN httpResp
  let du ← selectUrls searchResults.results
  if du.2.length = 0 then
    .ok ⟨userQuery, 0, []⟩
  else do
    let scrape ← extractUrls collabCall awaitTask (du.2.take topN) userQuery
    if scrape.events.length = 0 then
      .ok ⟨userQuery, 0, []⟩
    else
      let filtered := (scrape.events.map (normalizeEventDate fuzzy)).filter
        (passesFilter filterEventType)
      let dd := dedupFilterPast now filtered
      let sorted := sortEventsByDate dd
      .ok ⟨userQuery, sorted.length, sorted⟩

/-! ## Helper lemmas for the workflow claims -/

theorem dedupGo_mem_props (now : PyDateTime) :
    ∀ (l : List Event) (seen : List (Option String × Option PyDateTime)) (ev : Event),
      ev ∈ dedupGo now l seen → ev.date.isSome ∧ nameTruthy ev.event_name = true := by
  intro l
  induction l with
  | nil =>
    intro seen ev h
    simp [dedupGo] at h
  | cons e rest ih =>
    intro seen ev h
    rw [dedupGo] at h
    split at h
    · next d heq =>
      split at h
      · split at h
        · split at h
          · exact ih _ ev h
          · rcases List.mem_cons.1 h with h | h
            · subst h
              refine ⟨?_, ?_⟩
              · rw [heq]
                rfl
              · assumption
            · exact ih _ ev h
        · exact ih _ ev h
      · exact ih _ ev h
    · exact ih _ ev h

theorem selectGo_nodup :
    ∀ (rs : List SerperSearchResult) (doms urls : List String)
      (out : List String × List String),
      selectGo rs doms urls = .ok out →
      urls.map getDomainFromUrl = doms → doms.Nodup →
      (out.2.map getDomainFromUrl).Nodup := by
  intro rs
  induction rs with
  | nil =>
    intro doms urls out h hmap hnd
    rw [selectGo] at h
    injection h with h
    subst h
    rw [hmap]
    exact hnd
  | cons r rest ih =>
    intro doms urls out h hmap hnd
    rw [selectGo] at h
    split at h
    · exact ih doms urls out h hmap hnd
    · split at h
      · exact absurd h (by simp)
      · next nu hnu =>
        split at h
        · next hc =>
          refine ih _ _ out h ?_ ?_
          · rw [List.map_append, hmap]
            rfl
          · rw [List.nodup_append]
            refine ⟨hnd, List.nodup_singleton _, ?_⟩
            intro x hx hx1
            rcases List.mem_singleton.1 hx1 with h1
            subst h1
            exact hc.2 hx
        · exact ih doms urls out h hmap hnd

theorem insEv_length (x : Event) : ∀ (l : List Event), (insEv x l).length = l.length + 1 := by
  intro l
  induction l with
  | nil => rfl
  | cons y ys ih =>
    rw [insEv]
    split
    · rw [List.length_cons, ih]
      rfl
    · rfl

theorem sortEventsByDate_length (l : List Event) :
    (sortEventsByDate l).length = l.length := by
  unfold sortEventsByDate
  suffices h : ∀ (acc : List Event),
      (l.foldl (fun acc x => insEv x acc) acc).length = acc.length + l.length by
    have := h []
    simpa using this
  induction l with
  | nil => intro acc; simp
  | cons x xs ih =>
    intro acc
    rw [List.foldl_cons, ih (insEv x acc), insEv_length]
    simp only [List.length_cons]
    omega

/-! ## Claims -/

/-- C1: the claim says `extract_urls` isolates per-batch failures and never
raises.  In the code as assembled this is false: `workflow.py` calls
`extract_urls_content(batch, speaker)` with two positional arguments while
`firecrawl.extract_urls_content(urls)` takes one, so building the task
list raises `TypeError` before `asyncio.gather` can capture anything, and
`extract_urls` propagates it for any nonempty URL list.  This theorem
evaluates the composed code at such an input. -/
theorem claim_c1_extract_urls_raises :
    extractUrlsReal ["https://a.com"] "alice" = .error PyErr.typeError := rfl

/-- C2: every `EventsResponse` that `find_upcoming_events` returns has
`count` equal to `len(events)`; at each of the three return sites the
count is computed from the event list being returned. -/
theorem claim_c2_count_eq_len {τ : Type}
    (httpResp : Except PyErr (List QueryResponse))
    (collabCall : List String → String → Except PyErr τ)
    (awaitTask : τ → Except PyErr BatchResult)
    (fuzzy : String → Option PyDateTime)
    (now : PyDateTime) (topN : Nat) (userQuery : String)
    (filterEventType : Option String) (resp : EventsResponse)
    (h : findUpcomingEvents httpResp collabCall awaitTask fuzzy now topN
      userQuery filterEventType = .ok resp) :
    resp.count = resp.events.length := by
  unfold findUpcomingEvents at h
  simp only [Bind.bind, Except.bind] at h
  split at h
  · exact absurd h (by simp)
  · split at h
    · injection h with h
      subst h
      rfl
    · split at h
      · exact absurd h (by simp)
      · split at h
        · injection h with h
          subst h
          rfl
        · injection h with h
          subst h
          rfl

/-- Closed instance of C2 at a concrete, fully evaluated input (an empty
search response short-circuits to the zero-count response). -/
theorem claim_c2_count_eq_len_witness :
    (⟨"alice", 0, []⟩ : EventsResponse).count
      = (⟨"alice", 0, []⟩ : EventsResponse).events.length :=
  claim_c2_count_eq_len (τ := Empty) (.ok []) (fun _ _ => .error .typeError)
    (fun e => nomatch e) (fun _ => none) ⟨2025, 6, 15, 0, 0, 0⟩ 20 "alice" none
    ⟨"alice", 0, []⟩ rfl

/-- C3: the claim says `batch_search` flattens every query's results in
order.  The code's `else` branch executes `output = []` when a response
has no `"organic"` key, discarding the results of all earlier queries;
with one organic result in query 1 and an organic-free response for query
2 the code returns nothing, while the same first query alone returns its
result.  This theorem evaluates the code at that failing input. -/
theorem claim_c3_batch_search_reset :
    batchSearch 20 (.ok [⟨some [⟨some "E1", some "http://ex1.com", some "s1"⟩]⟩,
        ⟨none⟩])
      = ⟨[]⟩ ∧
    batchSearch 20 (.ok [⟨some [⟨some "E1", some "http://ex1.com", some "s1"⟩]⟩])
      = ⟨[⟨"E1", some "http://ex1.com", "s1", "serper"⟩]⟩ :=
  ⟨rfl, rfl⟩

/-- C4: the claim says constructing an `Event` with an unrecognized
`event_type` string never raises and coerces to the unknown value.  Under
pydantic `BaseModel`, field validation rejects the string with
`ValidationError` and the coercing `__post_init__` is never invoked; the
second conjunct shows what the dead method would have produced. -/
theorem claim_c4_event_type_validation :
    constructEventWithType "webinar" = .error PyErr.validationError ∧
    postInitCoerce "webinar" = EventType.notAvailable :=
  ⟨rfl, rfl⟩

/-- C5 counterexample: an event with an `event_name` but a null `date` IS
dropped by `deduplicate_and_filter_past_events`, contrary to the claim
that only events lacking both fields are dropped (`if ev.date and
ev.event_name` requires both). -/
theorem claim_c5_counterexample :
    dedupFilterPast ⟨2025, 6, 15, 12, 0, 0⟩
      [⟨some "u", some [], EventType.notAvailable, some "X Conference", none, none⟩]
      = [] := rfl

/-- C5 (amended): `deduplicate_and_filter_past_events` drops an event as
incomplete when it lacks a date OR lacks a truthy event name; every event
it returns has both. -/
theorem claim_c5_amended (now : PyDateTime) (events : List Event) (ev : Event)
    (h : ev ∈ dedupFilterPast now events) :
    ev.date.isSome ∧ nameTruthy ev.event_name = true :=
  dedupGo_mem_props now events [] ev h

/-- Closed instance of C5 (amended) at a concrete input. -/
theorem claim_c5_amended_witness :
    (⟨some "u", some [], EventType.notAvailable, some "X", some ⟨2026, 1, 2, 0, 0, 0⟩,
        none⟩ : Event).date.isSome
      ∧ nameTruthy (⟨some "u", some [], EventType.notAvailable, some "X",
        some ⟨2026, 1, 2, 0, 0, 0⟩, none⟩ : Event).event_name = true :=
  claim_c5_amended ⟨2025, 6, 15, 12, 0, 0⟩
    [⟨some "u", some [], EventType.notAvailable, some "X", some ⟨2026, 1, 2, 0, 0, 0⟩, none⟩]
    ⟨some "u", some [], EventType.notAvailable, some "X", some ⟨2026, 1, 2, 0, 0, 0⟩, none⟩
    (by decide)

/-- C8: `parse_date` is total: null and empty (or all-whitespace) input
give null, a `datetime` passes through unchanged, and when the fuzzy
parser fails and none of the three pattern searches matches, the result is
null — every exception path is caught.  The `dateutil` call is the oracle
`fuzzy`, whose `none` models the `ValueError`/`TypeError`/`ParserError`
outcomes the code catches. -/
theorem claim_c8_parse_date_total (fuzzy : String → Option PyDateTime) :
    parseDate fuzzy .noneV = none ∧
    (∀ d, parseDate fuzzy (.dt d) = some d) ∧
    (∀ s, pyStrip s.data = [] → parseDate fuzzy (.str s) = none) ∧
    (∀ s, fuzzy ⟨pyStrip s.data⟩ = none →
      reSearch matchIsoAt (pyStrip s.data) = none →
      reSearch (matchTwoAt isSep1) (pyStrip s.data) = none →
      reSearch (matchTwoAt isSep2) (pyStrip s.data) = none →
      parseDate fuzzy (.str s) = none) := by
  refine ⟨rfl, fun d => rfl, ?_, ?_⟩
  · intro s hstrip
    simp only [parseDate]
    by_cases hd : s.data = []
    · rw [if_pos hd]
    · rw [if_neg hd, if_pos hstrip]
  · intro s hfuzzy h1 h2 h3
    simp only [parseDate]
    by_cases hd : s.data = []
    · rw [if_pos hd]
    · rw [if_neg hd]
      by_cases hstrip : pyStrip s.data = []
      · rw [if_pos hstrip]
      · rw [if_neg hstrip, hfuzzy, h1, h2, h3]

/-- Closed instance of C8 at concrete inputs. -/
theorem claim_c8_parse_date_total_witness :
    parseDate (fun _ => none) (.str "hello world") = none :=
  (claim_c8_parse_date_total (fun _ => none)).2.2.2 "hello world"
    rfl (by decide) (by decide) (by decide)

/-- C9: the URL-selection stage keeps at most one URL per registrable
domain: the selected list's domains are pairwise distinct, because a URL
is accepted only when its domain is not among the already-accepted
domains. -/
theorem claim_c9_domain_dedup (results : List SerperSearchResult)
    (doms urls : List String) (h : selectUrls results = .ok (doms, urls)) :
    (urls.map getDomainFromUrl).Nodup :=
  selectGo_nodup results [] [] (doms, urls) h rfl List.nodup_nil

/-- Closed instance of C9: two same-domain URLs yield one selected URL. -/
theorem claim_c9_domain_dedup_witness :
    ((["http://a.com/x"] : List String).map getDomainFromUrl).Nodup :=
  claim_c9_domain_dedup
    [⟨"t1", some "http://a.com/x", "s1", "serper"⟩,
     ⟨"t2", some "http://a.com/y", "s2", "serper"⟩]
    ["a.com"] ["http://a.com/x"] (by rfl)

/-- C10: the deduplication key is `(event_name, date)` with the full
timestamp, not the calendar day: two non-past events with the same name
whose dates share a calendar day but differ in time are both kept. -/
theorem claim_c10_dedup_full_timestamp (now : PyDateTime) (e1 e2 : Event)
    (d1 d2 : PyDateTime)
    (h1 : e1.date = some d1) (h2 : e2.date = some d2)
    (hn : e1.event_name = e2.event_name)
    (hnt : nameTruthy e1.event_name = true)
    (hne : d1 ≠ d2) (hday : dateOf d1 = dateOf d2)
    (hfut : tripleLeB (dateOf now) (dateOf d1) = true) :
    dedupFilterPast now [e1, e2] = [e1, e2] := by
  unfold dedupFilterPast
  rw [dedupGo]
  simp only [h1]
  rw [if_pos hnt, if_pos hfut, if_neg (by simp)]
  rw [dedupGo]
  simp only [h2]
  rw [if_pos (hn ▸ hnt), if_pos (hday ▸ hfut)]
  rw [if_neg ?hkey]
  · rfl
  case hkey =>
    intro hmem
    rcases List.mem_singleton.1 hmem with hx
    have hsnd : (some d2 : Option PyDateTime) = some d1 := congrArg Prod.snd hx
    injection hsnd with hsnd
    exact hne hsnd.symm

/-- Closed instance of C10: 2025-07-01 10:00 and 18:00 both survive. -/
theorem claim_c10_dedup_full_timestamp_witness :
    dedupFilterPast ⟨2025, 6, 15, 9, 30, 0⟩
      [⟨some "u1", some [], EventType.notAvailable, some "KeyNote", some ⟨2025, 7, 1, 10, 0, 0⟩, none⟩,
       ⟨some "u2", some [], EventType.notAvailable, some "KeyNote", some ⟨2025, 7, 1, 18, 0, 0⟩, none⟩]
      = [⟨some "u1", some [], EventType.notAvailable, some "KeyNote", some ⟨2025, 7, 1, 10, 0, 0⟩, none⟩,
         ⟨some "u2", some [], EventType.notAvailable, some "KeyNote", some ⟨2025, 7, 1, 18, 0, 0⟩, none⟩] :=
  claim_c10_dedup_full_timestamp ⟨2025, 6, 15, 9, 30, 0⟩ _ _
    ⟨2025, 7, 1, 10, 0, 0⟩ ⟨2025, 7, 1, 18, 0, 0⟩ rfl rfl rfl (by decide)
    (by decide) (by decide) (by decide)

/-! ## Claims C6 and C7: `normalize_url` idempotence and output properties -/

theorem queryKeys_norm {u v : String} (h : normalizeUrl u = .ok v) :
    queryKeysOf v = [] ∨ ∃ q, queryKeysOf v = (filteredQuery q).map Prod.fst := by
  rcases normalize_ok_cases h with ⟨_, hv⟩ | ⟨pr, hpr, hv⟩
  · left
    rw [hv]
    rfl
  · obtain ⟨sp, hsp, hsch, hnet, hq, hpathsub, hparamsub, _⟩ := urlparse_path_subs hpr
    obtain ⟨hval, hnd, hnsub, hbr, hhp, hqp2, hhq, hpsub, hqsub, h8⟩ := urlsplit_ok_facts hsp
    have hqA : '?' ∉ urlunsplitPy pr.scheme pr.netloc
        (if pr.params ≠ [] then rstripSlashes pr.path ++ ';' :: pr.params
          else rstripSlashes pr.path) [] [] := by
      intro hm
      rcases mem_unsplit_noq hm with hc | hc | hc | hc | hc
      · rw [hsch] at hc
        rcases hval with h0 | hok2
        · rw [h0] at hc
          simp at hc
        · exact (isSchemeChar_facts (schemeOk_all hok2 '?' hc)).2.2.1 rfl
      · rw [hnet] at hc
        exact (notDelim_true (hnd '?' hc)).2.1 rfl
      · revert hc
        split
        · intro hc
          rcases List.mem_append.1 hc with hc | hc
          · exact hqp2 (hpathsub '?' (mem_rstrip hc))
          · rcases List.mem_cons.1 hc with he | hc
            · exact absurd he (by decide)
            · exact hqp2 (hparamsub '?' hc)
        · intro hc
          exact hqp2 (hpathsub '?' (mem_rstrip hc))
      · exact absurd hc (by decide)
      · exact absurd hc (by decide)
    unfold queryKeysOf
    cases hsp' : urlsplitPy v.data with
    | error e => exact Or.inl rfl
    | ok sp' =>
      right
      refine ⟨pr.query, ?_⟩
      have hq2 : sp'.query = newQueryOf pr.query := by
        apply reparse_query hsp' (norm_clean_out h) (norm_no_hash h)
        by_cases hq0 : newQueryOf pr.query = []
        · right
          refine ⟨?_, hq0⟩
          rw [hv, hq0]
          exact hqA
        · left
          refine ⟨?_, hqA⟩
          rw [hv, unsplit_query, if_neg hq0]
      dsimp only
      rw [hq2, parseQs_newQuery]

/-- Input `"http://a.com/x;/"` refutes idempotence of `normalize_url`:
one application gives `"http://a.com/x;"` (the trailing `/` is the last
path segment, so `_splitparams` finds no `;`-params and only `rstrip`
fires), but a second application splits `;`-params out of the new last
segment and gives `"http://a.com/x"`. -/
theorem claim_c6_counterexample :
    normalizeUrl "http://a.com/x;/" = .ok "http://a.com/x;" ∧
    normalizeUrl "http://a.com/x;" = .ok "http://a.com/x" ∧
    ("http://a.com/x;" : String) ≠ "http://a.com/x" :=
  ⟨by rfl, by rfl, by decide⟩

/-- C6 (amended): `normalize_url` is idempotent on inputs satisfying
`idemSafe` — the lowercased input parses (no unbalanced IPv6 bracket
`ValueError`), its path has no `;` (no params split on re-parse), its
query has no `%`-escapes (re-encoding is then stable), and it is not a
netloc-less URL whose path starts `//` (which `urlunsplit` re-reads as a
netloc).  On such inputs, if `normalize_url u` returns `v` then
`normalize_url v` returns `v` again. -/
theorem claim_c6_idempotent_amended {u v : String} (hsafe : idemSafe u = true)
    (hok : normalizeUrl u = .ok v) : normalizeUrl v = .ok v := by
  by_cases hne : u.data = []
  · have hv : v = "" := by
      unfold normalizeUrl at hok
      rw [if_pos hne] at hok
      injection hok with hok
      exact hok.symm
    rw [hv]
    rfl
  · obtain ⟨sp, hsp, hsemi, hpct, hcoll⟩ := idemSafe_spec hsafe
    have hup : urlparsePy (pyLower u.data)
        = .ok ⟨sp.scheme, sp.netloc, sp.path, [], sp.query, sp.frag⟩ :=
      urlparse_no_params hsp hsemi
    have hshape := normalize_shape hne hup
    rw [hshape] at hok
    injection hok with hok
    rw [← hok]
    exact normalize_reparse hsp hsemi hpct hcoll

theorem claim_c6_idempotent_amended_witness :
    idemSafe "HTTP://Ex.com/a/?b=2&a=1&utm_source=T#frag" = true ∧
    normalizeUrl "HTTP://Ex.com/a/?b=2&a=1&utm_source=T#frag"
      = .ok "http://ex.com/a?a=1&b=2" ∧
    normalizeUrl "http://ex.com/a?a=1&b=2" = .ok "http://ex.com/a?a=1&b=2" :=
  ⟨by rfl, by rfl,
    @claim_c6_idempotent_amended "HTTP://Ex.com/a/?b=2&a=1&utm_source=T#frag"
      "http://ex.com/a?a=1&b=2" (by rfl) (by rfl)⟩

/-- Input `"http://a.com/p//"` refutes "strips exactly a single trailing
slash": `rstrip('/')` removes every trailing slash, giving
`"http://a.com/p"`, not `"http://a.com/p/"`. -/
theorem claim_c7_counterexample :
    normalizeUrl "http://a.com/p//" = .ok "http://a.com/p" ∧
    ("http://a.com/p" : String) ≠ "http://a.com/p/" :=
  ⟨by rfl, by decide⟩

/-- C7 (amended): `normalize_url` (a) depends only on the lowercased
input (it lowercases the URL before parsing; `%`-escapes it re-encodes
into the query are the one place uppercase can reappear); (b) no query
key of a returned URL lowercases into the tracking set; (c) the returned
query keys are sorted; (d) the path handling strips ALL trailing slashes
(`rstrip('/')`), not exactly one; (e) a returned URL never contains a
fragment `#`; (f) falsy (empty) input returns `""` without raising.
(`urlsplit` can still raise `ValueError` on unbalanced IPv6 brackets, so
a result is not guaranteed for every input.) -/
theorem claim_c7_normalize_properties_amended :
    (∀ u : String, normalizeUrl ⟨pyLower u.data⟩ = normalizeUrl u) ∧
    (∀ u v : String, normalizeUrl u = .ok v →
      ∀ k ∈ queryKeysOf v, pyLower k ∉ trackingParams) ∧
    (∀ u v : String, normalizeUrl u = .ok v →
      List.Pairwise (fun a b => lexLeB a b = true) (queryKeysOf v)) ∧
    (∀ p : List Char, rstripSlashes (p ++ ['/']) = rstripSlashes p) ∧
    (∀ u v : String, normalizeUrl u = .ok v → '#' ∉ v.data) ∧
    normalizeUrl "" = .ok "" := by
  refine ⟨?_, ?_, ?_, ?_, ?_, ?_⟩
  · intro u
    cases u with
    | mk ud =>
      show normalizeUrl ⟨pyLower ud⟩ = normalizeUrl ⟨ud⟩
      unfold normalizeUrl
      dsimp only
      rw [pyLower_idem]
      by_cases hne : ud = []
      · rw [if_pos hne, if_pos (show pyLower ud = [] by rw [hne]; rfl)]
      · rw [if_neg hne, if_neg (fun he => hne (pyLower_nil_iff.1 he))]
  · intro u v hok k hk
    rcases queryKeys_norm hok with h0 | ⟨q, hq⟩
    · rw [h0] at hk
      simp at hk
    · rw [hq] at hk
      obtain ⟨kv, hkv, he⟩ := List.mem_map.1 hk
      rw [← he]
      exact (filteredQuery_mem_facts hkv).2.2
  · intro u v hok
    rcases queryKeys_norm hok with h0 | ⟨q, hq⟩
    · rw [h0]
      exact List.Pairwise.nil
    · rw [hq]
      exact List.pairwise_map.2 (filteredQuery_sorted q)
  · exact fun p => rstripSlashes_append_slash p
  · exact fun u v h => norm_no_hash h
  · rfl

theorem claim_c7_normalize_properties_amended_witness :
    (∀ k ∈ queryKeysOf "http://a.com/p?a=2&b=1", pyLower k ∉ trackingParams) ∧
    List.Pairwise (fun a b => lexLeB a b = true)
      (queryKeysOf "http://a.com/p?a=2&b=1") ∧
    '#' ∉ ("http://a.com/p?a=2&b=1" : String).data :=
  ⟨claim_c7_normalize_properties_amended.2.1
      "HTTP://A.com/p//?b=1&a=2&gclid=xyz#f" _ (by rfl),
   claim_c7_normalize_properties_amended.2.2.1
      "HTTP://A.com/p//?b=1&a=2&gclid=xyz#f" _ (by rfl),
   claim_c7_normalize_properties_amended.2.2.2.2.1
      "HTTP://A.com/p//?b=1&a=2&gclid=xyz#f" _ (by rfl)⟩

end EventFinder
